import Mathlib

/-!
# U-MPR reconciliation (`Reconciliation_method2/main.go`)

A shallow embedding of the dynamic program of `UMPR` and of its helpers.

Representation.

* A `float64` is an integer or `+Inf` (`Val`): the program only adds and compares
  integers and `+Inf`, so no other value can arise.  The integer `n` stands for
  `float64(n)`; sums are kept exact, as float64 keeps them up to `2^53` in magnitude.
* A Go `int` has 64 bits.  The weights enter the float64 arithmetic through
  `float64(...)`; the two products the program forms before that conversion,
  `PLoss * dist` and `2*PLoss`, are products of 64-bit integers and wrap around
  (`wrap64`).
* A tree is the slice of its nodes (`Tree`); a node pointer (`Ptr`) is `none` for
  nil and `some i` for the node at position `i` of the slice of its own tree.  Gene
  nodes and species nodes live in two separate slices.
* A `map[*Node]float64` is a total function on pointers (`NodeMap`): in Go a key
  that was never written reads as `0`, and the program never asks whether a key is
  present.
* Recursion along pointers carries a fuel argument, since a pointer graph may be
  cyclic; a run that stops without a result ends in a `Fault`.
-/

namespace Recon

/-- Values of type float64 that the program can hold: an integer or +Inf. -/
abbrev Val := WithTop Int

/-- The value a Go `int` of 64 bits holds after an arithmetic operation whose exact
result is `x`: the result wraps around to the range from `-2^63` to `2^63 - 1`. -/
def wrap64 (x : Int) : Int := (x + 2 ^ 63) % 2 ^ 64 - 2 ^ 63

/-- A node pointer: nil, or the position of the node in the slice of its tree. -/
abbrev Ptr := Option Nat

/-- A Go map from node pointers to float64; a key that was never written reads as 0. -/
abbrev NodeMap := Ptr → Val

/-- Ways in which a run stops without a result: the four Go panics the program can
raise, a pointer that leads outside the slice of its tree, and exhausted fuel. -/
inductive Fault where
  | indexOutOfRange
  | nilDereference
  | noItems
  | noInternalNodes
  | strayPointer
  | outOfFuel
  deriving DecidableEq, Repr

deriving instance DecidableEq for Except

/-- The fields of the Go struct `Node` that the reconciliation reads or writes. -/
structure Node where
  label : String
  event : String
  parent : Ptr
  child1 : Ptr
  child2 : Ptr
  L : List Nat
  cost : NodeMap
  speciation : NodeMap
  duplication : NodeMap
  transfer : NodeMap
  in_ : NodeMap
  inAlt : NodeMap
  out : NodeMap

/-- The Go type `Tree`: the slice of the nodes of a tree. -/
abbrev Tree := List Node

/-- The map returned by `make`: every key reads as 0. -/
def emptyMap : NodeMap := fun _ => 0

instance : Inhabited Node :=
  ⟨⟨"", "", none, none, none, [], emptyMap, emptyMap, emptyMap, emptyMap, emptyMap,
    emptyMap, emptyMap⟩⟩

/-- The assignment `m[k] = v`. -/
def NodeMap.set (m : NodeMap) (k : Ptr) (v : Val) : NodeMap :=
  fun j => if j = k then v else m j

/-- Names of the seven cost maps of a node. -/
inductive Field where
  | cost | speciation | duplication | transfer | in_ | inAlt | out
  deriving DecidableEq, Repr

/-- The map `n.f`. -/
def Node.get (n : Node) : Field → NodeMap
  | .cost => n.cost
  | .speciation => n.speciation
  | .duplication => n.duplication
  | .transfer => n.transfer
  | .in_ => n.in_
  | .inAlt => n.inAlt
  | .out => n.out

/-- The assignment `n.f[k] = v`. -/
def Node.put (n : Node) (f : Field) (k : Ptr) (v : Val) : Node :=
  match f with
  | .cost => { n with cost := n.cost.set k v }
  | .speciation => { n with speciation := n.speciation.set k v }
  | .duplication => { n with duplication := n.duplication.set k v }
  | .transfer => { n with transfer := n.transfer.set k v }
  | .in_ => { n with in_ := n.in_.set k v }
  | .inAlt => { n with inAlt := n.inAlt.set k v }
  | .out => { n with out := n.out.set k v }

/-- The assignment `n.event = e`. -/
def Node.setEvent (n : Node) (e : String) : Node := { n with event := e }

/-- The node behind a pointer that leads into the slice. -/
def nd (t : Tree) (i : Nat) : Node := (t[i]?).getD default

/-- The read `t[g].f[k]`. -/
def rd (t : Tree) (g : Nat) (f : Field) (k : Ptr) : Val := (nd t g).get f k

/-- The assignment `t[g].f[k] = v`. -/
def wr (t : Tree) (g : Nat) (f : Field) (k : Ptr) (v : Val) : Tree :=
  t.set g ((nd t g).put f k v)

/-- The assignment `t[g].event = e`. -/
def wrEvent (t : Tree) (g : Nat) (e : String) : Tree :=
  t.set g ((nd t g).setEvent e)

/-- Go `Min`: panics on the empty array, returns the only element of a one-element
array, returns `arr[0]` when `arr[0] < arr[1]`, and otherwise recurses on `arr[1:]`. -/
def Min : List Val → Except Fault Val
  | [] => .error .noItems
  | [a] => .ok a
  | a :: b :: rest => if a < b then .ok a else Min (b :: rest)

/-- Go `Min9`. -/
def Min9 (a b c d e f g h i : Val) : Except Fault Val :=
  Min [a, b, c, d, e, f, g, h, i]

/-- Go `MinDup`, on the records of the gene nodes `g1`, `g2` and the pointers to the
species nodes `s`, `s1`, `s2`; `float64(2*PLoss)` converts a product of 64-bit
integers. -/
def MinDup (g1 g2 : Node) (s s1 s2 : Ptr) (PLoss : Int) : Except Fault Val :=
  Min9 (g1.cost s + g2.in_ s2 + (PLoss : Val)) (g1.cost s + g2.in_ s1 + (PLoss : Val))
    (g2.cost s + g1.in_ s2 + (PLoss : Val)) (g2.cost s + g1.in_ s1 + (PLoss : Val))
    (g1.cost s + g2.cost s) (g1.in_ s1 + g2.in_ s2 + ((wrap64 (2 * PLoss) : Int) : Val))
    (g1.in_ s2 + g2.in_ s1 + ((wrap64 (2 * PLoss) : Int) : Val))
    (g1.in_ s1 + g2.in_ s1 + ((wrap64 (2 * PLoss) : Int) : Val))
    (g1.in_ s2 + g2.in_ s2 + ((wrap64 (2 * PLoss) : Int) : Val))

/-- Go `Min3`: the value and the event label. -/
def Min3 (a b c : Val) : Val × String :=
  let min := if a > b then b else a
  let events := if a > b then "duplication" else "speciation"
  if min > c then (c, "transfer") else (min, events)

/-- Go `Min3M`. -/
def Min3M (a b c : Val) : Val :=
  let min := if a > b then b else a
  if min > c then c else min

/-- Go `Min2`. -/
def Min2 (a b : Val) : Val :=
  if a > b then b else a

/-- Go `NotRoot`: compares the label of `s` with the label of the last node. -/
def NotRoot (s : Node) (speciesT : Tree) : Except Fault Bool :=
  match speciesT.getLast? with
  | none => .error .indexOutOfRange
  | some r => .ok (decide (s.label ≠ r.label))

/-- The loop of `SLeave` from position `i` with `n` rounds left. -/
def SLeave.loop (s : Node) (speciesT : Tree) : Nat → Nat → Except Fault Bool
  | _, 0 => .ok false
  | i, n + 1 =>
    match speciesT[i]? with
    | none => .error .indexOutOfRange
    | some k => if s.label = k.label then .ok true else SLeave.loop s speciesT (i + 1) n

/-- Go `SLeave`: is the label of `s` the label of one of the first `speciesLeave` nodes. -/
def SLeave (s : Node) (speciesT : Tree) (speciesLeave : Nat) : Except Fault Bool :=
  SLeave.loop s speciesT 0 speciesLeave

/-- A `for ... range` loop whose body may stop the run: `f` is the body, the list holds
the values the loop variable takes. -/
def loopM {σ α : Type} (f : σ → α → Except Fault σ) : List α → σ → Except Fault σ
  | [], s => .ok s
  | a :: rest, s =>
    match f s a with
    | .error e => .error e
    | .ok s1 => loopM f rest s1

/-- The inner loop of `FindAncestors`: follow the parent pointers from `p` and append
every node met. -/
def FindAncestors.climb (speciesT : Tree) : Nat → Nat → List Nat → Except Fault (List Nat)
  | 0, _, _ => .error .outOfFuel
  | fuel + 1, p, ancestors =>
    match speciesT[p]? with
    | none => .error .strayPointer
    | some pn =>
      match pn.parent with
      | none => .ok ancestors
      | some q => FindAncestors.climb speciesT fuel q (ancestors ++ [q])

/-- Go `FindAncestors`: starts from `l.L[0]` (a panic when `l.L` is empty) and
appends the strict ancestors of every node of `l.L`. -/
def FindAncestors (fuel : Nat) (l : Node) (speciesT : Tree) : Except Fault (List Nat) :=
  match l.L with
  | [] => .error .indexOutOfRange
  | s0 :: _ =>
    loopM (fun ancestors node => FindAncestors.climb speciesT fuel node ancestors) l.L [s0]

/-- Go `Mapped`. -/
def Mapped (l k : Node) : Bool := decide (l.label = k.label)

/-- Go `InitializeLMap`. -/
def InitializeLMap (geneT speciesT : Tree) (geneLeave speciesLeave : Nat) :
    Except Fault Tree :=
  loopM (fun t i =>
    loopM (fun t j =>
      match t[i]?, speciesT[j]? with
      | some gi, some sj =>
        if gi.label = sj.label then .ok (t.set i { gi with L := gi.L ++ [j] }) else .ok t
      | _, _ => .error .indexOutOfRange) (List.range speciesLeave) t)
    (List.range geneLeave) (geneT.map fun n => { n with L := [] })

/-- Go `InitializeCosts`, for the gene node `g` and the species node at position `s`. -/
def InitializeCosts (g : Node) (s : Nat) : Node :=
  { g with
    cost := g.cost.set (some s) ⊤
    speciation := g.speciation.set (some s) ⊤
    duplication := g.duplication.set (some s) ⊤
    transfer := g.transfer.set (some s) ⊤
    inAlt := g.inAlt.set (some s) ⊤
    in_ := g.in_.set (some s) ⊤
    out := g.out.set (some s) ⊤ }

/-- Go `GetLeaveNodes`: pointers to the first `leaveNum` nodes. -/
def GetLeaveNodes (geneT : Tree) (leaveNum : Nat) : Except Fault (List Nat) :=
  if leaveNum ≤ geneT.length then .ok (List.range leaveNum) else .error .indexOutOfRange

/-- Go `InitializeTree`. -/
def InitializeTree (geneT : Tree) (_speciesN : Nat) : Tree :=
  geneT.map fun i =>
    { i with cost := emptyMap, speciation := emptyMap, duplication := emptyMap,
             transfer := emptyMap, in_ := emptyMap, inAlt := emptyMap, out := emptyMap }

/-- Go `OptimalCost`. -/
def OptimalCost (rootNode : Node) (speciesT : Tree) : Except Fault Val :=
  match speciesT with
  | [] => .error .indexOutOfRange
  | _ :: _ =>
    .ok ((List.range' 1 (speciesT.length - 1)).foldl
      (fun min i => if rootNode.cost (some i) < min then rootNode.cost (some i) else min)
      (rootNode.cost (some 0)))

/-- Go `PreOrderIntNSpT`, on the record of the gene node `g`, the only node it
touches. -/
def PreOrderIntNSpT (speciesT : Tree) : Nat → Ptr → Node → Except Fault Node
  | _, none, _ => .error .noInternalNodes
  | 0, some _, _ => .error .outOfFuel
  | fuel + 1, some r, g =>
    match speciesT[r]? with
    | none => .error .strayPointer
    | some rn =>
      match rn.child1, rn.child2 with
      | some c1, some c2 =>
        let s1 := rn.child1
        let s2 := rn.child2
        let g := g.put .out s1 (Min2 (g.out (some r)) (g.inAlt s2))
        let g := g.put .out s2 (Min2 (g.out (some r)) (g.inAlt s1))
        match PreOrderIntNSpT speciesT fuel (some c1) g with
        | .error e => .error e
        | .ok g => PreOrderIntNSpT speciesT fuel (some c2) g
      | _, _ => .ok g

/-- The statements of `PostOrderSpT` that follow its two recursive calls, for the
gene node at `g` and the species node `sn` at position `s`. -/
def PostOrderSpT.visit (speciesT geneT : Tree) (g s : Nat) (sn : Node)
    (speciesLeave : Nat) (Pduplication Ptransfer PLoss : Int) : Except Fault Tree :=
  match geneT[g]? with
  | none => .error .strayPointer
  | some gn =>
    match gn.child1, gn.child2 with
    | some g1, some g2 =>
      if g1 < geneT.length ∧ g2 < geneT.length then
        match SLeave sn speciesT speciesLeave, NotRoot sn speciesT with
        | .ok true, .ok notRoot =>
          let geneT := wr geneT g .speciation (some s) ⊤
          let geneT := wr geneT g .duplication (some s)
            ((Pduplication : Val) + rd geneT g1 .cost (some s) + rd geneT g2 .cost (some s))
          let geneT := if notRoot then
              wr geneT g .transfer (some s) ((Ptransfer : Val) +
                Min2 (rd geneT g1 .in_ (some s) + rd geneT g2 .out (some s))
                     (rd geneT g2 .in_ (some s) + rd geneT g1 .out (some s)))
            else geneT
          let m := Min3 (rd geneT g .speciation (some s)) (rd geneT g .duplication (some s))
            (rd geneT g .transfer (some s))
          let geneT := wrEvent (wr geneT g .cost (some s) m.1) g m.2
          let geneT := wr geneT g .in_ (some s) (rd geneT g .cost (some s))
          let geneT := wr geneT g .inAlt (some s) (rd geneT g .cost (some s))
          .ok geneT
        | .ok false, .ok notRoot =>
          let s1 := sn.child1
          let s2 := sn.child2
          let geneT := wr geneT g .speciation (some s)
            (Min2 (rd geneT g1 .in_ s1 + rd geneT g2 .in_ s2)
                  (rd geneT g2 .in_ s1 + rd geneT g1 .in_ s2))
          match MinDup (nd geneT g1) (nd geneT g2) (some s) s1 s2 PLoss with
          | .error e => .error e
          | .ok d =>
            let geneT := wr geneT g .duplication (some s) ((Pduplication : Val) + d)
            let geneT := if notRoot then
                wr geneT g .transfer (some s) ((Ptransfer : Val) +
                  Min2 (rd geneT g1 .in_ (some s) + rd geneT g2 .out (some s))
                       (rd geneT g2 .in_ (some s) + rd geneT g1 .out (some s)))
              else geneT
            let m := Min3 (rd geneT g .speciation (some s)) (rd geneT g .duplication (some s))
              (rd geneT g .transfer (some s))
            let geneT := wrEvent (wr geneT g .cost (some s) m.1) g m.2
            let geneT := wr geneT g .in_ (some s)
              (Min3M (rd geneT g .cost (some s)) (rd geneT g .in_ s1 + (PLoss : Val))
                (rd geneT g .in_ s2 + (PLoss : Val)))
            let geneT := wr geneT g .inAlt (some s)
              (Min3M (rd geneT g .cost (some s)) (rd geneT g .inAlt s1) (rd geneT g .inAlt s2))
            .ok geneT
        | .error e, _ => .error e
        | _, .error e => .error e
      else .error .strayPointer
    | _, _ => .error .nilDereference

/-- Go `PostOrderSpT`, for the gene node at `g`, from the species pointer `s`. -/
def PostOrderSpT (speciesT : Tree) (g : Nat) (speciesLeave : Nat)
    (Pduplication Ptransfer PLoss : Int) : Nat → Ptr → Tree → Except Fault Tree
  | _, none, geneT => .ok geneT
  | 0, some _, _ => .error .outOfFuel
  | fuel + 1, some s, geneT =>
    match speciesT[s]? with
    | none => .error .strayPointer
    | some sn =>
      match PostOrderSpT speciesT g speciesLeave Pduplication Ptransfer PLoss fuel
          sn.child1 geneT with
      | .error e => .error e
      | .ok geneT =>
        match PostOrderSpT speciesT g speciesLeave Pduplication Ptransfer PLoss fuel
            sn.child2 geneT with
        | .error e => .error e
        | .ok geneT =>
          PostOrderSpT.visit speciesT geneT g s sn speciesLeave Pduplication Ptransfer PLoss

/-- Go `PostOrderGeneT`, from the gene node at `g`; `fuelS` is the fuel handed to the
two passes over the species tree. -/
def PostOrderGeneT (speciesT : Tree) (s : Ptr) (speciesLeave : Nat)
    (Pduplication Ptransfer PLoss : Int) (fuelS : Nat) : Nat → Nat → Tree → Except Fault Tree
  | 0, _, _ => .error .outOfFuel
  | fuel + 1, g, geneT =>
    match geneT[g]? with
    | none => .error .strayPointer
    | some gn =>
      match gn.child1, gn.child2 with
      | some c1, some c2 =>
        match PostOrderGeneT speciesT s speciesLeave Pduplication Ptransfer PLoss fuelS fuel
            c1 geneT with
        | .error e => .error e
        | .ok geneT =>
          match PostOrderGeneT speciesT s speciesLeave Pduplication Ptransfer PLoss fuelS fuel
              c2 geneT with
          | .error e => .error e
          | .ok geneT =>
            match PostOrderSpT speciesT g speciesLeave Pduplication Ptransfer PLoss fuelS
                s geneT with
            | .error e => .error e
            | .ok geneT =>
              if speciesT.length = 0 then .error .indexOutOfRange
              else
                match PreOrderIntNSpT speciesT fuelS (some (speciesT.length - 1))
                    (nd geneT g) with
                | .error e => .error e
                | .ok gn => .ok (geneT.set g gn)
      | _, _ => .ok geneT

/-- The first inner loop of the leaf loop of `UMPR`: `l.cost[k] = 0` for every species
leaf `k` with the label of `l`. -/
def UMPR.leafCost (speciesT : Tree) (leaveNodesS : List Nat) (l : Node) : Node :=
  leaveNodesS.foldl (fun l k =>
    if Mapped l (nd speciesT k) then l.put .cost (some k) 0 else l) l

/-- The second inner loop of the leaf loop of `UMPR`: `l.in[a] = float64(PLoss * dist)`
and `l.inAlt[a] = 0` for the node `a` at position `dist` of `ancestors`; the product is
one of 64-bit integers. -/
def UMPR.leafIn (PLoss : Int) (ancestors : List Nat) (l : Node) : Node :=
  ancestors.enum.foldl (fun l da =>
    (l.put .in_ (some da.2) ((wrap64 (PLoss * (da.1 : Int)) : Int) : Val)).put
      .inAlt (some da.2) 0) l

/-- The third inner loop of the leaf loop of `UMPR`: `l.out[i] = 0` for every species
leaf `i` whose label differs from the label of `l`. -/
def UMPR.leafOut (speciesT : Tree) (leaveNodesS : List Nat) (l : Node) : Node :=
  leaveNodesS.foldl (fun l i =>
    if (nd speciesT i).label ≠ l.label then l.put .out (some i) 0 else l) l

/-- The body of the loop of `UMPR` over the gene leaves, on the record of the leaf
`l`, the only node it touches. -/
def UMPR.leaf (fuel : Nat) (speciesT : Tree) (leaveNodesS : List Nat) (PLoss : Int)
    (l : Node) : Except Fault Node :=
  let l := UMPR.leafCost speciesT leaveNodesS l
  match FindAncestors fuel l speciesT with
  | .error e => .error e
  | .ok ancestors =>
    let l := UMPR.leafIn PLoss ancestors l
    let l := UMPR.leafOut speciesT leaveNodesS l
    .ok l

/-- One round of the loop of `UMPR` over the gene leaves: the body `UMPR.leaf` rewrites
the record of the leaf at `l`. -/
def UMPR.leafStep (fuel : Nat) (speciesT : Tree) (leaveNodesS : List Nat) (PLoss : Int)
    (t : Tree) (l : Nat) : Except Fault Tree :=
  match UMPR.leaf fuel speciesT leaveNodesS PLoss (nd t l) with
  | .error e => .error e
  | .ok ln => .ok (t.set l ln)

/-- Go `UMPR`: the optimal cost, together with the gene tree as the run leaves it. -/
def UMPR (fuel : Nat) (geneT speciesT : Tree) (geneN speciesN : Nat)
    (PLoss Pduplication Ptransfer : Int) : Except Fault (Val × Tree) :=
  let geneT := InitializeTree geneT speciesN
  let geneLeave := (geneN + 1) / 2
  let speciesLeave := (speciesN + 1) / 2
  match InitializeLMap geneT speciesT geneLeave speciesLeave with
  | .error e => .error e
  | .ok geneT =>
    let geneT := geneT.map fun g => (List.range speciesT.length).foldl InitializeCosts g
    match GetLeaveNodes geneT geneLeave, GetLeaveNodes speciesT speciesLeave with
    | .ok leaveNodesG, .ok leaveNodesS =>
      match loopM (UMPR.leafStep fuel speciesT leaveNodesS PLoss) leaveNodesG geneT with
      | .error e => .error e
      | .ok geneT =>
        if geneT.length = 0 ∨ speciesT.length = 0 then .error .indexOutOfRange
        else
          let g := geneT.length - 1
          let s : Ptr := some (speciesT.length - 1)
          match PostOrderGeneT speciesT s speciesLeave Pduplication Ptransfer PLoss fuel fuel
              g geneT with
          | .error e => .error e
          | .ok geneT =>
            match OptimalCost (nd geneT (geneT.length - 1)) speciesT with
            | .error e => .error e
            | .ok cost => .ok (cost, geneT)
    | .error e, _ => .error e
    | _, .error e => .error e

/-- The cost a run returns, if it returns. -/
def costOf (r : Except Fault (Val × Tree)) : Option Val :=
  match r with
  | .ok (v, _) => some v
  | .error _ => none

/-- The fault a run stops with, if it stops without a result. -/
def faultOf (r : Except Fault (Val × Tree)) : Option Fault :=
  match r with
  | .ok _ => none
  | .error e => some e

/-- The event labels of the gene nodes after a run, if it returns. -/
def eventsOf (r : Except Fault (Val × Tree)) : Option (List String) :=
  match r with
  | .ok (_, t) => some (t.map fun n => n.event)
  | .error _ => none

/-- A leaf of a tree under construction. -/
def mkLeaf (label : String) (parent : Ptr) : Node :=
  { (default : Node) with label := label, parent := parent }

/-- An internal node of a tree under construction. -/
def mkInner (label : String) (parent c1 c2 : Ptr) : Node :=
  { (default : Node) with label := label, parent := parent, child1 := c1, child2 := c2 }

/-- The species tree of `main`: (((A,B),C),D). -/
def mainSpeciesTree : Tree :=
  [mkLeaf "A" (some 4), mkLeaf "B" (some 4), mkLeaf "C" (some 5), mkLeaf "D" (some 6),
   mkInner "Ancestor Species 1" (some 5) (some 0) (some 1),
   mkInner "Ancestor Species 2" (some 6) (some 4) (some 2),
   mkInner "Ancestor Species 3" none (some 5) (some 3)]

/-- The gene tree of `main`: (((A,C),B),D). -/
def mainGeneTree : Tree :=
  [mkLeaf "A" (some 4), mkLeaf "C" (some 4), mkLeaf "B" (some 5), mkLeaf "D" (some 6),
   mkInner "Ancestor Species 1" (some 5) (some 0) (some 1),
   mkInner "Ancestor Species 2" (some 6) (some 4) (some 2),
   mkInner "Ancestor Species 3" none (some 5) (some 3)]

/-- The species tree (A,B). -/
def speciesAB : Tree :=
  [mkLeaf "A" (some 2), mkLeaf "B" (some 2), mkInner "AB" none (some 0) (some 1)]

/-- The gene tree (A,X): the label X is the label of no species leaf of `speciesAB`. -/
def geneAX : Tree :=
  [mkLeaf "A" (some 2), mkLeaf "X" (some 2), mkInner "AX" none (some 0) (some 1)]

/-- The tree ((A,B),C), used both as species tree and as its own gene-tree copy. -/
def treeABC : Tree :=
  [mkLeaf "A" (some 3), mkLeaf "B" (some 3), mkLeaf "C" (some 4),
   mkInner "AB" (some 4) (some 0) (some 1), mkInner "ABC" none (some 3) (some 2)]

/-- The gene tree ((A,B),(A,(A,B))) over the species of `speciesAB`. -/
def geneDup : Tree :=
  [mkLeaf "A" (some 5), mkLeaf "B" (some 5), mkLeaf "A" (some 7), mkLeaf "A" (some 6),
   mkLeaf "B" (some 6), mkInner "g5" (some 8) (some 0) (some 1),
   mkInner "g6" (some 7) (some 3) (some 4), mkInner "g7" (some 8) (some 2) (some 6),
   mkInner "g8" none (some 5) (some 7)]

/-! ## Well-formed input -/

/-- A rooted binary tree in the layout the program expects: at least two leaves, the
leaves in the first half of the slice and without children, every later node with two
distinct children that stand before it and name it as their parent, the root last and
without parent, every other node with a parent that stands after it and has it as a
child. -/
def WellFormed (t : Tree) : Prop :=
  3 ≤ t.length ∧ t.length % 2 = 1 ∧
  (∀ i, i < t.length → i < (t.length + 1) / 2 →
    (nd t i).child1 = none ∧ (nd t i).child2 = none) ∧
  (∀ i, i < t.length → (t.length + 1) / 2 ≤ i →
    ∃ c1, c1 < i ∧ ∃ c2, c2 < i ∧ c1 ≠ c2 ∧
      (nd t i).child1 = some c1 ∧ (nd t i).child2 = some c2 ∧
      (nd t c1).parent = some i ∧ (nd t c2).parent = some i) ∧
  (nd t (t.length - 1)).parent = none ∧
  (∀ i, i < t.length - 1 →
    ∃ p, p < t.length ∧ i < p ∧ (nd t i).parent = some p ∧
      ((nd t p).child1 = some i ∨ (nd t p).child2 = some i))

set_option synthInstance.maxSize 4096 in
set_option synthInstance.maxHeartbeats 400000 in
instance (t : Tree) : Decidable (WellFormed t) := by
  unfold WellFormed
  infer_instance

/-- The labels of the nodes of the tree are pairwise distinct. -/
def DistinctLabels (t : Tree) : Prop :=
  ∀ i, i < t.length → ∀ j, j < t.length → (nd t i).label = (nd t j).label → i = j

instance (t : Tree) : Decidable (DistinctLabels t) := by
  unfold DistinctLabels
  infer_instance

/-- Every gene leaf carries the label of some species leaf. -/
def LeavesMapped (geneT speciesT : Tree) : Prop :=
  ∀ i, i < (geneT.length + 1) / 2 →
    ∃ j, j < (speciesT.length + 1) / 2 ∧ (nd geneT i).label = (nd speciesT j).label

instance (geneT speciesT : Tree) : Decidable (LeavesMapped geneT speciesT) := by
  unfold LeavesMapped
  infer_instance

/-- The gene tree is a structural copy of the species tree: the same number of nodes,
the same parent and child pointers at every position, and the same labels on the
leaves. -/
def Congruent (geneT speciesT : Tree) : Prop :=
  geneT.length = speciesT.length ∧
  ∀ i, i < speciesT.length →
    (nd geneT i).parent = (nd speciesT i).parent ∧
    (nd geneT i).child1 = (nd speciesT i).child1 ∧
    (nd geneT i).child2 = (nd speciesT i).child2 ∧
    (i < (speciesT.length + 1) / 2 → (nd geneT i).label = (nd speciesT i).label)

instance (geneT speciesT : Tree) : Decidable (Congruent geneT speciesT) := by
  unfold Congruent
  infer_instance

/-- The node at `x` is the node at `s` or lies below it along child pointers. -/
inductive Desc (t : Tree) : Nat → Nat → Prop where
  | here (s : Nat) : Desc t s s
  | left {s c x : Nat} : (nd t s).child1 = some c → Desc t c x → Desc t s x
  | right {s c x : Nat} : (nd t s).child2 = some c → Desc t c x → Desc t s x

/-- The two nodes agree on the fields that the passes never write. -/
def SameShape (a b : Node) : Prop :=
  a.label = b.label ∧ a.parent = b.parent ∧ a.child1 = b.child1 ∧ a.child2 = b.child2 ∧
  a.L = b.L

/-- Every entry of every cost map of the node is at least 0. -/
def Nonneg (n : Node) : Prop := ∀ f k, 0 ≤ n.get f k

/-! ## The passes over the species tree as functions of one gene node

For a gene node whose two children are other nodes, `PostOrderSpT` and
`PreOrderIntNSpT` read the records `g1`, `g2` of the children and rewrite the record
`g` of the node itself.  The functions below compute the new record; the theorems
`PostOrderSpT_eq` and `PreOrderIntNSpT_eq` show that the model of the Go code
returns exactly it. -/

/-- The value `Min` returns on the non-empty array `a :: rest`. -/
def MinP : Val → List Val → Val
  | a, [] => a
  | a, b :: rest => if a < b then a else MinP b rest

/-- The value `MinDup` returns. -/
def MinDupP (g1 g2 : Node) (s s1 s2 : Ptr) (PLoss : Int) : Val :=
  MinP (g1.cost s + g2.in_ s2 + (PLoss : Val)) [g1.cost s + g2.in_ s1 + (PLoss : Val),
    g2.cost s + g1.in_ s2 + (PLoss : Val), g2.cost s + g1.in_ s1 + (PLoss : Val),
    g1.cost s + g2.cost s, g1.in_ s1 + g2.in_ s2 + ((wrap64 (2 * PLoss) : Int) : Val),
    g1.in_ s2 + g2.in_ s1 + ((wrap64 (2 * PLoss) : Int) : Val),
    g1.in_ s1 + g2.in_ s1 + ((wrap64 (2 * PLoss) : Int) : Val),
    g1.in_ s2 + g2.in_ s2 + ((wrap64 (2 * PLoss) : Int) : Val)]

/-- The record of the gene node after the statements of `PostOrderSpT` for the species
node at `s`, in a well-formed species tree with distinct labels. -/
def visitN (speciesT : Tree) (Pduplication Ptransfer PLoss : Int) (g1 g2 : Node) (s : Nat)
    (g : Node) : Node :=
  let isLeave := decide (s < (speciesT.length + 1) / 2)
  let notRoot := decide (s + 1 ≠ speciesT.length)
  let s1 := (nd speciesT s).child1
  let s2 := (nd speciesT s).child2
  let spec : Val := if isLeave then ⊤
    else Min2 (g1.in_ s1 + g2.in_ s2) (g2.in_ s1 + g1.in_ s2)
  let dup : Val := if isLeave then (Pduplication : Val) + g1.cost (some s) + g2.cost (some s)
    else (Pduplication : Val) + MinDupP g1 g2 (some s) s1 s2 PLoss
  let tr : Val := if notRoot then (Ptransfer : Val) +
      Min2 (g1.in_ (some s) + g2.out (some s)) (g2.in_ (some s) + g1.out (some s))
    else g.transfer (some s)
  let m := Min3 spec dup tr
  let inV : Val := if isLeave then m.1
    else Min3M m.1 (g.in_ s1 + (PLoss : Val)) (g.in_ s2 + (PLoss : Val))
  let inAltV : Val := if isLeave then m.1 else Min3M m.1 (g.inAlt s1) (g.inAlt s2)
  { g with
    event := m.2
    speciation := g.speciation.set (some s) spec
    duplication := g.duplication.set (some s) dup
    transfer := g.transfer.set (some s) tr
    cost := g.cost.set (some s) m.1
    in_ := g.in_.set (some s) inV
    inAlt := g.inAlt.set (some s) inAltV }

/-- The record of the gene node after `PostOrderSpT` from the species pointer `s`. -/
def passN (speciesT : Tree) (Pduplication Ptransfer PLoss : Int) (g1 g2 : Node) :
    Nat → Ptr → Node → Node
  | _, none, g => g
  | 0, some _, g => g
  | fuel + 1, some s, g =>
    visitN speciesT Pduplication Ptransfer PLoss g1 g2 s
      (passN speciesT Pduplication Ptransfer PLoss g1 g2 fuel (nd speciesT s).child2
        (passN speciesT Pduplication Ptransfer PLoss g1 g2 fuel (nd speciesT s).child1 g))

/-- The record of the gene node after `PreOrderIntNSpT` from the species pointer `r`. -/
def preN (speciesT : Tree) : Nat → Ptr → Node → Node
  | _, none, g => g
  | 0, some _, g => g
  | fuel + 1, some r, g =>
    match (nd speciesT r).child1, (nd speciesT r).child2 with
    | some c1, some c2 =>
      preN speciesT fuel (some c2) (preN speciesT fuel (some c1)
        ((g.put .out (some c1) (Min2 (g.out (some r)) (g.inAlt (some c2)))).put .out (some c2)
          (Min2 ((g.put .out (some c1) (Min2 (g.out (some r)) (g.inAlt (some c2)))).out (some r))
            (g.inAlt (some c1)))))
    | _, _ => g

/-- The record of an internal gene node after its turn in `PostOrderGeneT`. -/
def procN (speciesT : Tree) (Pduplication Ptransfer PLoss : Int) (fuelS : Nat)
    (g1 g2 g : Node) : Node :=
  preN speciesT fuelS (some (speciesT.length - 1))
    (passN speciesT Pduplication Ptransfer PLoss g1 g2 fuelS (some (speciesT.length - 1)) g)

/-! ## The records of the gene nodes before the pass over the gene tree -/

/-- The positions, in increasing order, of the first `speciesLeave` species nodes that
carry the label `label`. -/
def labelMatches (speciesT : Tree) (speciesLeave : Nat) (label : String) : List Nat :=
  (List.range speciesLeave).filter fun j => decide (label = (nd speciesT j).label)

/-- The strict ancestors of the species node at `p`, nearest first, as long as the
fuel lasts. -/
def pathUp (speciesT : Tree) : Nat → Nat → List Nat
  | 0, _ => []
  | fuel + 1, p =>
    match (nd speciesT p).parent with
    | none => []
    | some q => q :: pathUp speciesT fuel q

/-- The list `FindAncestors` returns for the mapping list `L`. -/
def ancestorsP (speciesT : Tree) (fuel : Nat) (L : List Nat) : List Nat :=
  match L with
  | [] => []
  | s0 :: _ => s0 :: L.flatMap (pathUp speciesT fuel)

/-- The record of a gene node after `InitializeTree`, after `InitializeLMap` has left it
the mapping list `L`, and after `InitializeCosts` for every species node. -/
def initNode (speciesT : Tree) (n : Node) (L : List Nat) : Node :=
  (List.range speciesT.length).foldl InitializeCosts
    { n with L := L, cost := emptyMap, speciation := emptyMap, duplication := emptyMap,
             transfer := emptyMap, in_ := emptyMap, inAlt := emptyMap, out := emptyMap }

/-- The record of a gene leaf after the leaf loop of `UMPR`. -/
def leafNode (speciesT : Tree) (PLoss : Int) (fuel : Nat) (n : Node) : Node :=
  UMPR.leafOut speciesT (List.range ((speciesT.length + 1) / 2))
    (UMPR.leafIn PLoss
      (ancestorsP speciesT fuel (labelMatches speciesT ((speciesT.length + 1) / 2) n.label))
      (UMPR.leafCost speciesT (List.range ((speciesT.length + 1) / 2))
        (initNode speciesT n (labelMatches speciesT ((speciesT.length + 1) / 2) n.label))))

/-- The node at distance `d` above the species node at `s`. -/
def ancestorAt (speciesT : Tree) : Nat → Nat → Option Nat
  | 0, s => some s
  | d + 1, s =>
    match (nd speciesT s).parent with
    | none => none
    | some p => ancestorAt speciesT d p

/-- The entries of the record `n` for the species node at `s` are the ones the
statements of `PostOrderSpT` compute from the records `g1`, `g2` of the children and
from `n` itself. -/
def Stable (speciesT : Tree) (Pduplication Ptransfer PLoss : Int) (g1 g2 n : Node)
    (s : Nat) : Prop :=
  ∀ f, (visitN speciesT Pduplication Ptransfer PLoss g1 g2 s n).get f (some s) =
    n.get f (some s)

/-- An entry of a cost map of a gene node after a run, if the run returns. -/
def entryOf (r : Except Fault (Val × Tree)) (g : Nat) (f : Field) (k : Ptr) : Option Val :=
  match r with
  | .ok (_, t) => some ((nd t g).get f k)
  | .error _ => none

/-- The species tree (A,A): both leaves carry the label A. -/
def speciesAA : Tree :=
  [mkLeaf "A" (some 2), mkLeaf "A" (some 2), mkInner "AA" none (some 0) (some 1)]

/-- The gene tree (A,A) over the species of `speciesAA`. -/
def geneAA : Tree :=
  [mkLeaf "A" (some 2), mkLeaf "A" (some 2), mkInner "g2" none (some 0) (some 1)]

/-! ## Small parsimony (`Small_Parsimony/minparsimony.go`)

The tree is again the slice of its nodes, with pointers as positions.  The score map
of a node, a `map[int]float64` whose keys are the positions of `nucList`, is the list
of its values in key order (the empty list for the map returned by `make`): the
program inserts keys only in `InitialScore`, which writes every position of `nucList`,
and it uses the order of a map traversal only through a minimum, a length and a random
draw.  The score matrix that `ReadMatrix` reads from a file is an argument, and so is
the number that `rand.Intn` returns. -/

namespace Parsimony

/-- Ways in which a run stops without a result: the Go panics of the program, a
pointer that leads outside the slice, and exhausted fuel. -/
inductive Fault where
  | indexOutOfRange
  | sliceOutOfRange
  | nilDereference
  | noRoot
  | strayPointer
  | outOfFuel
  deriving DecidableEq, Repr

/-- The Go struct `Node`. -/
structure Node where
  score : List Val
  label : String
  parent : Ptr
  child1 : Ptr
  child2 : Ptr
  deriving DecidableEq

instance : Inhabited Node := ⟨⟨[], "", none, none, none⟩⟩

/-- The Go type `Tree`. -/
abbrev Tree := List Node

/-- The Go type `Matrix`. -/
abbrev Matrix := List (List Val)

/-- A loop over a slice that threads a state and stops at the first fault. -/
def loop {σ α : Type} (f : σ → α → Except Fault σ) : List α → σ → Except Fault σ
  | [], s => .ok s
  | a :: rest, s =>
    match f s a with
    | .error e => .error e
    | .ok s1 => loop f rest s1

/-- The element `t[i]`. -/
def index (t : Tree) (i : Nat) : Except Fault Node :=
  match t[i]? with
  | none => .error .indexOutOfRange
  | some n => .ok n

/-- The node behind the pointer `p`. -/
def deref (t : Tree) (p : Ptr) : Except Fault (Nat × Node) :=
  match p with
  | none => .error .nilDereference
  | some i =>
    match t[i]? with
    | none => .error .strayPointer
    | some n => .ok (i, n)

/-- One round of the loop of `AddParent`. -/
def AddParent.step (t : Tree) (i : Nat) : Except Fault Tree :=
  match index t i with
  | .error e => .error e
  | .ok n =>
    match deref t n.child1, deref t n.child2 with
    | .error e, _ => .error e
    | _, .error e => .error e
    | .ok (c1, n1), .ok (c2, _) =>
      let t1 := t.set c1 { n1 with parent := some i }
      .ok (t1.set c2 { (t1[c2]?).getD default with parent := some i })

/-- Go `AddParent`. -/
def AddParent (t : Tree) : Except Fault Tree :=
  loop AddParent.step (List.range' ((t.length + 1) / 2) (t.length - (t.length + 1) / 2)) t

/-- One round of the first loop of `InitializeTree`. -/
def InitializeTree.leaf (leaveseq : List String) (t : Tree) (i : Nat) : Except Fault Tree :=
  match leaveseq[i]?, t[i]? with
  | some s, some n => .ok (t.set i { n with label := s, score := [] })
  | _, _ => .error .indexOutOfRange

/-- One round of the second loop of `InitializeTree`. -/
def InitializeTree.inner (t : Tree) (j : Nat) : Except Fault Tree :=
  match t[j]? with
  | some n => .ok (t.set j { n with score := [] })
  | none => .error .indexOutOfRange

/-- Go `InitializeTree`. -/
def InitializeTree (t : Tree) (leaveseq : List String) : Except Fault Tree :=
  match loop (InitializeTree.leaf leaveseq) (List.range leaveseq.length) t with
  | .error e => .error e
  | .ok t1 =>
    match loop InitializeTree.inner
        (List.range' leaveseq.length (t1.length - leaveseq.length)) t1 with
    | .error e => .error e
    | .ok t2 => AddParent t2

/-- The slice `s[i:i+1]` of a string of one-byte symbols. -/
def sliceOne (s : String) (i : Nat) : Except Fault String :=
  match s.data[i]? with
  | none => .error .sliceOutOfRange
  | some c => .ok (String.mk [c])

/-- The inner loop of the first loop of `InitialScore`: the scores of a leaf. -/
def InitialScore.scores (label : String) (i : Nat) : List String → Except Fault (List Val)
  | [] => .ok []
  | nuc :: rest =>
    match sliceOne label i with
    | .error e => .error e
    | .ok s =>
      match InitialScore.scores label i rest with
      | .error e => .error e
      | .ok sc => .ok ((if s = nuc then 0 else ⊤) :: sc)

/-- One round of the first loop of `InitialScore`. -/
def InitialScore.leaf (i : Nat) (nucList : List String) (t : Tree) (k : Nat) :
    Except Fault Tree :=
  match index t k with
  | .error e => .error e
  | .ok n =>
    match InitialScore.scores n.label i nucList with
    | .error e => .error e
    | .ok sc => .ok (t.set k { n with score := sc })

/-- One round of the second loop of `InitialScore`. -/
def InitialScore.inner (nucList : List String) (t : Tree) (l : Nat) : Except Fault Tree :=
  match index t l with
  | .error e => .error e
  | .ok n => .ok (t.set l { n with score := nucList.map fun _ => ⊤ })

/-- Go `InitialScore`. -/
def InitialScore (t : Tree) (i : Nat) (nucList : List String) : Except Fault Tree :=
  match loop (InitialScore.leaf i nucList) (List.range ((t.length + 1) / 2)) t with
  | .error e => .error e
  | .ok t1 =>
    loop (InitialScore.inner nucList)
      (List.range' ((t1.length + 1) / 2) (t1.length - (t1.length + 1) / 2)) t1

/-- Go `FindMin`, with the keys of the map in increasing order. -/
def FindMin (node : Node) : Except Fault (List Nat × Val) :=
  match node.score with
  | [] => .error .indexOutOfRange
  | v0 :: rest =>
    let minScore := rest.foldl (fun m x => if x < m then x else m) v0
    .ok (((v0 :: rest).enum.filter fun p => decide (p.2 = minScore)).map Prod.fst, minScore)

/-- One round of the loop of `MinTran`. -/
def MinTran.step (j : Nat) (mtx : Matrix) (min : Val) (k : Nat) : Except Fault Val :=
  match mtx[j]? with
  | none => .error .indexOutOfRange
  | some row =>
    match row[k]? with
    | none => .error .indexOutOfRange
    | some score => .ok (if score < min then score else min)

/-- Go `MinTran`. -/
def MinTran (nucs : List Nat) (j : Nat) (mtx : Matrix) : Except Fault Val :=
  loop (MinTran.step j mtx) nucs ⊤

/-- The inner loop of `InternalScore`: the new scores of a node, for the keys `js`. -/
def InternalScore.scores (mtx : Matrix) (l1 l2 : List Nat) (s1 s2 : Val) :
    List Nat → Except Fault (List Val)
  | [] => .ok []
  | j :: js =>
    match MinTran l1 j mtx, MinTran l2 j mtx with
    | .error e, _ => .error e
    | _, .error e => .error e
    | .ok min1, .ok min2 =>
      match InternalScore.scores mtx l1 l2 s1 s2 js with
      | .error e => .error e
      | .ok sc => .ok ((s1 + s2 + min1 + min2) :: sc)

/-- One round of the outer loop of `InternalScore`. -/
def InternalScore.step (mtx : Matrix) (t : Tree) (i : Nat) : Except Fault Tree :=
  match index t i with
  | .error e => .error e
  | .ok n =>
    match deref t n.child1 with
    | .error e => .error e
    | .ok (_, n1) =>
      match FindMin n1 with
      | .error e => .error e
      | .ok (l1, s1) =>
        match deref t n.child2 with
        | .error e => .error e
        | .ok (_, n2) =>
          match FindMin n2 with
          | .error e => .error e
          | .ok (l2, s2) =>
            match InternalScore.scores mtx l1 l2 s1 s2 (List.range n.score.length) with
            | .error e => .error e
            | .ok sc => .ok (t.set i { n with score := sc })

/-- Go `InternalScore`. -/
def InternalScore (t : Tree) (mtx : Matrix) : Except Fault Tree :=
  loop (InternalScore.step mtx)
    (List.range' ((t.length + 1) / 2) (t.length - (t.length + 1) / 2)) t

/-- The slice `s[len(s)-1:]` of a string of one-byte symbols. -/
def sliceLast (s : String) : Except Fault String :=
  match s.data.getLast? with
  | none => .error .sliceOutOfRange
  | some c => .ok (String.mk [c])

/-- The statement `node.label += nucList[k]`. -/
def appendNuc (t : Tree) (r : Nat) (n : Node) (nucList : List String) (k : Option Nat) :
    Except Fault Tree :=
  match k with
  | none => .error .indexOutOfRange
  | some k =>
    match nucList[k]? with
    | none => .error .indexOutOfRange
    | some nuc => .ok (t.set r { n with label := n.label ++ nuc })

/-- Go `AddIntNuc`; the fuel bounds the depth of the recursion. -/
def AddIntNuc : Nat → Tree → Ptr → List String → Except Fault Tree
  | 0, _, _, _ => .error .outOfFuel
  | fuel + 1, t, root, nucList =>
    match root with
    | none => .error .noRoot
    | some r =>
      match t[r]? with
      | none => .error .strayPointer
      | some n =>
        match (if n.child1 ≠ none then AddIntNuc fuel t n.child1 nucList else .ok t) with
        | .error e => .error e
        | .ok t1 =>
          match (if n.child2 ≠ none then AddIntNuc fuel t1 n.child2 nucList else .ok t1) with
          | .error e => .error e
          | .ok t2 =>
            if n.child1 ≠ none ∧ n.child2 ≠ none ∧ n.parent ≠ none then
              match t2[r]? with
              | none => .error .strayPointer
              | some m =>
                match FindMin m with
                | .error e => .error e
                | .ok (l, _) =>
                  if l.length = 1 then appendNuc t2 r m nucList l[0]?
                  else
                    match deref t2 m.parent with
                    | .error e => .error e
                    | .ok (_, p) =>
                      match sliceLast p.label with
                      | .error e => .error e
                      | .ok s => .ok (t2.set r { m with label := m.label ++ s })
            else .ok t2

/-- Go `BackTrack`; `draw` is the number that `rand.Intn(len(lr))` returns. -/
def BackTrack (fuel : Nat) (draw : Nat) (t : Tree) (nucList : List String) :
    Except Fault Tree :=
  if t.length = 0 then .error .indexOutOfRange
  else
    match index t (t.length - 1) with
    | .error e => .error e
    | .ok root =>
      match FindMin root with
      | .error e => .error e
      | .ok (lr, _) =>
        match (if lr.length = 1 then appendNuc t (t.length - 1) root nucList lr[0]?
               else appendNuc t (t.length - 1) root nucList lr[draw]?) with
        | .error e => .error e
        | .ok t1 => AddIntNuc fuel t1 (some (t.length - 1)) nucList

/-- Go `BaseMinPars`. -/
def BaseMinPars (fuel : Nat) (draw : Nat) (mtx : Matrix) (t : Tree) (i : Nat)
    (nucList : List String) : Except Fault Tree :=
  match InitialScore t i nucList with
  | .error e => .error e
  | .ok t1 =>
    match InternalScore t1 mtx with
    | .error e => .error e
    | .ok t2 => BackTrack fuel draw t2 nucList

/-- Go `MinimumParsimony`; `mtx` is the matrix that `ReadMatrix` returns and `draw i`
the number drawn at position `i`. -/
def MinimumParsimony (fuel : Nat) (draw : Nat → Nat) (leaveseq : List String)
    (mtx : Matrix) (t : Tree) (nucList : List String) : Except Fault Tree :=
  match InitializeTree t leaveseq with
  | .error e => .error e
  | .ok t1 =>
    match leaveseq with
    | [] => .error .indexOutOfRange
    | s0 :: _ =>
      loop (fun t i => BaseMinPars fuel (draw i) mtx t i nucList) (List.range s0.length) t1

/-! ### The parsimony score of a labelled tree -/

/-- The position in `nucList` of the symbol at position `i` of a label. -/
def nucAt (nucList : List String) (label : String) (i : Nat) : Option Nat :=
  match label.data[i]? with
  | none => none
  | some c => if String.mk [c] ∈ nucList then some (nucList.indexOf (String.mk [c])) else none

/-- The weight `mtx[j][k]` of an edge from a node with symbol `j` to a child with
symbol `k`. -/
def weight (mtx : Matrix) (j k : Option Nat) : Option Val :=
  match j, k with
  | some j, some k => (mtx[j]?).bind fun row => row[k]?
  | _, _ => none

/-- The weights of the two edges below the node at `x`, at position `i` of the
labels; nothing for a leaf. -/
def edgeScore (t : Tree) (mtx : Matrix) (nucList : List String) (i x : Nat) : Option Val :=
  match t[x]? with
  | none => none
  | some n =>
    match n.child1, n.child2 with
    | some c1, some c2 =>
      match t[c1]?, t[c2]? with
      | some n1, some n2 =>
        match weight mtx (nucAt nucList n.label i) (nucAt nucList n1.label i),
              weight mtx (nucAt nucList n.label i) (nucAt nucList n2.label i) with
        | some w1, some w2 => some (w1 + w2)
        | _, _ => none
      | _, _ => none
    | _, _ => some 0

/-- The parsimony score of the labelled tree `t` at position `i` of the labels: the
sum of the weights of all its edges. -/
def parsimonyScore (t : Tree) (mtx : Matrix) (nucList : List String) (i : Nat) :
    Option Val :=
  (List.range t.length).foldl
    (fun acc x =>
      match acc, edgeScore t mtx nucList i x with
      | some a, some w => some (a + w)
      | _, _ => none)
    (some 0)

/-- The score map of the node at `x` after a run, if the run returns. -/
def scoreOf (r : Except Fault Tree) (x : Nat) : Option (List Val) :=
  match r with
  | .ok t => (t[x]?).map fun n => n.score
  | .error _ => none

/-- The pointers (parent, child1, child2) of the nodes after a run, if the run returns. -/
def pointersOf (r : Except Fault Tree) : Option (List (Ptr × Ptr × Ptr)) :=
  match r with
  | .ok t => some (t.map fun n => (n.parent, n.child1, n.child2))
  | .error _ => none

/-- The labels of the nodes after a run, if the run returns. -/
def labelsOf (r : Except Fault Tree) : Option (List String) :=
  match r with
  | .ok t => some (t.map fun n => n.label)
  | .error _ => none

/-- The parsimony score at position `i` of the labelling a run returns. -/
def scoreOfRun (r : Except Fault Tree) (mtx : Matrix) (nucList : List String) (i : Nat) :
    Option Val :=
  match r with
  | .ok t => parsimonyScore t mtx nucList i
  | .error _ => none

/-- The tree of `main`: ((v0,v1),(v2,v3)), before `InitializeTree`. -/
def mainTree : Tree :=
  [⟨[], "", none, none, none⟩, ⟨[], "", none, none, none⟩, ⟨[], "", none, none, none⟩,
   ⟨[], "", none, none, none⟩, ⟨[], "", none, some 0, some 1⟩,
   ⟨[], "", none, some 2, some 3⟩, ⟨[], "", none, some 4, some 5⟩]

/-- The symbols of `main`. -/
def nucList : List String := ["A", "T", "C", "G", "-"]

/-- A score matrix in the order of `nucList`: 0 for equal symbols, 3 for two different
nucleotides, 2 for a nucleotide against a gap. -/
def gapMatrix : Matrix :=
  [[0, 3, 3, 3, 2], [3, 0, 3, 3, 2], [3, 3, 0, 3, 2], [3, 3, 3, 0, 2], [2, 2, 2, 2, 0]]

/-- The tree of `main` with the leaves A, T, C, G and a gap at every internal node. -/
def gapLabelled : Tree :=
  [⟨[], "A", some 4, none, none⟩, ⟨[], "T", some 4, none, none⟩,
   ⟨[], "C", some 5, none, none⟩, ⟨[], "G", some 5, none, none⟩,
   ⟨[], "-", some 6, some 0, some 1⟩, ⟨[], "-", some 6, some 2, some 3⟩,
   ⟨[], "-", none, some 4, some 5⟩]

end Parsimony

/-! ## Reconciliation by last common ancestors (`Reconciliation_Method1/main.go`)

Trees are slices of nodes with pointers as positions, as before.  The global counter
`number` is threaded through `InitializeSTree` as a state.  The loop of
`TraverseGTree` that climbs the species tree carries a fuel argument. -/

namespace Method1

/-- Ways in which a run stops without a result: the Go panics of the program (the last
statement of `FindParentNum` among them), a pointer that leads outside the slice, and
exhausted fuel. -/
inductive Fault where
  | indexOutOfRange
  | nilDereference
  | notFound
  | strayPointer
  | outOfFuel
  deriving DecidableEq, Repr

/-- The Go struct `Node`. -/
structure Node where
  label : String
  child1 : Ptr
  child2 : Ptr
  parent : Ptr
  number : Int
  event : String
  deriving DecidableEq

instance : Inhabited Node := ⟨⟨"", none, none, none, 0, ""⟩⟩

/-- The Go type `Tree`. -/
abbrev Tree := List Node

/-- The node behind a pointer that leads into the slice. -/
def nd (t : Tree) (i : Nat) : Node := (t[i]?).getD default

/-- A loop over a slice that threads a state and stops at the first fault. -/
def loop {σ α : Type} (f : σ → α → Except Fault σ) : List α → σ → Except Fault σ
  | [], s => .ok s
  | a :: rest, s =>
    match f s a with
    | .error e => .error e
    | .ok s1 => loop f rest s1

/-- The node behind the pointer `p`. -/
def deref (t : Tree) (p : Ptr) : Except Fault (Nat × Node) :=
  match p with
  | none => .error .nilDereference
  | some i =>
    match t[i]? with
    | none => .error .strayPointer
    | some n => .ok (i, n)

/-- Go `InitializeSTree`: the state is the tree together with the global `number`; the
fuel bounds the depth of the recursion. -/
def InitializeSTree : Nat → Tree × Int → Ptr → Except Fault (Tree × Int)
  | 0, _, _ => .error .outOfFuel
  | fuel + 1, (t, number), root =>
    match root with
    | none => .error .nilDereference
    | some r =>
      match t[r]? with
      | none => .error .strayPointer
      | some n =>
        match (if n.child1 ≠ none then
                 InitializeSTree fuel (t.set r { n with number := number }, number + 1) n.child1
               else .ok (t.set r { n with number := number }, number + 1)) with
        | .error e => .error e
        | .ok s1 => if n.child2 ≠ none then InitializeSTree fuel s1 n.child2 else .ok s1

/-- One round of the inner loop of `InitializeGTree`. -/
def InitializeGTree.step (sTree : Tree) (i : Nat) (gTree : Tree) (j : Nat) :
    Except Fault Tree :=
  match gTree[i]?, sTree[j]? with
  | some gi, some sj =>
    if gi.label = sj.label then .ok (gTree.set i { gi with number := sj.number })
    else .ok gTree
  | _, _ => .error .indexOutOfRange

/-- Go `InitializeGTree`. -/
def InitializeGTree (gTree sTree : Tree) (speciesnum : Nat) : Except Fault Tree :=
  loop (fun g i => loop (InitializeGTree.step sTree i) (List.range speciesnum) g)
    (List.range speciesnum) gTree

/-- The loop of `FindParentNum` over the rest `rest` of the slice. -/
def FindParentNum.scan (sTree : Tree) (a : Int) : List Node → Except Fault Int
  | [] => .error .notFound
  | node :: rest =>
    if node.number = a then
      match deref sTree node.parent with
      | .error e => .error e
      | .ok (_, p) => .ok p.number
    else FindParentNum.scan sTree a rest

/-- Go `FindParentNum`. -/
def FindParentNum (sTree : Tree) (a : Int) : Except Fault Int :=
  FindParentNum.scan sTree a sTree

/-- The loop `for a != b` of `TraverseGTree`; the fuel bounds the number of rounds. -/
def TraverseGTree.climb (sTree : Tree) : Nat → Int → Int → Except Fault Int
  | 0, _, _ => .error .outOfFuel
  | fuel + 1, a, b =>
    if a = b then .ok a
    else if a > b then
      match FindParentNum sTree a with
      | .error e => .error e
      | .ok a1 => TraverseGTree.climb sTree fuel a1 b
    else
      match FindParentNum sTree b with
      | .error e => .error e
      | .ok b1 => TraverseGTree.climb sTree fuel a b1

/-- The suffix that `TraverseGTree` appends to the event of the node at `i`, read after
the assignment to its number. -/
def TraverseGTree.event (gTree : Tree) (i c1 c2 : Nat) : String :=
  if (nd gTree i).number = (nd gTree c1).number ∨ (nd gTree i).number = (nd gTree c2).number
  then "duplication" else "speciation"

/-- One round of the outer loop of `TraverseGTree`. -/
def TraverseGTree.step (fuel : Nat) (sTree : Tree) (gTree : Tree) (i : Nat) :
    Except Fault Tree :=
  match gTree[i]? with
  | none => .error .indexOutOfRange
  | some node =>
    match deref gTree node.child1 with
    | .error e => .error e
    | .ok (c1, n1) =>
      match deref gTree node.child2 with
      | .error e => .error e
      | .ok (c2, n2) =>
        match TraverseGTree.climb sTree fuel n1.number n2.number with
        | .error e => .error e
        | .ok a =>
          let g1 := gTree.set i { node with number := a }
          .ok (g1.set i
            { node with number := a, event := node.event ++ TraverseGTree.event g1 i c1 c2 })

/-- Go `TraverseGTree`. -/
def TraverseGTree (fuel : Nat) (gTree sTree : Tree) (speciesnum : Nat) : Except Fault Tree :=
  loop (TraverseGTree.step fuel sTree) (List.range' speciesnum (gTree.length - speciesnum))
    gTree

/-- Go `LabelInternalNodeEvent`, with the global `number` at its initial value 1; the
result is the pair of the gene tree and the species tree. -/
def LabelInternalNodeEvent (fuel : Nat) (gTree sTree : Tree) (root : Ptr) (speciesnum : Nat) :
    Except Fault (Tree × Tree) :=
  match InitializeSTree fuel (sTree, 1) root with
  | .error e => .error e
  | .ok (sTree1, _) =>
    match InitializeGTree gTree sTree1 speciesnum with
    | .error e => .error e
    | .ok gTree1 =>
      match TraverseGTree fuel gTree1 sTree1 speciesnum with
      | .error e => .error e
      | .ok gTree2 => .ok (gTree2, sTree1)

/-! ### Statements about the species tree -/

/-- The pointers of a tree, as a tree of the first model: the predicates `WellFormed`
and `Desc` read nothing else. -/
def skeleton (t : Tree) : Recon.Tree :=
  t.map fun n => mkInner n.label n.parent n.child1 n.child2

/-- The species node at `z` is the last common ancestor of the species nodes at `x`
and `y`: it lies above both (or is one of them), and every node that lies above both
lies above `z` (or is `z`). -/
def IsLCA (sTree : Tree) (z x y : Nat) : Prop :=
  Desc (skeleton sTree) z x ∧ Desc (skeleton sTree) z y ∧
  ∀ w, Desc (skeleton sTree) w x → Desc (skeleton sTree) w y → Desc (skeleton sTree) w z

/-- The gene tree has its leaves at the positions below `speciesnum`, each with the
number of a species node, and from `speciesnum` on nodes whose two children stand
earlier in the slice. -/
def GeneOK (gTree sTree : Tree) (speciesnum : Nat) : Prop :=
  (∀ i, i < speciesnum → ∃ s, s < sTree.length ∧ (nd gTree i).number = (nd sTree s).number) ∧
  (∀ i, i < gTree.length → speciesnum ≤ i →
    ∃ c1, c1 < i ∧ ∃ c2, c2 < i ∧ (nd gTree i).child1 = some c1 ∧ (nd gTree i).child2 = some c2)

instance (gTree sTree : Tree) (speciesnum : Nat) : Decidable (GeneOK gTree sTree speciesnum) := by
  unfold GeneOK
  infer_instance

/-- The numbers of a species tree are at least 1, differ from node to node, and grow
from every node to its children. -/
def Numbered (sTree : Tree) : Prop :=
  (∀ x, x < sTree.length → 1 ≤ (nd sTree x).number) ∧
  (∀ x y, x < sTree.length → y < sTree.length →
    (nd sTree x).number = (nd sTree y).number → x = y) ∧
  (∀ x p, x < sTree.length → (nd sTree x).parent = some p →
    (nd sTree p).number < (nd sTree x).number)

/-- The species tree of `main`: (((A,B),C),D). -/
def mainSpeciesTree : Tree :=
  [⟨"A", none, none, some 4, 0, ""⟩, ⟨"B", none, none, some 4, 0, ""⟩,
   ⟨"C", none, none, some 5, 0, ""⟩, ⟨"D", none, none, some 6, 0, ""⟩,
   ⟨"Ancestor Species 1", some 0, some 1, some 5, 0, ""⟩,
   ⟨"Ancestor Species 2", some 4, some 2, some 6, 0, ""⟩,
   ⟨"Ancestor Species 3", some 5, some 3, none, 0, ""⟩]

/-- The gene tree of `main`: (((A,C),B),D). -/
def mainGeneTree : Tree :=
  [⟨"A", none, none, some 4, 0, ""⟩, ⟨"C", none, none, some 4, 0, ""⟩,
   ⟨"B", none, none, some 5, 0, ""⟩, ⟨"D", none, none, some 6, 0, ""⟩,
   ⟨"Ancestor Species 1", some 0, some 1, some 5, 0, ""⟩,
   ⟨"Ancestor Species 2", some 4, some 2, some 6, 0, ""⟩,
   ⟨"Ancestor Species 3", some 5, some 3, none, 0, ""⟩]

/-- The species tree of `main` with the numbers `InitializeSTree` gives it. -/
def numberedSpeciesTree : Tree :=
  [⟨"A", none, none, some 4, 4, ""⟩, ⟨"B", none, none, some 4, 5, ""⟩,
   ⟨"C", none, none, some 5, 6, ""⟩, ⟨"D", none, none, some 6, 7, ""⟩,
   ⟨"Ancestor Species 1", some 0, some 1, some 5, 3, ""⟩,
   ⟨"Ancestor Species 2", some 4, some 2, some 6, 2, ""⟩,
   ⟨"Ancestor Species 3", some 5, some 3, none, 1, ""⟩]

/-- The gene tree of `main` with the numbers `InitializeGTree` gives its leaves. -/
def numberedGeneTree : Tree :=
  [⟨"A", none, none, some 4, 4, ""⟩, ⟨"C", none, none, some 4, 6, ""⟩,
   ⟨"B", none, none, some 5, 5, ""⟩, ⟨"D", none, none, some 6, 7, ""⟩,
   ⟨"Ancestor Species 1", some 0, some 1, some 5, 0, ""⟩,
   ⟨"Ancestor Species 2", some 4, some 2, some 6, 0, ""⟩,
   ⟨"Ancestor Species 3", some 5, some 3, none, 0, ""⟩]

end Method1

/-! ## Further inputs and predicates -/

/-- The species tree ((A,B),C) whose two internal nodes carry no label. -/
def speciesUnlabelled : Tree :=
  [mkLeaf "A" (some 3), mkLeaf "B" (some 3), mkLeaf "C" (some 4),
   mkInner "" (some 4) (some 0) (some 1), mkInner "" none (some 3) (some 2)]

/-- The event of the node is one of the two labels other than "transfer". -/
def EventOK (n : Node) : Prop := n.event = "speciation" ∨ n.event = "duplication"

/-- The step from the gene slice `G` to `G1` rewrites the record at `g` only, and it
leaves the child pointers of that record and its `transfer` entry for the species root
as they were. -/
def KeepsRoot (speciesT : Tree) (g : Nat) (G G1 : Tree) : Prop :=
  G1.length = G.length ∧ (∀ x, x ≠ g → nd G1 x = nd G x) ∧
  (nd G1 g).child1 = (nd G g).child1 ∧ (nd G1 g).child2 = (nd G g).child2 ∧
  (nd G1 g).transfer (some (speciesT.length - 1)) =
    (nd G g).transfer (some (speciesT.length - 1))

/-- The gene slice `G` has the length and the child pointers of the gene tree `geneT`,
and the `transfer` entry for the species root is +Inf in every record. -/
def Ready (speciesT geneT G : Tree) : Prop :=
  G.length = geneT.length ∧
  (∀ x, (nd G x).child1 = (nd geneT x).child1 ∧ (nd G x).child2 = (nd geneT x).child2) ∧
  ∀ x, x < G.length → (nd G x).transfer (some (speciesT.length - 1)) = ⊤

namespace Parsimony

/-- The fault a run stops with, if it stops without a result. -/
def faultOf (r : Except Fault Tree) : Option Fault :=
  match r with
  | .ok _ => none
  | .error e => some e

/-- The comb tree (((v0,v1),v2),v3), before `InitializeTree`. -/
def combTree : Tree :=
  [⟨[], "", none, none, none⟩, ⟨[], "", none, none, none⟩, ⟨[], "", none, none, none⟩,
   ⟨[], "", none, none, none⟩, ⟨[], "", none, some 0, some 1⟩,
   ⟨[], "", none, some 4, some 2⟩, ⟨[], "", none, some 5, some 3⟩]

/-- The score matrix with 0 for equal symbols and 1 for different ones. -/
def unitMatrix : Matrix :=
  [[0, 1, 1, 1, 1], [1, 0, 1, 1, 1], [1, 1, 0, 1, 1], [1, 1, 1, 0, 1], [1, 1, 1, 1, 0]]

end Parsimony

/-! ## Theorems -/

/-- The loop of `OptimalCost` returns its start value or a scanned entry, and the
result is below the start value and below every scanned entry. -/
theorem foldl_min_spec (c : Nat → Val) (l : List Nat) (m0 : Val) :
    (l.foldl (fun m i => if c i < m then c i else m) m0 = m0 ∨
      ∃ i ∈ l, l.foldl (fun m i => if c i < m then c i else m) m0 = c i) ∧
    l.foldl (fun m i => if c i < m then c i else m) m0 ≤ m0 ∧
    ∀ i ∈ l, l.foldl (fun m i => if c i < m then c i else m) m0 ≤ c i := by
  induction l generalizing m0 with
  | nil => simp
  | cons a l ih =>
    simp only [List.foldl_cons, List.mem_cons]
    obtain ⟨h1, h2, h3⟩ := ih (if c a < m0 then c a else m0)
    refine ⟨?_, ?_, ?_⟩
    · rcases h1 with h | ⟨i, hi, h⟩
      · by_cases hlt : c a < m0
        · right; exact ⟨a, Or.inl rfl, by rw [h]; simp [hlt]⟩
        · left; rw [h]; simp [hlt]
      · right; exact ⟨i, Or.inr hi, h⟩
    · refine le_trans h2 ?_
      by_cases hlt : c a < m0
      · simp [hlt, le_of_lt hlt]
      · simp [hlt]
    · intro i hi
      rcases hi with rfl | hi
      · refine le_trans h2 ?_
        by_cases hlt : c i < m0
        · simp [hlt]
        · simp only [hlt, if_false]; exact not_lt.mp hlt
      · exact h3 i hi

/-! ### Reading and writing nodes of a slice -/

theorem getElem?_eq_nd {t : Tree} {i : Nat} (h : i < t.length) : t[i]? = some (nd t i) := by
  unfold nd
  rw [List.getElem?_eq_getElem h]
  rfl

theorem nd_of_getElem? {t : Tree} {i : Nat} {n : Node} (h : t[i]? = some n) : nd t i = n := by
  unfold nd
  rw [h]
  rfl

theorem lt_of_getElem? {t : Tree} {i : Nat} {n : Node} (h : t[i]? = some n) : i < t.length := by
  by_contra hc
  rw [List.getElem?_eq_none (not_lt.mp hc)] at h
  exact absurd h (by simp)

theorem nd_set_eq {t : Tree} {g : Nat} (n : Node) (h : g < t.length) :
    nd (t.set g n) g = n := by
  unfold nd
  rw [List.getElem?_set_self h]
  rfl

theorem nd_set_ne {t : Tree} {g x : Nat} (n : Node) (h : x ≠ g) :
    nd (t.set g n) x = nd t x := by
  unfold nd
  rw [List.getElem?_set_ne (Ne.symm h)]

theorem set_nd_self (t : Tree) (g : Nat) : t.set g (nd t g) = t := by
  apply List.ext_getElem?
  intro i
  by_cases hi : i = g
  · subst hi
    by_cases hl : i < t.length
    · rw [List.getElem?_set_self hl, getElem?_eq_nd hl]
    · rw [List.getElem?_eq_none (by simpa using hl), List.getElem?_eq_none (by simpa using hl)]
  · rw [List.getElem?_set_ne (Ne.symm hi)]

theorem nd_map {t : Tree} {i : Nat} (f : Node → Node) (h : i < t.length) :
    nd (t.map f) i = f (nd t i) := by
  unfold nd
  rw [List.getElem?_map, List.getElem?_eq_getElem h]
  rfl

/-! ### The minimum helpers -/

theorem Min_cons (a : Val) (l : List Val) : Min (a :: l) = Except.ok (MinP a l) := by
  induction l generalizing a with
  | nil => rfl
  | cons b rest ih =>
    unfold Min MinP
    by_cases h : a < b
    · simp [h]
    · simp only [h, if_false]
      exact ih b

theorem MinDup_eq (g1 g2 : Node) (s s1 s2 : Ptr) (PLoss : Int) :
    MinDup g1 g2 s s1 s2 PLoss = Except.ok (MinDupP g1 g2 s s1 s2 PLoss) := by
  unfold MinDup Min9 MinDupP
  exact Min_cons _ _

theorem MinP_mem (a : Val) (l : List Val) : MinP a l ∈ a :: l := by
  induction l generalizing a with
  | nil => simp [MinP]
  | cons b rest ih =>
    unfold MinP
    by_cases h : a < b
    · simp [h]
    · simp only [h, if_false]
      exact List.mem_cons_of_mem _ (ih b)

theorem MinP_lt_top (a : Val) (l : List Val) (h : ∃ x, x ∈ a :: l ∧ x < ⊤) : MinP a l < ⊤ := by
  induction l generalizing a with
  | nil =>
    obtain ⟨x, hx, hlt⟩ := h
    simp at hx
    subst hx
    simpa [MinP] using hlt
  | cons b rest ih =>
    unfold MinP
    by_cases hab : a < b
    · simp only [hab, if_true]
      exact lt_of_lt_of_le hab le_top
    · simp only [hab, if_false]
      apply ih
      obtain ⟨x, hx, hlt⟩ := h
      rcases List.mem_cons.mp hx with rfl | hx
      · exact ⟨b, List.mem_cons_self _ _, lt_of_le_of_lt (not_lt.mp hab) hlt⟩
      · exact ⟨x, hx, hlt⟩

theorem Min2_eq_min (a b : Val) : Min2 a b = min a b := by
  unfold Min2
  by_cases h : b < a
  · simp [h, min_eq_right (le_of_lt h)]
  · simp [h, min_eq_left (not_lt.mp h)]

theorem Min3M_eq_min (a b c : Val) : Min3M a b c = min (min a b) c := by
  unfold Min3M
  rw [← Min2_eq_min a b, ← Min2_eq_min]
  rfl

theorem Min3_fst_eq_min (a b c : Val) : (Min3 a b c).1 = min (min a b) c := by
  unfold Min3
  rw [← Min2_eq_min a b, ← Min2_eq_min]
  unfold Min2
  simp only []
  split <;> split <;> rfl

/-! ### Leaf and root tests on a tree with distinct labels -/

theorem SLeave_loop_eq (s : Node) (speciesT : Tree) (n i : Nat) (h : i + n ≤ speciesT.length) :
    SLeave.loop s speciesT i n =
      Except.ok (decide (∃ j, j < i + n ∧ i ≤ j ∧ s.label = (nd speciesT j).label)) := by
  induction n generalizing i with
  | zero =>
    unfold SLeave.loop
    have : ¬ ∃ j, j < i + 0 ∧ i ≤ j ∧ s.label = (nd speciesT j).label := by
      rintro ⟨j, h1, h2, _⟩
      omega
    rw [decide_eq_false this]
  | succ n ih =>
    unfold SLeave.loop
    have hi : i < speciesT.length := by omega
    rw [getElem?_eq_nd hi]
    simp only []
    by_cases hl : s.label = (nd speciesT i).label
    · have : ∃ j, j < i + (n + 1) ∧ i ≤ j ∧ s.label = (nd speciesT j).label :=
        ⟨i, by omega, le_refl _, hl⟩
      rw [if_pos hl, decide_eq_true this]
    · simp only [hl, if_false]
      rw [ih (i + 1) (by omega)]
      congr 1
      apply decide_eq_decide.mpr
      constructor
      · rintro ⟨j, h1, h2, h3⟩
        exact ⟨j, by omega, by omega, h3⟩
      · rintro ⟨j, h1, h2, h3⟩
        refine ⟨j, by omega, ?_, h3⟩
        rcases Nat.eq_or_lt_of_le h2 with rfl | hlt
        · exact absurd h3 hl
        · exact hlt

theorem SLeave_eq {speciesT : Tree} (hd : DistinctLabels speciesT) {s : Nat}
    (hs : s < speciesT.length) :
    SLeave (nd speciesT s) speciesT ((speciesT.length + 1) / 2) =
      Except.ok (decide (s < (speciesT.length + 1) / 2)) := by
  unfold SLeave
  rw [SLeave_loop_eq _ _ _ _ (by omega)]
  congr 1
  apply decide_eq_decide.mpr
  constructor
  · rintro ⟨j, h1, _, h3⟩
    have := hd s hs j (by omega) h3
    omega
  · intro h
    exact ⟨s, by omega, Nat.zero_le _, rfl⟩

theorem getLast?_eq_nd {t : Tree} (h : 0 < t.length) :
    t.getLast? = some (nd t (t.length - 1)) := by
  rw [List.getLast?_eq_getElem?]
  exact getElem?_eq_nd (by omega)

theorem NotRoot_eq {speciesT : Tree} (hd : DistinctLabels speciesT) {s : Nat}
    (hs : s < speciesT.length) :
    NotRoot (nd speciesT s) speciesT = Except.ok (decide (s + 1 ≠ speciesT.length)) := by
  unfold NotRoot
  rw [getLast?_eq_nd (by omega)]
  simp only []
  congr 1
  apply decide_eq_decide.mpr
  constructor
  · intro h heq
    apply h
    have : s = speciesT.length - 1 := by omega
    rw [← this]
  · intro h heq
    have := hd s hs (speciesT.length - 1) (by omega) heq
    omega

/-! ### The shape of a well-formed tree -/

theorem WellFormed.half_le {t : Tree} (h : WellFormed t) : (t.length + 1) / 2 < t.length := by
  obtain ⟨h3, _⟩ := h
  omega

theorem WellFormed.leaf {t : Tree} (h : WellFormed t) {i : Nat} (hi : i < (t.length + 1) / 2) :
    (nd t i).child1 = none ∧ (nd t i).child2 = none :=
  h.2.2.1 i (lt_trans hi h.half_le) hi

theorem WellFormed.inner {t : Tree} (h : WellFormed t) {i : Nat} (hi : i < t.length)
    (hk : (t.length + 1) / 2 ≤ i) :
    ∃ c1 c2, c1 < i ∧ c2 < i ∧ c1 ≠ c2 ∧ (nd t i).child1 = some c1 ∧
      (nd t i).child2 = some c2 ∧ (nd t c1).parent = some i ∧ (nd t c2).parent = some i := by
  obtain ⟨c1, h1, c2, h2, h3⟩ := h.2.2.2.1 i hi hk
  exact ⟨c1, c2, h1, h2, h3⟩

theorem WellFormed.child1_lt {t : Tree} (h : WellFormed t) {i c : Nat} (hi : i < t.length)
    (hc : (nd t i).child1 = some c) :
    c < i ∧ (nd t c).parent = some i ∧ (t.length + 1) / 2 ≤ i := by
  by_cases hk : i < (t.length + 1) / 2
  · rw [(h.leaf hk).1] at hc
    exact absurd hc (by simp)
  · obtain ⟨c1, c2, h1, _, _, h4, _, h6, _⟩ := h.inner hi (not_lt.mp hk)
    rw [h4] at hc
    cases hc
    exact ⟨h1, h6, not_lt.mp hk⟩

theorem WellFormed.child2_lt {t : Tree} (h : WellFormed t) {i c : Nat} (hi : i < t.length)
    (hc : (nd t i).child2 = some c) :
    c < i ∧ (nd t c).parent = some i ∧ (t.length + 1) / 2 ≤ i := by
  by_cases hk : i < (t.length + 1) / 2
  · rw [(h.leaf hk).2] at hc
    exact absurd hc (by simp)
  · obtain ⟨c1, c2, _, h2, _, _, h5, _, h7⟩ := h.inner hi (not_lt.mp hk)
    rw [h5] at hc
    cases hc
    exact ⟨h2, h7, not_lt.mp hk⟩

theorem WellFormed.parent_gt {t : Tree} (h : WellFormed t) {i p : Nat} (hi : i < t.length)
    (hp : (nd t i).parent = some p) :
    i < p ∧ p < t.length ∧ ((nd t p).child1 = some i ∨ (nd t p).child2 = some i) := by
  by_cases hr : i < t.length - 1
  · obtain ⟨q, h1, h2, h3, h4⟩ := h.2.2.2.2.2 i hr
    rw [h3] at hp
    cases hp
    exact ⟨h2, h1, h4⟩
  · have : i = t.length - 1 := by omega
    rw [this, h.2.2.2.2.1] at hp
    exact absurd hp (by simp)

theorem nd_default_of_le {t : Tree} {i : Nat} (h : t.length ≤ i) : nd t i = default := by
  unfold nd
  rw [List.getElem?_eq_none h]
  rfl

theorem Desc_le {t : Tree} (h : WellFormed t) {s x : Nat} (hd : Desc t s x) : x ≤ s := by
  induction hd with
  | here s => exact le_refl _
  | @left s c x hc _ ih =>
    by_cases hs : s < t.length
    · exact le_trans ih (le_of_lt (h.child1_lt hs hc).1)
    · rw [nd_default_of_le (not_lt.mp hs)] at hc
      exact absurd hc (by simp [default])
  | @right s c x hc _ ih =>
    by_cases hs : s < t.length
    · exact le_trans ih (le_of_lt (h.child2_lt hs hc).1)
    · rw [nd_default_of_le (not_lt.mp hs)] at hc
      exact absurd hc (by simp [default])

theorem Desc_trans {t : Tree} {a b c : Nat} (h1 : Desc t a b) (h2 : Desc t b c) : Desc t a c := by
  induction h1 with
  | here s => exact h2
  | left hc _ ih => exact Desc.left hc (ih h2)
  | right hc _ ih => exact Desc.right hc (ih h2)

theorem Desc_root {t : Tree} (h : WellFormed t) {x : Nat} (hx : x < t.length) :
    Desc t (t.length - 1) x := by
  generalize hm : t.length - x = m
  induction m using Nat.strong_induction_on generalizing x with
  | _ m ih =>
    by_cases hr : x < t.length - 1
    · obtain ⟨p, h1, h2, _, h4⟩ := h.2.2.2.2.2 x hr
      have hp := ih (t.length - p) (by omega) h1 rfl
      rcases h4 with h4 | h4
      · exact Desc_trans hp (Desc.left h4 (Desc.here x))
      · exact Desc_trans hp (Desc.right h4 (Desc.here x))
    · have : x = t.length - 1 := by omega
      rw [this]
      exact Desc.here _

theorem Desc_parent {t : Tree} (h : WellFormed t) {s x : Nat} (hs : s < t.length)
    (hd : Desc t s x) (hne : x ≠ s) : ∃ p, (nd t x).parent = some p ∧ Desc t s p := by
  induction hd with
  | here s => exact absurd rfl hne
  | @left s c x hc hcx ih =>
    have hcs := h.child1_lt hs hc
    by_cases hxc : x = c
    · subst hxc
      exact ⟨s, hcs.2.1, Desc.here s⟩
    · obtain ⟨p, hp, hd⟩ := ih (lt_trans hcs.1 hs) hxc
      exact ⟨p, hp, Desc.left hc hd⟩
  | @right s c x hc hcx ih =>
    have hcs := h.child2_lt hs hc
    by_cases hxc : x = c
    · subst hxc
      exact ⟨s, hcs.2.1, Desc.here s⟩
    · obtain ⟨p, hp, hd⟩ := ih (lt_trans hcs.1 hs) hxc
      exact ⟨p, hp, Desc.right hc hd⟩

theorem Desc_chain {t : Tree} (h : WellFormed t) {a b x : Nat} (ha : a < t.length)
    (hb : b < t.length) (hax : Desc t a x) (hbx : Desc t b x) (hab : a ≤ b) : Desc t b a := by
  generalize hm : t.length - x = m
  induction m using Nat.strong_induction_on generalizing x with
  | _ m ih =>
    by_cases hxa : x = a
    · subst hxa; exact hbx
    · by_cases hxb : x = b
      · subst hxb
        have := Desc_le h hax
        have : x = a := by omega
        exact absurd this hxa
      · obtain ⟨p, hp, hap⟩ := Desc_parent h ha hax hxa
        obtain ⟨q, hq, hbq⟩ := Desc_parent h hb hbx hxb
        rw [hp] at hq
        cases hq
        have hxl : x < t.length := lt_of_le_of_lt (Desc_le h hax) ha
        have := h.parent_gt hxl hp
        exact ih (t.length - p) (by omega) hap hbq rfl

theorem subtree_disjoint {t : Tree} (h : WellFormed t) {s c1 c2 x : Nat} (hs : s < t.length)
    (h1 : (nd t c1).parent = some s) (h2 : (nd t c2).parent = some s)
    (hc1 : c1 < s) (hc2 : c2 < s) (hne : c1 ≠ c2)
    (hd1 : Desc t c1 x) (hd2 : Desc t c2 x) : False := by
  rcases Nat.le_total c1 c2 with hle | hle
  · have hd := Desc_chain h (lt_trans hc1 hs) (lt_trans hc2 hs) hd1 hd2 hle
    obtain ⟨p, hp, hdp⟩ := Desc_parent h (lt_trans hc2 hs) hd hne
    rw [h1] at hp
    cases hp
    have := Desc_le h hdp
    omega
  · have hd := Desc_chain h (lt_trans hc2 hs) (lt_trans hc1 hs) hd2 hd1 hle
    obtain ⟨p, hp, hdp⟩ := Desc_parent h (lt_trans hc1 hs) hd (Ne.symm hne)
    rw [h2] at hp
    cases hp
    have := Desc_le h hdp
    omega

/-! ### `PostOrderSpT` and `PreOrderIntNSpT` compute `passN` and `preN` -/

theorem wr_set {G : Tree} {g : Nat} (hg : g < G.length) (n : Node) (f : Field) (k : Ptr)
    (v : Val) : wr (G.set g n) g f k v = G.set g (n.put f k v) := by
  unfold wr
  rw [nd_set_eq n hg, List.set_set]

theorem wrEvent_set {G : Tree} {g : Nat} (hg : g < G.length) (n : Node) (e : String) :
    wrEvent (G.set g n) g e = G.set g (n.setEvent e) := by
  unfold wrEvent
  rw [nd_set_eq n hg, List.set_set]

theorem rd_set_eq {G : Tree} {g : Nat} (hg : g < G.length) (n : Node) (f : Field) (k : Ptr) :
    rd (G.set g n) g f k = n.get f k := by
  unfold rd
  rw [nd_set_eq n hg]

theorem rd_set_ne {G : Tree} {g x : Nat} (hx : x ≠ g) (n : Node) (f : Field) (k : Ptr) :
    rd (G.set g n) x f k = (nd G x).get f k := by
  unfold rd
  rw [nd_set_ne n hx]

theorem NodeMap.set_self (m : NodeMap) (k : Ptr) : m.set k (m k) = m := by
  funext j
  unfold NodeMap.set
  by_cases h : j = k
  · simp [h]
  · simp [h]

theorem NodeMap.set_same (m : NodeMap) (k : Ptr) (v : Val) : (m.set k v) k = v := by
  simp [NodeMap.set]

theorem NodeMap.set_other (m : NodeMap) {k j : Ptr} (v : Val) (h : j ≠ k) :
    (m.set k v) j = m j := by
  simp [NodeMap.set, h]

theorem visit_eq {S G : Tree} (hd : DistinctLabels S) {g g1 g2 s : Nat} (hs : s < S.length)
    (hg : g < G.length) (h1 : (nd G g).child1 = some g1) (h2 : (nd G g).child2 = some g2)
    (hg1 : g1 < G.length) (hg2 : g2 < G.length) (hne1 : g1 ≠ g) (hne2 : g2 ≠ g)
    (Pd Pt PL : Int) :
    PostOrderSpT.visit S G g s (nd S s) ((S.length + 1) / 2) Pd Pt PL =
      Except.ok (G.set g (visitN S Pd Pt PL (nd G g1) (nd G g2) s (nd G g))) := by
  unfold PostOrderSpT.visit
  rw [getElem?_eq_nd hg]
  simp only [h1, h2, hg1, hg2, and_self, if_true, MinDup_eq]
  by_cases hl : s < (S.length + 1) / 2 <;> by_cases hr : s + 1 ≠ S.length
  all_goals
    have hS := SLeave_eq hd hs
    have hN := NotRoot_eq hd hs
    first
      | rw [decide_eq_true hl] at hS
      | rw [decide_eq_false hl] at hS
    first
      | rw [decide_eq_true hr] at hN
      | rw [decide_eq_false hr] at hN
    simp only [hS, hN]
    refine congrArg Except.ok ?_
    simp only [wr, wrEvent, rd, nd_set_eq, nd_set_ne _ hne1, nd_set_ne _ hne2, List.set_set,
      List.length_set, hg, if_true, if_false, Bool.false_eq_true]
    refine congrArg (List.set G g) ?_
    simp [visitN, hl, hr, Node.put, Node.get, Node.setEvent, NodeMap.set_self,
      NodeMap.set_same]

theorem visitN_shape (S : Tree) (Pd Pt PL : Int) (g1 g2 : Node) (s : Nat) (g : Node) :
    SameShape g (visitN S Pd Pt PL g1 g2 s g) := by
  simp [SameShape, visitN]

theorem passN_shape (S : Tree) (Pd Pt PL : Int) (g1 g2 : Node) (fuel : Nat) (s : Ptr)
    (g : Node) : SameShape g (passN S Pd Pt PL g1 g2 fuel s g) := by
  induction fuel generalizing s g with
  | zero => cases s <;> simp [passN, SameShape]
  | succ fuel ih =>
    cases s with
    | none => simp [passN, SameShape]
    | some s =>
      unfold passN
      have h1 := ih (nd S s).child1 g
      have h2 := ih (nd S s).child2 (passN S Pd Pt PL g1 g2 fuel (nd S s).child1 g)
      have h3 := visitN_shape S Pd Pt PL g1 g2 s
        (passN S Pd Pt PL g1 g2 fuel (nd S s).child2
          (passN S Pd Pt PL g1 g2 fuel (nd S s).child1 g))
      unfold SameShape at *
      refine ⟨?_, ?_, ?_, ?_, ?_⟩
      · rw [h1.1, h2.1, h3.1]
      · rw [h1.2.1, h2.2.1, h3.2.1]
      · rw [h1.2.2.1, h2.2.2.1, h3.2.2.1]
      · rw [h1.2.2.2.1, h2.2.2.2.1, h3.2.2.2.1]
      · rw [h1.2.2.2.2, h2.2.2.2.2, h3.2.2.2.2]

/-- On a well-formed species tree with distinct labels, `PostOrderSpT` for a gene node
whose children are two other nodes returns the slice with the record of that node
replaced by `passN`. -/
theorem PostOrderSpT_eq {S : Tree} (hw : WellFormed S) (hd : DistinctLabels S)
    (Pd Pt PL : Int) {g g1 g2 : Nat} (hne1 : g1 ≠ g) (hne2 : g2 ≠ g) :
    ∀ (fuel : Nat) (s : Nat) (G : Tree), s < fuel → s < S.length → g < G.length →
      (nd G g).child1 = some g1 → (nd G g).child2 = some g2 → g1 < G.length → g2 < G.length →
      PostOrderSpT S g ((S.length + 1) / 2) Pd Pt PL fuel (some s) G =
        Except.ok (G.set g (passN S Pd Pt PL (nd G g1) (nd G g2) fuel (some s) (nd G g))) := by
  intro fuel
  induction fuel with
  | zero => intro s G hf; omega
  | succ fuel ih =>
    intro s G hf hs hg h1 h2 hg1 hg2
    -- the two recursive calls, for a child pointer that may be nil
    have hrec : ∀ (c : Ptr) (G : Tree), (c = none ∨ ∃ ci, c = some ci ∧ ci < s) →
        g < G.length → (nd G g).child1 = some g1 → (nd G g).child2 = some g2 →
        g1 < G.length → g2 < G.length →
        PostOrderSpT S g ((S.length + 1) / 2) Pd Pt PL fuel c G =
          Except.ok (G.set g (passN S Pd Pt PL (nd G g1) (nd G g2) fuel c (nd G g))) := by
      intro c G hc hg h1 h2 hg1 hg2
      rcases hc with rfl | ⟨ci, rfl, hci⟩
      · cases fuel <;> simp [PostOrderSpT, passN, set_nd_self]
      · exact ih ci G (by omega) (by omega) hg h1 h2 hg1 hg2
    have hc1 : (nd S s).child1 = none ∨ ∃ ci, (nd S s).child1 = some ci ∧ ci < s := by
      cases h : (nd S s).child1 with
      | none => exact Or.inl rfl
      | some ci => exact Or.inr ⟨ci, rfl, (hw.child1_lt hs h).1⟩
    have hc2 : (nd S s).child2 = none ∨ ∃ ci, (nd S s).child2 = some ci ∧ ci < s := by
      cases h : (nd S s).child2 with
      | none => exact Or.inl rfl
      | some ci => exact Or.inr ⟨ci, rfl, (hw.child2_lt hs h).1⟩
    unfold PostOrderSpT
    rw [getElem?_eq_nd hs]
    simp only []
    rw [hrec _ G hc1 hg h1 h2 hg1 hg2]
    simp only []
    have sh1 := passN_shape S Pd Pt PL (nd G g1) (nd G g2) fuel (nd S s).child1 (nd G g)
    have hg' : g < (G.set g (passN S Pd Pt PL (nd G g1) (nd G g2) fuel (nd S s).child1
        (nd G g))).length := by simpa using hg
    rw [hrec _ _ hc2 hg' (by rw [nd_set_eq _ hg, ← sh1.2.2.1, h1])
      (by rw [nd_set_eq _ hg, ← sh1.2.2.2.1, h2]) (by simpa using hg1) (by simpa using hg2)]
    simp only [nd_set_eq _ hg, nd_set_ne _ hne1, nd_set_ne _ hne2, List.set_set]
    have sh2 := passN_shape S Pd Pt PL (nd G g1) (nd G g2) fuel (nd S s).child2
      (passN S Pd Pt PL (nd G g1) (nd G g2) fuel (nd S s).child1 (nd G g))
    rw [visit_eq hd hs (by simpa using hg)
      (by rw [nd_set_eq _ hg, ← sh2.2.2.1, ← sh1.2.2.1, h1])
      (by rw [nd_set_eq _ hg, ← sh2.2.2.2.1, ← sh1.2.2.2.1, h2])
      (by simpa using hg1) (by simpa using hg2) hne1 hne2]
    simp only [nd_set_eq _ hg, nd_set_ne _ hne1, nd_set_ne _ hne2, List.set_set]
    rfl

theorem PreOrderIntNSpT_eq {S : Tree} (hw : WellFormed S) :
    ∀ (fuel : Nat) (r : Nat) (g : Node), r < fuel → r < S.length →
      PreOrderIntNSpT S fuel (some r) g = Except.ok (preN S fuel (some r) g) := by
  intro fuel
  induction fuel with
  | zero => intro r g hf; omega
  | succ fuel ih =>
    intro r g hf hr
    unfold PreOrderIntNSpT preN
    rw [getElem?_eq_nd hr]
    simp only []
    cases h1 : (nd S r).child1 with
    | none => simp
    | some c1 =>
      cases h2 : (nd S r).child2 with
      | none => simp
      | some c2 =>
        have hc1 := (hw.child1_lt hr h1).1
        have hc2 := (hw.child2_lt hr h2).1
        simp only []
        rw [ih c1 _ (by omega) (by omega)]
        simp only []
        rw [ih c2 _ (by omega) (by omega)]
        simp [Node.put]

theorem Desc_cases {t : Tree} {s x : Nat} (h : Desc t s x) :
    x = s ∨ (∃ c, (nd t s).child1 = some c ∧ Desc t c x) ∨
      (∃ c, (nd t s).child2 = some c ∧ Desc t c x) := by
  cases h with
  | here => exact Or.inl rfl
  | left hc hd => exact Or.inr (Or.inl ⟨_, hc, hd⟩)
  | right hc hd => exact Or.inr (Or.inr ⟨_, hc, hd⟩)

theorem SameShape.refl (a : Node) : SameShape a a := ⟨rfl, rfl, rfl, rfl, rfl⟩

theorem SameShape.trans {a b c : Node} (h1 : SameShape a b) (h2 : SameShape b c) :
    SameShape a c :=
  ⟨h1.1.trans h2.1, h1.2.1.trans h2.2.1, h1.2.2.1.trans h2.2.2.1,
    h1.2.2.2.1.trans h2.2.2.2.1, h1.2.2.2.2.trans h2.2.2.2.2⟩

theorem put_shape (g : Node) (f : Field) (k : Ptr) (v : Val) : SameShape g (g.put f k v) := by
  cases f <;> exact ⟨rfl, rfl, rfl, rfl, rfl⟩

theorem preN_shape (S : Tree) (fuel : Nat) (r : Ptr) (g : Node) :
    SameShape g (preN S fuel r g) := by
  induction fuel generalizing r g with
  | zero => cases r <;> exact SameShape.refl _
  | succ fuel ih =>
    cases r with
    | none => exact SameShape.refl _
    | some r =>
      unfold preN
      cases h1 : (nd S r).child1 with
      | none => exact SameShape.refl _
      | some c1 =>
        cases h2 : (nd S r).child2 with
        | none => exact SameShape.refl _
        | some c2 =>
          exact ((((put_shape g _ _ _).trans (put_shape _ _ _ _)).trans (ih _ _)).trans
            (ih _ _))

theorem procN_shape (S : Tree) (Pd Pt PL : Int) (fuelS : Nat) (g1 g2 g : Node) :
    SameShape g (procN S Pd Pt PL fuelS g1 g2 g) :=
  (passN_shape S Pd Pt PL g1 g2 fuelS _ g).trans (preN_shape S fuelS _ _)

/-- The pass over the gene tree.  `G0` is the gene tree on entry.  From a node `g`
whose subtree is still untouched, `PostOrderGeneT` returns; it leaves every node
outside the subtree of `g` as it was, leaves every leaf of the subtree as it was, and
sets every internal node of the subtree to `procN` of the final records of its two
children and of its own record on entry. -/
theorem PostOrderGeneT_spec {S G0 : Tree} (hwS : WellFormed S) (hdS : DistinctLabels S)
    (hwG : WellFormed G0) (Pd Pt PL : Int) {fuelS : Nat} (hfS : S.length ≤ fuelS) :
    ∀ (fuel g : Nat) (G : Tree), g < fuel → g < G0.length → G.length = G0.length →
      (∀ x, Desc G0 g x → nd G x = nd G0 x) →
      ∃ G1, PostOrderGeneT S (some (S.length - 1)) ((S.length + 1) / 2) Pd Pt PL fuelS
          fuel g G = Except.ok G1 ∧ G1.length = G0.length ∧
        (∀ x, ¬ Desc G0 g x → nd G1 x = nd G x) ∧
        (∀ x, Desc G0 g x →
          (x < (G0.length + 1) / 2 → nd G1 x = nd G0 x) ∧
          (∀ c1 c2, (nd G0 x).child1 = some c1 → (nd G0 x).child2 = some c2 →
            nd G1 x = procN S Pd Pt PL fuelS (nd G1 c1) (nd G1 c2) (nd G0 x))) := by
  intro fuel
  induction fuel with
  | zero => intro g G hf; omega
  | succ fuel ih =>
    intro g G hf hg hlen hpre
    have hgG : g < G.length := by omega
    have hg0 : nd G g = nd G0 g := hpre g (Desc.here g)
    unfold PostOrderGeneT
    rw [getElem?_eq_nd hgG]
    simp only [hg0]
    by_cases hk : g < (G0.length + 1) / 2
    · -- a leaf
      obtain ⟨hl1, hl2⟩ := hwG.leaf hk
      rw [hl1]
      refine ⟨G, rfl, hlen, fun x _ => rfl, ?_⟩
      intro x hx
      have hxg : x = g := by
        rcases Desc_cases hx with h | ⟨c, hc, _⟩ | ⟨c, hc, _⟩
        · exact h
        · rw [hl1] at hc; exact absurd hc (by simp)
        · rw [hl2] at hc; exact absurd hc (by simp)
      subst hxg
      refine ⟨fun _ => hg0, ?_⟩
      intro c1 c2 h1 _
      rw [hl1] at h1
      exact absurd h1 (by simp)
    · -- an internal node
      obtain ⟨c1, c2, hc1, hc2, hne, h1, h2, hp1, hp2⟩ := hwG.inner hg (not_lt.mp hk)
      rw [h1, h2]
      simp only []
      obtain ⟨G1, e1, len1, out1, in1⟩ := ih c1 G (by omega) (by omega) hlen
        (fun x hx => hpre x (Desc.left h1 hx))
      rw [e1]
      simp only []
      have disj : ∀ x, Desc G0 c1 x → Desc G0 c2 x → False :=
        fun x a b => subtree_disjoint hwG hg hp1 hp2 hc1 hc2 hne a b
      obtain ⟨G2, e2, len2, out2, in2⟩ := ih c2 G1 (by omega) (by omega) len1
        (fun x hx => by
          rw [out1 x (fun h => disj x h hx)]
          exact hpre x (Desc.right h2 hx))
      rw [e2]
      simp only []
      have hgc1 : ¬ Desc G0 c1 g := fun h => by have := Desc_le hwG h; omega
      have hgc2 : ¬ Desc G0 c2 g := fun h => by have := Desc_le hwG h; omega
      have hg2 : nd G2 g = nd G0 g := by rw [out2 g hgc2, out1 g hgc1, hg0]
      have hSlen : 0 < S.length := by have := hwS.1; omega
      rw [PostOrderSpT_eq hwS hdS Pd Pt PL (Nat.ne_of_lt hc1) (Nat.ne_of_lt hc2) fuelS
        (S.length - 1) G2 (by omega) (by omega) (by omega) (by rw [hg2, h1])
        (by rw [hg2, h2]) (by omega) (by omega)]
      simp only []
      rw [if_neg (by omega)]
      rw [nd_set_eq _ (by omega), PreOrderIntNSpT_eq hwS fuelS (S.length - 1) _ (by omega)
        (by omega)]
      simp only [List.set_set]
      refine ⟨_, rfl, by simp [len2], ?_, ?_⟩
      · intro x hx
        have hxg : x ≠ g := fun h => hx (h ▸ Desc.here x)
        rw [nd_set_ne _ hxg, out2 x (fun h => hx (Desc.right h2 h)),
          out1 x (fun h => hx (Desc.left h1 h))]
      · intro x hx
        have key : ∀ y, y ≠ g → nd (G2.set g (preN S fuelS (some (S.length - 1))
            (passN S Pd Pt PL (nd G2 c1) (nd G2 c2) fuelS (some (S.length - 1)) (nd G2 g)))) y
            = nd G2 y := fun y hy => nd_set_ne _ hy
        rcases Desc_cases hx with h | ⟨c, hc, hd⟩ | ⟨c, hc, hd⟩
        · subst h
          refine ⟨fun h => absurd h hk, ?_⟩
          intro d1 d2 hd1 hd2
          rw [h1] at hd1; rw [h2] at hd2
          cases hd1; cases hd2
          rw [nd_set_eq _ (by omega), key c1 (Nat.ne_of_lt hc1), key c2 (Nat.ne_of_lt hc2), hg2]
          rfl
        · rw [h1] at hc; cases hc
          have hxg : x ≠ g := fun h => hgc1 (h ▸ hd)
          have hx2 : nd G2 x = nd G1 x := out2 x (fun h => disj x hd h)
          obtain ⟨a, b⟩ := in1 x hd
          refine ⟨fun h => by rw [key x hxg, hx2]; exact a h, ?_⟩
          intro d1 d2 hd1 hd2
          have hxl : x < G0.length := lt_of_le_of_lt (Desc_le hwG hd) (by omega)
          have e1' := Desc_trans hd (Desc.left hd1 (Desc.here d1))
          have e2' := Desc_trans hd (Desc.right hd2 (Desc.here d2))
          rw [key x hxg, key d1 (fun h => hgc1 (h ▸ e1')), key d2 (fun h => hgc1 (h ▸ e2')),
            hx2, out2 d1 (fun h => disj d1 e1' h), out2 d2 (fun h => disj d2 e2' h)]
          exact b d1 d2 hd1 hd2
        · rw [h2] at hc; cases hc
          have hxg : x ≠ g := fun h => hgc2 (h ▸ hd)
          obtain ⟨a, b⟩ := in2 x hd
          refine ⟨fun h => by rw [key x hxg]; exact a h, ?_⟩
          intro d1 d2 hd1 hd2
          have e1' := Desc_trans hd (Desc.left hd1 (Desc.here d1))
          have e2' := Desc_trans hd (Desc.right hd2 (Desc.here d2))
          rw [key x hxg, key d1 (fun h => hgc2 (h ▸ e1')), key d2 (fun h => hgc2 (h ▸ e2'))]
          exact b d1 d2 hd1 hd2

/-! ### Loops that rewrite one node per round -/

theorem loopM_set {b : Tree → Nat → Except Fault Tree} {h : Nat → Node → Node}
    {Q : Nat → Node → Prop}
    (hb : ∀ t i, i < t.length → Q i (nd t i) → b t i = Except.ok (t.set i (h i (nd t i)))) :
    ∀ (ls : List Nat) (t : Tree), ls.Nodup → (∀ i ∈ ls, i < t.length ∧ Q i (nd t i)) →
      ∃ t1, loopM b ls t = Except.ok t1 ∧ t1.length = t.length ∧
        ∀ x, nd t1 x = if x ∈ ls then h x (nd t x) else nd t x := by
  intro ls
  induction ls with
  | nil => intro t _ _; exact ⟨t, rfl, rfl, fun x => by simp⟩
  | cons a ls ih =>
    intro t hnd hall
    obtain ⟨ha, hq⟩ := hall a (List.mem_cons_self _ _)
    have hnd' := List.nodup_cons.mp hnd
    unfold loopM
    rw [hb t a ha hq]
    simp only []
    obtain ⟨t1, e1, l1, n1⟩ := ih (t.set a (h a (nd t a))) hnd'.2 (by
      intro i hi
      have hia : i ≠ a := fun e => hnd'.1 (e ▸ hi)
      have := hall i (List.mem_cons_of_mem _ hi)
      rw [nd_set_ne _ hia]
      exact ⟨by simpa using this.1, this.2⟩)
    refine ⟨t1, e1, by simpa using l1, ?_⟩
    intro x
    rw [n1 x]
    by_cases hxa : x = a
    · subst hxa
      simp [hnd'.1, nd_set_eq _ ha]
    · simp [hxa, nd_set_ne _ hxa]

/-! ### `InitializeLMap` -/

theorem initL_inner (S : Tree) (i : Nat) :
    ∀ (js : List Nat) (t : Tree), (∀ j ∈ js, j < S.length) → i < t.length →
      loopM (fun t j =>
        match t[i]?, S[j]? with
        | some gi, some sj =>
          if gi.label = sj.label then Except.ok (t.set i { gi with L := gi.L ++ [j] })
          else Except.ok t
        | _, _ => Except.error Fault.indexOutOfRange) js t =
      Except.ok (t.set i { nd t i with
        L := (nd t i).L ++ js.filter fun j => decide ((nd t i).label = (nd S j).label) }) := by
  intro js
  induction js with
  | nil =>
    intro t _ _
    simp only [loopM, List.filter_nil, List.append_nil]
    congr 1
    exact (set_nd_self t i).symm
  | cons j js ih =>
    intro t hall hi
    have hj := hall j (List.mem_cons_self _ _)
    unfold loopM
    simp only [getElem?_eq_nd hi, getElem?_eq_nd hj]
    by_cases hl : (nd t i).label = (nd S j).label
    · simp only [hl, if_true]
      rw [ih _ (fun j' hj' => hall j' (List.mem_cons_of_mem _ hj')) (by simpa using hi)]
      simp only [nd_set_eq _ hi, List.set_set, List.filter_cons, hl, decide_True, if_true,
        List.append_assoc, List.singleton_append]
    · simp only [hl, if_false]
      rw [ih _ (fun j' hj' => hall j' (List.mem_cons_of_mem _ hj')) hi]
      simp only [List.filter_cons, hl, decide_False, Bool.false_eq_true, if_false]

/-- The result of `InitializeLMap`, node by node. -/
theorem InitializeLMap_eq (geneT S : Tree) (gl sl : Nat) (hgl : gl ≤ geneT.length)
    (hsl : sl ≤ S.length) :
    ∃ G1, InitializeLMap geneT S gl sl = Except.ok G1 ∧ G1.length = geneT.length ∧
      ∀ x, x < geneT.length → nd G1 x =
        { nd geneT x with L := if x < gl then labelMatches S sl (nd geneT x).label else [] } := by
  unfold InitializeLMap
  have hb : ∀ (t : Tree) (i : Nat), i < t.length → (nd t i).L = [] →
      loopM (fun t j =>
        match t[i]?, S[j]? with
        | some gi, some sj =>
          if gi.label = sj.label then Except.ok (t.set i { gi with L := gi.L ++ [j] })
          else Except.ok t
        | _, _ => Except.error Fault.indexOutOfRange) (List.range sl) t =
      Except.ok (t.set i ((fun _ n => { n with L := labelMatches S sl n.label }) i (nd t i))) := by
    intro t i hi hL
    rw [initL_inner S i _ t (fun j hj => by simp at hj; omega) hi, hL]
    rfl
  obtain ⟨t1, e1, l1, n1⟩ := loopM_set (b := fun t i => loopM (fun t j =>
        match t[i]?, S[j]? with
        | some gi, some sj =>
          if gi.label = sj.label then Except.ok (t.set i { gi with L := gi.L ++ [j] })
          else Except.ok t
        | _, _ => Except.error Fault.indexOutOfRange) (List.range sl) t)
    (h := fun _ n => { n with L := labelMatches S sl n.label })
    (Q := fun _ n => n.L = []) hb (List.range gl)
    (geneT.map fun n => { n with L := [] }) (List.nodup_range gl) (by
      intro i hi
      simp at hi
      have : i < geneT.length := by omega
      refine ⟨by simpa using this, ?_⟩
      rw [nd_map _ this])
  refine ⟨t1, e1, by simpa using l1, ?_⟩
  intro x hx
  rw [n1 x, nd_map _ hx]
  by_cases hxg : x < gl
  · simp [hxg]
  · simp [hxg]

/-! ### `FindAncestors` -/

theorem climb_eq {S : Tree} (hw : WellFormed S) :
    ∀ (fuel p : Nat) (acc : List Nat), p < S.length → S.length ≤ p + fuel →
      FindAncestors.climb S fuel p acc = Except.ok (acc ++ pathUp S fuel p) := by
  intro fuel
  induction fuel with
  | zero => intro p acc hp hf; omega
  | succ fuel ih =>
    intro p acc hp hf
    unfold FindAncestors.climb pathUp
    rw [getElem?_eq_nd hp]
    simp only []
    cases h : (nd S p).parent with
    | none => simp
    | some q =>
      have hq := hw.parent_gt hp h
      simp only []
      rw [ih q _ hq.2.1 (by omega)]
      simp

theorem climb_loop_eq {S : Tree} (hw : WellFormed S) {fuel : Nat} (hf : S.length ≤ fuel) :
    ∀ (L acc : List Nat), (∀ j ∈ L, j < S.length) →
      loopM (fun ancestors node => FindAncestors.climb S fuel node ancestors) L acc =
        Except.ok (acc ++ L.flatMap (pathUp S fuel)) := by
  intro L
  induction L with
  | nil => intro acc _; simp [loopM]
  | cons a L ih =>
    intro acc hall
    unfold loopM
    rw [climb_eq hw fuel a acc (hall a (List.mem_cons_self _ _)) (by omega)]
    simp only []
    rw [ih _ (fun j hj => hall j (List.mem_cons_of_mem _ hj))]
    simp [List.flatMap_cons]

theorem FindAncestors_eq {S : Tree} (hw : WellFormed S) {fuel : Nat} (hf : S.length ≤ fuel)
    (l : Node) (hne : l.L ≠ []) (hall : ∀ j ∈ l.L, j < S.length) :
    FindAncestors fuel l S = Except.ok (ancestorsP S fuel l.L) := by
  unfold FindAncestors ancestorsP
  cases hL : l.L with
  | nil => exact absurd hL hne
  | cons s0 rest =>
    simp only []
    rw [← hL, climb_loop_eq hw hf l.L [s0] hall]
    rfl

/-! ### The leaf loop of `UMPR` -/

theorem foldl_shape {α : Type} (f : Node → α → Node) (hf : ∀ n a, SameShape n (f n a)) :
    ∀ (l : List α) (n : Node), SameShape n (l.foldl f n) := by
  intro l
  induction l with
  | nil => intro n; exact SameShape.refl n
  | cons a l ih => intro n; exact (hf n a).trans (ih (f n a))

theorem leafCost_shape (S : Tree) (ls : List Nat) (l : Node) :
    SameShape l (UMPR.leafCost S ls l) := by
  unfold UMPR.leafCost
  apply foldl_shape
  intro n a
  dsimp only
  split
  · exact put_shape _ _ _ _
  · exact SameShape.refl _

theorem leafIn_shape (PL : Int) (anc : List Nat) (l : Node) :
    SameShape l (UMPR.leafIn PL anc l) := by
  unfold UMPR.leafIn
  apply foldl_shape
  intro n a
  exact (put_shape _ _ _ _).trans (put_shape _ _ _ _)

theorem leafOut_shape (S : Tree) (ls : List Nat) (l : Node) :
    SameShape l (UMPR.leafOut S ls l) := by
  unfold UMPR.leafOut
  apply foldl_shape
  intro n a
  dsimp only
  split
  · exact put_shape _ _ _ _
  · exact SameShape.refl _

theorem InitializeCosts_shape (n : Node) (s : Nat) : SameShape n (InitializeCosts n s) :=
  ⟨rfl, rfl, rfl, rfl, rfl⟩

theorem initNode_shape (S : Tree) (n : Node) (L : List Nat) :
    (initNode S n L).label = n.label ∧ (initNode S n L).parent = n.parent ∧
    (initNode S n L).child1 = n.child1 ∧ (initNode S n L).child2 = n.child2 ∧
    (initNode S n L).L = L := by
  unfold initNode
  have h := foldl_shape InitializeCosts InitializeCosts_shape (List.range S.length)
    { n with L := L, cost := emptyMap, speciation := emptyMap, duplication := emptyMap,
             transfer := emptyMap, in_ := emptyMap, inAlt := emptyMap, out := emptyMap }
  exact ⟨h.1.symm, h.2.1.symm, h.2.2.1.symm, h.2.2.2.1.symm, h.2.2.2.2.symm⟩

theorem leaf_eq {S : Tree} (hw : WellFormed S) {fuel : Nat} (hf : S.length ≤ fuel)
    (ls : List Nat) (PL : Int) (l : Node) (hne : l.L ≠ []) (hall : ∀ j ∈ l.L, j < S.length) :
    UMPR.leaf fuel S ls PL l =
      Except.ok (UMPR.leafOut S ls (UMPR.leafIn PL (ancestorsP S fuel l.L)
        (UMPR.leafCost S ls l))) := by
  unfold UMPR.leaf
  have hL : (UMPR.leafCost S ls l).L = l.L := (leafCost_shape S ls l).2.2.2.2.symm
  simp only []
  rw [FindAncestors_eq hw hf _ (by rw [hL]; exact hne) (by rw [hL]; exact hall), hL]

theorem labelMatches_lt (S : Tree) (sl : Nat) (label : String) :
    ∀ j ∈ labelMatches S sl label, j < sl := by
  intro j hj
  unfold labelMatches at hj
  simp at hj
  exact hj.1

theorem WellFormed.of_shape {t u : Tree} (h : WellFormed t) (hl : u.length = t.length)
    (hs : ∀ i, i < t.length → (nd u i).parent = (nd t i).parent ∧
      (nd u i).child1 = (nd t i).child1 ∧ (nd u i).child2 = (nd t i).child2) :
    WellFormed u := by
  have hhalf := h.half_le
  obtain ⟨h1, h2, h3, h4, h5, h6⟩ := h
  refine ⟨by omega, by omega, ?_, ?_, ?_, ?_⟩
  · intro i hi hk
    rw [hl] at hi hk
    rw [(hs i hi).2.1, (hs i hi).2.2]
    exact h3 i hi hk
  · intro i hi hk
    rw [hl] at hi hk
    obtain ⟨c1, a1, c2, a2, a3, a4, a5, a6, a7⟩ := h4 i hi hk
    refine ⟨c1, a1, c2, a2, a3, ?_, ?_, ?_, ?_⟩
    · rw [(hs i hi).2.1]; exact a4
    · rw [(hs i hi).2.2]; exact a5
    · rw [(hs c1 (by omega)).1]; exact a6
    · rw [(hs c2 (by omega)).1]; exact a7
  · rw [hl, (hs (t.length - 1) (by omega)).1]
    exact h5
  · intro i hi
    rw [hl] at hi
    obtain ⟨p, a1, a2, a3, a4⟩ := h6 i hi
    refine ⟨p, by omega, a2, ?_, ?_⟩
    · rw [(hs i (by omega)).1]; exact a3
    · rw [(hs p a1).2.1, (hs p a1).2.2]; exact a4

theorem leafNode_shape (S : Tree) (PL : Int) (fuel : Nat) (n : Node) :
    (leafNode S PL fuel n).label = n.label ∧ (leafNode S PL fuel n).parent = n.parent ∧
    (leafNode S PL fuel n).child1 = n.child1 ∧ (leafNode S PL fuel n).child2 = n.child2 ∧
    (leafNode S PL fuel n).L = labelMatches S ((S.length + 1) / 2) n.label := by
  unfold leafNode
  have a := initNode_shape S n (labelMatches S ((S.length + 1) / 2) n.label)
  have b := ((leafCost_shape S (List.range ((S.length + 1) / 2))
    (initNode S n (labelMatches S ((S.length + 1) / 2) n.label))).trans
    (leafIn_shape PL (ancestorsP S fuel (labelMatches S ((S.length + 1) / 2) n.label)) _)).trans
    (leafOut_shape S (List.range ((S.length + 1) / 2)) _)
  exact ⟨b.1.symm.trans a.1, b.2.1.symm.trans a.2.1, b.2.2.1.symm.trans a.2.2.1,
    b.2.2.2.1.symm.trans a.2.2.2.1, b.2.2.2.2.symm.trans a.2.2.2.2⟩

theorem OptimalCost_spec (rootNode : Node) (speciesT : Tree) (h : 0 < speciesT.length) :
    ∃ v, OptimalCost rootNode speciesT = Except.ok v ∧
      (∃ i, i < speciesT.length ∧ v = rootNode.cost (some i)) ∧
      ∀ i, i < speciesT.length → v ≤ rootNode.cost (some i) := by
  cases speciesT with
  | nil => simp at h
  | cons a rest =>
    obtain ⟨h1, h2, h3⟩ := foldl_min_spec (fun i => rootNode.cost (some i))
      (List.range' 1 ((a :: rest).length - 1)) (rootNode.cost (some 0))
    refine ⟨_, rfl, ?_, ?_⟩
    · rcases h1 with h0 | ⟨i, hi, hv⟩
      · exact ⟨0, by simp, h0⟩
      · refine ⟨i, ?_, hv⟩
        simp [List.mem_range'_1] at hi
        simp; omega
    · intro i hi
      rcases Nat.eq_zero_or_pos i with rfl | hpos
      · exact h2
      · apply h3
        simp [List.mem_range'_1] at hi ⊢
        omega

/-! ### The run of `UMPR` on well-formed input -/

theorem nd_InitializeTree {geneT : Tree} {x : Nat} (n : Nat) (hx : x < geneT.length) :
    nd (InitializeTree geneT n) x =
      { nd geneT x with cost := emptyMap, speciation := emptyMap, duplication := emptyMap,
                        transfer := emptyMap, in_ := emptyMap, inAlt := emptyMap,
                        out := emptyMap } := by
  unfold InitializeTree
  rw [nd_map _ hx]

/-- On well-formed trees in which every gene leaf carries the label of a species leaf,
and with fuel for the longer of the two trees, `UMPR` returns.  In the gene tree it
leaves behind, every leaf has the record `leafNode`, and every internal node has the
record `procN` of the final records of its two children and of its own record after
the initialisation. -/
theorem UMPR_run {geneT S : Tree} (hwG : WellFormed geneT) (hwS : WellFormed S)
    (hdS : DistinctLabels S) (hm : LeavesMapped geneT S) (PL Pd Pt : Int) {fuel : Nat}
    (hfG : geneT.length ≤ fuel) (hfS : S.length ≤ fuel) :
    ∃ v t, UMPR fuel geneT S geneT.length S.length PL Pd Pt = Except.ok (v, t) ∧
      t.length = geneT.length ∧
      (∀ x, x < (geneT.length + 1) / 2 → nd t x = leafNode S PL fuel (nd geneT x)) ∧
      (∀ x c1 c2, x < geneT.length → (nd geneT x).child1 = some c1 →
        (nd geneT x).child2 = some c2 →
        nd t x = procN S Pd Pt PL fuel (nd t c1) (nd t c2) (initNode S (nd geneT x) [])) ∧
      OptimalCost (nd t (geneT.length - 1)) S = Except.ok v := by
  have hkG := hwG.half_le
  have hkS := hwS.half_le
  unfold UMPR
  simp only []
  obtain ⟨G1, e1, l1, n1⟩ := InitializeLMap_eq (InitializeTree geneT S.length) S
    ((geneT.length + 1) / 2) ((S.length + 1) / 2)
    (by simp [InitializeTree]; omega) (by omega)
  have l1' : G1.length = geneT.length := by simpa [InitializeTree] using l1
  rw [e1]
  simp only []
  -- the tree after `InitializeCosts`
  have n2 : ∀ x, x < geneT.length →
      nd (G1.map fun g => (List.range S.length).foldl InitializeCosts g) x =
        initNode S (nd geneT x)
          (if x < (geneT.length + 1) / 2
            then labelMatches S ((S.length + 1) / 2) (nd geneT x).label else []) := by
    intro x hx
    rw [nd_map _ (by omega), n1 x (by simpa [InitializeTree] using hx),
      nd_InitializeTree _ hx]
    rfl
  have l2 : (G1.map fun g => (List.range S.length).foldl InitializeCosts g).length
      = geneT.length := by simpa using l1'
  generalize (G1.map fun g => (List.range S.length).foldl InitializeCosts g) = G2 at n2 l2
  simp only [GetLeaveNodes, l2, show (geneT.length + 1) / 2 ≤ geneT.length by omega,
    show (S.length + 1) / 2 ≤ S.length by omega, if_true]
  -- the leaf loop
  have hb : ∀ (t : Tree) (i : Nat), i < t.length →
      ((nd t i).L ≠ [] ∧ ∀ j ∈ (nd t i).L, j < S.length) →
      UMPR.leafStep fuel S (List.range ((S.length + 1) / 2)) PL t i =
      Except.ok (t.set i ((fun _ n => UMPR.leafOut S (List.range ((S.length + 1) / 2))
        (UMPR.leafIn PL (ancestorsP S fuel n.L)
          (UMPR.leafCost S (List.range ((S.length + 1) / 2)) n))) i (nd t i))) := by
    intro t i _ hq
    unfold UMPR.leafStep
    rw [leaf_eq hwS hfS _ PL _ hq.1 hq.2]
  obtain ⟨G3, e3, l3, n3⟩ := loopM_set
    (b := UMPR.leafStep fuel S (List.range ((S.length + 1) / 2)) PL)
    (h := fun _ n => UMPR.leafOut S (List.range ((S.length + 1) / 2))
        (UMPR.leafIn PL (ancestorsP S fuel n.L)
          (UMPR.leafCost S (List.range ((S.length + 1) / 2)) n)))
    (Q := fun _ n => n.L ≠ [] ∧ ∀ j ∈ n.L, j < S.length) hb
    (List.range ((geneT.length + 1) / 2)) G2 (List.nodup_range _) (by
      intro i hi
      simp at hi
      have hil : i < geneT.length := by omega
      refine ⟨by omega, ?_⟩
      dsimp only
      rw [n2 i hil, (initNode_shape S _ _).2.2.2.2]
      simp only [hi, if_true]
      constructor
      · obtain ⟨j, hj, hlab⟩ := hm i hi
        intro hnil
        have : j ∈ labelMatches S ((S.length + 1) / 2) (nd geneT i).label := by
          unfold labelMatches
          simp [hj, hlab]
        rw [hnil] at this
        simp at this
      · intro j hj
        have := labelMatches_lt _ _ _ j hj
        omega)
  rw [e3]
  simp only []
  have l3' : G3.length = geneT.length := by omega
  -- the records after the leaf loop
  have n3leaf : ∀ x, x < (geneT.length + 1) / 2 → nd G3 x = leafNode S PL fuel (nd geneT x) := by
    intro x hx
    rw [n3 x, n2 x (by omega)]
    simp only [List.mem_range, hx, if_true, (initNode_shape S _ _).2.2.2.2]
    rfl
  have n3inner : ∀ x, (geneT.length + 1) / 2 ≤ x → x < geneT.length →
      nd G3 x = initNode S (nd geneT x) [] := by
    intro x hk hx
    rw [n3 x, n2 x hx]
    simp [show ¬ x < (geneT.length + 1) / 2 by omega]
  have sh3 : ∀ i, i < geneT.length → (nd G3 i).parent = (nd geneT i).parent ∧
      (nd G3 i).child1 = (nd geneT i).child1 ∧ (nd G3 i).child2 = (nd geneT i).child2 := by
    intro i hi
    by_cases hk : i < (geneT.length + 1) / 2
    · rw [n3leaf i hk]
      have a := leafNode_shape S PL fuel (nd geneT i)
      exact ⟨a.2.1, a.2.2.1, a.2.2.2.1⟩
    · rw [n3inner i (not_lt.mp hk) hi]
      have a := initNode_shape S (nd geneT i) []
      exact ⟨a.2.1, a.2.2.1, a.2.2.2.1⟩
  have hw3 : WellFormed G3 := hwG.of_shape l3' sh3
  rw [if_neg (by have := hwG.1; have := hwS.1; omega)]
  obtain ⟨G4, e4, l4, _, n4⟩ := PostOrderGeneT_spec hwS hdS hw3 Pd Pt PL hfS fuel (G3.length - 1)
    G3 (by omega) (by omega) rfl (fun _ _ => rfl)
  rw [e4]
  simp only []
  have l4' : G4.length = geneT.length := by omega
  obtain ⟨v, ev, _⟩ := OptimalCost_spec (nd G4 (G4.length - 1)) S (by have := hwS.1; omega)
  rw [ev]
  refine ⟨v, G4, rfl, l4', ?_, ?_, by rw [← l4']; exact ev⟩
  · intro x hx
    have hd := Desc_root hw3 (show x < G3.length by omega)
    rw [(n4 x hd).1 (by rw [l3']; exact hx), n3leaf x hx]
  · intro x c1 c2 hx h1 h2
    have hd := Desc_root hw3 (show x < G3.length by omega)
    have hk : (geneT.length + 1) / 2 ≤ x := by
      by_contra hc
      rw [(hwG.leaf (not_le.mp hc)).1] at h1
      exact absurd h1 (by simp)
    rw [(n4 x hd).2 c1 c2 (by rw [(sh3 x hx).2.1]; exact h1) (by rw [(sh3 x hx).2.2]; exact h2),
      n3inner x hk hx]

/-! ### The cost maps after the initialisation and after the leaf loop -/

theorem get_put (n : Node) (f g : Field) (k j : Ptr) (v : Val) :
    (n.put f k v).get g j = if g = f ∧ j = k then v else n.get g j := by
  cases f <;> cases g <;> simp [Node.put, Node.get, NodeMap.set]

theorem get_InitializeCosts (n : Node) (s : Nat) (f : Field) (k : Ptr) :
    (InitializeCosts n s).get f k = if k = some s then ⊤ else n.get f k := by
  cases f <;> simp [InitializeCosts, Node.get, NodeMap.set]

theorem get_foldl_InitializeCosts (l : List Nat) (n : Node) (f : Field) (k : Ptr) :
    (l.foldl InitializeCosts n).get f k =
      if (∃ s, s ∈ l ∧ k = some s) then ⊤ else n.get f k := by
  induction l generalizing n with
  | nil => simp
  | cons a l ih =>
    rw [List.foldl_cons, ih, get_InitializeCosts]
    by_cases h1 : ∃ s, s ∈ l ∧ k = some s
    · have : ∃ s, s ∈ a :: l ∧ k = some s := by
        obtain ⟨s, hs, hk⟩ := h1
        exact ⟨s, List.mem_cons_of_mem _ hs, hk⟩
      rw [if_pos h1, if_pos this]
    · rw [if_neg h1]
      by_cases h2 : k = some a
      · have : ∃ s, s ∈ a :: l ∧ k = some s := ⟨a, List.mem_cons_self _ _, h2⟩
        rw [if_pos h2, if_pos this]
      · have : ¬ ∃ s, s ∈ a :: l ∧ k = some s := by
          rintro ⟨s, hs, hk⟩
          rcases List.mem_cons.mp hs with rfl | hs
          · exact h2 hk
          · exact h1 ⟨s, hs, hk⟩
        rw [if_neg h2, if_neg this]

/-- After the initialisation every cost map holds +Inf at every species node and 0 at
every other key. -/
theorem get_initNode (S : Tree) (n : Node) (L : List Nat) (f : Field) (k : Ptr) :
    (initNode S n L).get f k = if (∃ s, s < S.length ∧ k = some s) then ⊤ else 0 := by
  unfold initNode
  rw [get_foldl_InitializeCosts]
  have : (∃ s, s ∈ List.range S.length ∧ k = some s) ↔ (∃ s, s < S.length ∧ k = some s) := by
    simp
  simp only [this]
  split
  · rfl
  · cases f <;> rfl

/-- A loop that writes the value `v` into the map `fld` at the keys selected by a test
that does not depend on the cost maps. -/
theorem get_foldl_put (fld : Field) (v : Val) (c : Node → Nat → Prop)
    [∀ n a, Decidable (c n a)] (hc : ∀ n f k w a, c (n.put f k w) a ↔ c n a) :
    ∀ (ls : List Nat) (n : Node) (f : Field) (k : Ptr),
      (ls.foldl (fun n a => if c n a then n.put fld (some a) v else n) n).get f k =
        if f = fld ∧ ∃ a, a ∈ ls ∧ k = some a ∧ c n a then v else n.get f k := by
  intro ls
  induction ls with
  | nil => intro n f k; simp
  | cons b ls ih =>
    intro n f k
    rw [List.foldl_cons, ih]
    have hc' : ∀ a, c (if c n b then n.put fld (some b) v else n) a ↔ c n a := by
      intro a
      split
      · exact hc _ _ _ _ _
      · exact Iff.rfl
    simp only [hc']
    by_cases h1 : f = fld ∧ ∃ a, a ∈ ls ∧ k = some a ∧ c n a
    · have : f = fld ∧ ∃ a, a ∈ b :: ls ∧ k = some a ∧ c n a := by
        obtain ⟨hf, a, ha, hk, hca⟩ := h1
        exact ⟨hf, a, List.mem_cons_of_mem _ ha, hk, hca⟩
      rw [if_pos h1, if_pos this]
    · rw [if_neg h1]
      by_cases h2 : f = fld ∧ k = some b ∧ c n b
      · have : f = fld ∧ ∃ a, a ∈ b :: ls ∧ k = some a ∧ c n a :=
          ⟨h2.1, b, List.mem_cons_self _ _, h2.2.1, h2.2.2⟩
        rw [if_pos this, if_pos h2.2.2, get_put, if_pos ⟨h2.1, h2.2.1⟩]
      · have : ¬ (f = fld ∧ ∃ a, a ∈ b :: ls ∧ k = some a ∧ c n a) := by
          rintro ⟨hf, a, ha, hk, hca⟩
          rcases List.mem_cons.mp ha with rfl | ha
          · exact h2 ⟨hf, hk, hca⟩
          · exact h1 ⟨hf, a, ha, hk, hca⟩
        rw [if_neg this]
        by_cases h3 : c n b
        · rw [if_pos h3, get_put]
          have : ¬ (f = fld ∧ k = some b) := fun h => h2 ⟨h.1, h.2, h3⟩
          rw [if_neg this]
        · rw [if_neg h3]

theorem label_put (n : Node) (f : Field) (k : Ptr) (v : Val) : (n.put f k v).label = n.label :=
  (put_shape n f k v).1.symm

theorem get_leafCost (S : Tree) (ls : List Nat) (n : Node) (f : Field) (k : Ptr) :
    (UMPR.leafCost S ls n).get f k =
      if f = Field.cost ∧ ∃ a, a ∈ ls ∧ k = some a ∧ n.label = (nd S a).label then 0
      else n.get f k := by
  unfold UMPR.leafCost
  have h := get_foldl_put Field.cost 0 (fun n a => Mapped n (nd S a) = true)
    (by intro n f k w a; simp [Mapped, label_put]) ls n f k
  simp only [Mapped, decide_eq_true_eq] at h ⊢
  exact h

theorem get_leafOut (S : Tree) (ls : List Nat) (n : Node) (f : Field) (k : Ptr) :
    (UMPR.leafOut S ls n).get f k =
      if f = Field.out ∧ ∃ a, a ∈ ls ∧ k = some a ∧ (nd S a).label ≠ n.label then 0
      else n.get f k := by
  unfold UMPR.leafOut
  exact get_foldl_put Field.out 0 (fun n a => (nd S a).label ≠ n.label)
    (by intro n f k w a; simp [label_put]) ls n f k

/-! ### The loop over the ancestors -/

theorem leafIn_aux_other (PL : Int) :
    ∀ (anc : List Nat) (start : Nat) (n : Node) (f : Field) (k : Ptr),
      (f ≠ Field.in_ ∧ f ≠ Field.inAlt) ∨ (∀ a, a ∈ anc → k ≠ some a) →
      ((anc.enumFrom start).foldl (fun l da =>
        (l.put .in_ (some da.2) ((wrap64 (PL * (da.1 : Int)) : Int) : Val)).put .inAlt (some da.2) 0)
        n).get f k = n.get f k := by
  intro anc
  induction anc with
  | nil => intro start n f k _; rfl
  | cons a anc ih =>
    intro start n f k h
    rw [List.enumFrom_cons, List.foldl_cons, ih]
    · rw [get_put, get_put]
      rcases h with h | h
      · simp [h.1, h.2]
      · have := h a (List.mem_cons_self _ _)
        simp [this]
    · rcases h with h | h
      · exact Or.inl h
      · exact Or.inr fun b hb => h b (List.mem_cons_of_mem _ hb)

theorem leafIn_aux_nodup (PL : Int) :
    ∀ (anc : List Nat) (start : Nat) (n : Node), anc.Nodup →
      ∀ d a, anc[d]? = some a →
      ((anc.enumFrom start).foldl (fun l da =>
        (l.put .in_ (some da.2) ((wrap64 (PL * (da.1 : Int)) : Int) : Val)).put .inAlt (some da.2) 0)
        n).in_ (some a) = ((wrap64 (PL * ((start + d : Nat) : Int)) : Int) : Val) ∧
      ((anc.enumFrom start).foldl (fun l da =>
        (l.put .in_ (some da.2) ((wrap64 (PL * (da.1 : Int)) : Int) : Val)).put .inAlt (some da.2) 0)
        n).inAlt (some a) = 0 := by
  intro anc
  induction anc with
  | nil => intro start n _ d a h; simp at h
  | cons b anc ih =>
    intro start n hnd d a h
    have hnd' := List.nodup_cons.mp hnd
    rw [List.enumFrom_cons, List.foldl_cons]
    cases d with
    | zero =>
      simp at h
      subst h
      have h1 := leafIn_aux_other PL anc (start + 1)
        ((n.put .in_ (some b) ((wrap64 (PL * (start : Int)) : Int) : Val)).put .inAlt (some b) 0)
        Field.in_ (some b) (Or.inr fun a ha e => hnd'.1 (by cases e; exact ha))
      have h2 := leafIn_aux_other PL anc (start + 1)
        ((n.put .in_ (some b) ((wrap64 (PL * (start : Int)) : Int) : Val)).put .inAlt (some b) 0)
        Field.inAlt (some b) (Or.inr fun a ha e => hnd'.1 (by cases e; exact ha))
      simp only [Node.get] at h1 h2
      rw [h1, h2]
      simp [Node.put, NodeMap.set]
    | succ d =>
      simp at h
      have := ih (start + 1)
        ((n.put .in_ (some b) ((wrap64 (PL * (start : Int)) : Int) : Val)).put .inAlt (some b) 0)
        hnd'.2 d a h
      rw [show start + (d + 1) = start + 1 + d by omega]
      exact this

theorem get_leafIn_other (PL : Int) (anc : List Nat) (n : Node) (f : Field) (k : Ptr)
    (h : (f ≠ Field.in_ ∧ f ≠ Field.inAlt) ∨ (∀ a, a ∈ anc → k ≠ some a)) :
    (UMPR.leafIn PL anc n).get f k = n.get f k := by
  unfold UMPR.leafIn List.enum
  exact leafIn_aux_other PL anc 0 n f k h

theorem leafIn_nodup (PL : Int) (anc : List Nat) (n : Node) (hnd : anc.Nodup) (d a : Nat)
    (h : anc[d]? = some a) :
    (UMPR.leafIn PL anc n).in_ (some a) = ((wrap64 (PL * (d : Int)) : Int) : Val) ∧
    (UMPR.leafIn PL anc n).inAlt (some a) = 0 := by
  unfold UMPR.leafIn List.enum
  have := leafIn_aux_nodup PL anc 0 n hnd d a h
  simpa using this

/-! ### What one visit of `PostOrderSpT` writes -/

theorem visitN_get_other (S : Tree) (Pd Pt PL : Int) (g1 g2 : Node) (s : Nat) (n : Node)
    (f : Field) {k : Ptr} (hk : k ≠ some s) :
    (visitN S Pd Pt PL g1 g2 s n).get f k = n.get f k := by
  cases f <;> simp [visitN, Node.get, NodeMap.set, hk]

theorem visitN_out (S : Tree) (Pd Pt PL : Int) (g1 g2 : Node) (s : Nat) (n : Node) :
    (visitN S Pd Pt PL g1 g2 s n).out = n.out := rfl

theorem visitN_congr (S : Tree) (Pd Pt PL : Int) (g1 g2 : Node) (s : Nat) (n m : Node)
    (h : ∀ f k, f ≠ Field.out → (k = some s ∨ k = (nd S s).child1 ∨ k = (nd S s).child2) →
      m.get f k = n.get f k) (f : Field) (hf : f ≠ Field.out) :
    (visitN S Pd Pt PL g1 g2 s m).get f (some s) = (visitN S Pd Pt PL g1 g2 s n).get f (some s) := by
  have ht : m.transfer (some s) = n.transfer (some s) :=
    h Field.transfer _ (by decide) (Or.inl rfl)
  have hi1 : m.in_ (nd S s).child1 = n.in_ (nd S s).child1 :=
    h Field.in_ _ (by decide) (Or.inr (Or.inl rfl))
  have hi2 : m.in_ (nd S s).child2 = n.in_ (nd S s).child2 :=
    h Field.in_ _ (by decide) (Or.inr (Or.inr rfl))
  have ha1 : m.inAlt (nd S s).child1 = n.inAlt (nd S s).child1 :=
    h Field.inAlt _ (by decide) (Or.inr (Or.inl rfl))
  have ha2 : m.inAlt (nd S s).child2 = n.inAlt (nd S s).child2 :=
    h Field.inAlt _ (by decide) (Or.inr (Or.inr rfl))
  cases f <;> first
    | exact absurd rfl hf
    | simp [visitN, Node.get, NodeMap.set_same, ht, hi1, hi2, ha1, ha2]

theorem Stable_congr {S : Tree} {Pd Pt PL : Int} {g1 g2 : Node} {s : Nat} {n m : Node}
    (h : ∀ f k, f ≠ Field.out → (k = some s ∨ k = (nd S s).child1 ∨ k = (nd S s).child2) →
      m.get f k = n.get f k) (hs : Stable S Pd Pt PL g1 g2 n s) :
    Stable S Pd Pt PL g1 g2 m s := by
  intro f
  by_cases hf : f = Field.out
  · subst hf; rfl
  · rw [visitN_congr S Pd Pt PL g1 g2 s n m h f hf, hs f, h f _ hf (Or.inl rfl)]

theorem visitN_stable (S : Tree) (Pd Pt PL : Int) (g1 g2 : Node) (s : Nat) (n : Node)
    (h1 : (nd S s).child1 ≠ some s) (h2 : (nd S s).child2 ≠ some s) :
    Stable S Pd Pt PL g1 g2 (visitN S Pd Pt PL g1 g2 s n) s := by
  intro f
  by_cases hr : s + 1 = S.length <;> by_cases hl : s < (S.length + 1) / 2 <;> cases f <;>
    simp [visitN, Node.get, NodeMap.set_same, NodeMap.set_other _ _ h1,
      NodeMap.set_other _ _ h2, hr, hl]

theorem WellFormed.children_ne {t : Tree} (h : WellFormed t) {i a b : Nat} (hi : i < t.length)
    (h1 : (nd t i).child1 = some a) (h2 : (nd t i).child2 = some b) : a ≠ b := by
  obtain ⟨c1, c2, _, _, hne, e1, e2, _, _⟩ := h.inner hi (h.child1_lt hi h1).2.2
  rw [e1] at h1; rw [e2] at h2
  cases h1; cases h2
  exact hne

/-- The node at `x` lies in the subtree below the pointer `c`. -/
theorem passN_spec {S : Tree} (hw : WellFormed S) (Pd Pt PL : Int) (g1 g2 : Node) :
    ∀ (fuel : Nat) (c : Ptr) (n : Node), (∀ q, c = some q → q < fuel ∧ q < S.length) →
      (∀ f k, (∀ q x, c = some q → Desc S q x → k ≠ some x) →
        (passN S Pd Pt PL g1 g2 fuel c n).get f k = n.get f k) ∧
      (∀ q s, c = some q → Desc S q s →
        Stable S Pd Pt PL g1 g2 (passN S Pd Pt PL g1 g2 fuel c n) s) := by
  intro fuel
  induction fuel with
  | zero =>
    intro c n hc
    cases c with
    | none => exact ⟨fun _ _ _ => rfl, fun q s h => by cases h⟩
    | some q => have := (hc q rfl).1; omega
  | succ fuel ih =>
    intro c n hc
    cases c with
    | none => exact ⟨fun _ _ _ => rfl, fun q s h => by cases h⟩
    | some q =>
      obtain ⟨hqf, hq⟩ := hc q rfl
      have v1 : ∀ x, (nd S q).child1 = some x → x < fuel ∧ x < S.length := fun x hx => by
        have := (hw.child1_lt hq hx).1; omega
      have v2 : ∀ x, (nd S q).child2 = some x → x < fuel ∧ x < S.length := fun x hx => by
        have := (hw.child2_lt hq hx).1; omega
      obtain ⟨f1, s1⟩ := ih (nd S q).child1 n v1
      obtain ⟨f2, s2⟩ := ih (nd S q).child2
        (passN S Pd Pt PL g1 g2 fuel (nd S q).child1 n) v2
      have disj : ∀ a b x, (nd S q).child1 = some a → (nd S q).child2 = some b →
          Desc S a x → Desc S b x → False := fun a b x ha hb da db =>
        subtree_disjoint hw hq (hw.child1_lt hq ha).2.1 (hw.child2_lt hq hb).2.1
          (hw.child1_lt hq ha).1 (hw.child2_lt hq hb).1 (hw.children_ne hq ha hb) da db
      unfold passN
      constructor
      · intro f k hk
        rw [visitN_get_other _ _ _ _ _ _ _ _ _ (hk q q rfl (Desc.here q)),
          f2 f k (fun a x ha hx => hk q x rfl (Desc.right ha hx)),
          f1 f k (fun a x ha hx => hk q x rfl (Desc.left ha hx))]
      · intro q' s hq' hd
        cases hq'
        rcases Desc_cases hd with h | ⟨a, ha, hda⟩ | ⟨b, hb, hdb⟩
        · subst h
          apply visitN_stable
          · intro e; have := (hw.child1_lt hq e).1; omega
          · intro e; have := (hw.child2_lt hq e).1; omega
        · have hsq : s < q := lt_of_le_of_lt (Desc_le hw hda) (hw.child1_lt hq ha).1
          have hsl : s < S.length := by omega
          refine Stable_congr ?_ (s1 a s ha hda)
          intro f k _ hk
          have hkq : k ≠ some q := by
            rcases hk with rfl | rfl | rfl
            · intro e; cases e; omega
            · intro e; have := (hw.child1_lt hsl e).1; omega
            · intro e; have := (hw.child2_lt hsl e).1; omega
          rw [visitN_get_other _ _ _ _ _ _ _ _ _ hkq]
          apply f2
          intro b x hb hx e
          subst e
          rcases hk with e | e | e
          · cases e; exact disj a b s ha hb hda hx
          · exact disj a b x ha hb (Desc_trans hda (Desc.left e.symm (Desc.here x))) hx
          · exact disj a b x ha hb (Desc_trans hda (Desc.right e.symm (Desc.here x))) hx
        · have hsq : s < q := lt_of_le_of_lt (Desc_le hw hdb) (hw.child2_lt hq hb).1
          have hsl : s < S.length := by omega
          refine Stable_congr ?_ (s2 b s hb hdb)
          intro f k _ hk
          have hkq : k ≠ some q := by
            rcases hk with rfl | rfl | rfl
            · intro e; cases e; omega
            · intro e; have := (hw.child1_lt hsl e).1; omega
            · intro e; have := (hw.child2_lt hsl e).1; omega
          exact visitN_get_other _ _ _ _ _ _ _ _ _ hkq

/-! ### What `PreOrderIntNSpT` writes -/

theorem preN_get_other (S : Tree) :
    ∀ (fuel : Nat) (c : Ptr) (n : Node) (f : Field) (k : Ptr), f ≠ Field.out →
      (preN S fuel c n).get f k = n.get f k := by
  intro fuel
  induction fuel with
  | zero => intro c n f k _; cases c <;> rfl
  | succ fuel ih =>
    intro c n f k hf
    cases c with
    | none => rfl
    | some r =>
      unfold preN
      cases h1 : (nd S r).child1 with
      | none => rfl
      | some c1 =>
        cases h2 : (nd S r).child2 with
        | none => rfl
        | some c2 =>
          simp only []
          rw [ih _ _ _ _ hf, ih _ _ _ _ hf, get_put, get_put]
          simp [hf]

theorem preN_event (S : Tree) :
    ∀ (fuel : Nat) (c : Ptr) (n : Node), (preN S fuel c n).event = n.event := by
  intro fuel
  induction fuel with
  | zero => intro c n; cases c <;> rfl
  | succ fuel ih =>
    intro c n
    cases c with
    | none => rfl
    | some r =>
      unfold preN
      cases h1 : (nd S r).child1 with
      | none => rfl
      | some c1 =>
        cases h2 : (nd S r).child2 with
        | none => rfl
        | some c2 =>
          simp only []
          rw [ih, ih]
          rfl

theorem preN_spec {S : Tree} (hw : WellFormed S) :
    ∀ (fuel : Nat) (c : Ptr) (n : Node), (∀ q, c = some q → q < fuel ∧ q < S.length) →
      (∀ k, (∀ q x, c = some q → Desc S q x → x ≠ q → k ≠ some x) →
        (preN S fuel c n).out k = n.out k) ∧
      (∀ q s a b, c = some q → Desc S q s → (nd S s).child1 = some a →
        (nd S s).child2 = some b →
        (preN S fuel c n).out (some a) =
          Min2 ((preN S fuel c n).out (some s)) ((preN S fuel c n).inAlt (some b)) ∧
        (preN S fuel c n).out (some b) =
          Min2 ((preN S fuel c n).out (some s)) ((preN S fuel c n).inAlt (some a))) := by
  intro fuel
  induction fuel with
  | zero =>
    intro c n hc
    cases c with
    | none => exact ⟨fun _ _ => rfl, fun q s a b h => by cases h⟩
    | some q => have := (hc q rfl).1; omega
  | succ fuel ih =>
    intro c n hc
    cases c with
    | none => exact ⟨fun _ _ => rfl, fun q s a b h => by cases h⟩
    | some q =>
      obtain ⟨hqf, hq⟩ := hc q rfl
      unfold preN
      cases h1 : (nd S q).child1 with
      | none =>
        refine ⟨fun _ _ => rfl, ?_⟩
        intro q' s a b hq' hd ha hb
        cases hq'
        rcases Desc_cases hd with h | ⟨x, hx, _⟩ | ⟨x, hx, _⟩
        · subst h; rw [h1] at ha; cases ha
        · rw [h1] at hx; cases hx
        · have := (hw.child2_lt hq hx).2.2
          obtain ⟨c1, _, _, _, _, e1, _⟩ := hw.inner hq this
          rw [h1] at e1; cases e1
      | some c1 =>
        cases h2 : (nd S q).child2 with
        | none =>
          refine ⟨fun _ _ => rfl, ?_⟩
          intro q' s a b hq' hd ha hb
          cases hq'
          rcases Desc_cases hd with h | ⟨x, hx, _⟩ | ⟨x, hx, _⟩
          · subst h; rw [h2] at hb; cases hb
          · have := (hw.child1_lt hq hx).2.2
            obtain ⟨_, c2, _, _, _, _, e2, _⟩ := hw.inner hq this
            rw [h2] at e2; cases e2
          · rw [h2] at hx; cases hx
        | some c2 =>
          simp only []
          have hc1 := hw.child1_lt hq h1
          have hc2 := hw.child2_lt hq h2
          have hne := hw.children_ne hq h1 h2
          have disj : ∀ x, Desc S c1 x → Desc S c2 x → False := fun x da db =>
            subtree_disjoint hw hq hc1.2.1 hc2.2.1 hc1.1 hc2.1 hne da db
          generalize hn0 : ((n.put .out (some c1) (Min2 (n.out (some q))
            (n.inAlt (some c2)))).put .out (some c2)
            (Min2 ((n.put .out (some c1) (Min2 (n.out (some q)) (n.inAlt (some c2)))).out
              (some q)) (n.inAlt (some c1)))) = n0
          have hn0out : ∀ k, n0.out k = if k = some c2 then Min2 (n.out (some q))
              (n.inAlt (some c1)) else if k = some c1 then Min2 (n.out (some q))
              (n.inAlt (some c2)) else n.out k := by
            intro k
            rw [← hn0]
            have hq1 : (some q : Ptr) ≠ some c1 := by intro e; cases e; omega
            simp [Node.put, NodeMap.set, hq1]
          have hn0alt : ∀ k, n0.inAlt k = n.inAlt k := by
            intro k; rw [← hn0]; rfl
          obtain ⟨f1, s1⟩ := ih (some c1) n0 (fun x hx => by cases hx; omega)
          obtain ⟨f2, s2⟩ := ih (some c2) (preN S fuel (some c1) n0)
            (fun x hx => by cases hx; omega)
          have alt : ∀ k, (preN S fuel (some c2) (preN S fuel (some c1) n0)).inAlt k
              = n.inAlt k := by
            intro k
            have a := preN_get_other S fuel (some c2) (preN S fuel (some c1) n0) Field.inAlt k
              (by decide)
            have b := preN_get_other S fuel (some c1) n0 Field.inAlt k (by decide)
            simp only [Node.get] at a b
            rw [a, b, hn0alt]
          -- keys outside the two subtrees, apart from the two children themselves
          have keep : ∀ k, (∀ x, Desc S c1 x → x ≠ c1 → k ≠ some x) →
              (∀ x, Desc S c2 x → x ≠ c2 → k ≠ some x) →
              (preN S fuel (some c2) (preN S fuel (some c1) n0)).out k = n0.out k := by
            intro k k1 k2
            rw [f2 k (fun a x ha => by cases ha; exact k2 x),
              f1 k (fun a x ha => by cases ha; exact k1 x)]
          constructor
          · intro k hk
            have kc1 : k ≠ some c1 := hk q c1 rfl (Desc.left h1 (Desc.here c1)) (by omega)
            have kc2 : k ≠ some c2 := hk q c2 rfl (Desc.right h2 (Desc.here c2)) (by omega)
            rw [keep k (fun x hx _ => hk q x rfl (Desc.left h1 hx)
                (by have := Desc_le hw hx; omega))
              (fun x hx _ => hk q x rfl (Desc.right h2 hx) (by have := Desc_le hw hx; omega)),
              hn0out, if_neg kc2, if_neg kc1]
          · intro q' s a b hq' hd ha hb
            cases hq'
            rcases Desc_cases hd with h | ⟨x, hx, hdx⟩ | ⟨x, hx, hdx⟩
            · subst h
              rw [h1] at ha; rw [h2] at hb
              cases ha; cases hb
              have kq : (preN S fuel (some c2) (preN S fuel (some c1) n0)).out (some s)
                  = n.out (some s) := by
                rw [keep (some s) (fun x hx _ e => by cases e; have := Desc_le hw hx; omega)
                  (fun x hx _ e => by cases e; have := Desc_le hw hx; omega), hn0out,
                  if_neg (by intro e; cases e; omega), if_neg (by intro e; cases e; omega)]
              have ka : (preN S fuel (some c2) (preN S fuel (some c1) n0)).out (some c1)
                  = Min2 (n.out (some s)) (n.inAlt (some c2)) := by
                rw [keep (some c1) (fun x _ hx e => by cases e; exact hx rfl)
                  (fun x hx _ e => by cases e; exact disj c1 (Desc.here c1) hx), hn0out,
                  if_neg (by intro e; cases e; exact hne rfl), if_pos rfl]
              have kb : (preN S fuel (some c2) (preN S fuel (some c1) n0)).out (some c2)
                  = Min2 (n.out (some s)) (n.inAlt (some c1)) := by
                rw [keep (some c2) (fun x hx _ e => by cases e; exact disj c2 hx (Desc.here c2))
                  (fun x _ hx e => by cases e; exact hx rfl), hn0out, if_pos rfl]
              rw [ka, kb, kq, alt, alt]
              exact ⟨rfl, rfl⟩
            · rw [h1] at hx; cases hx
              have e := s1 c1 s a b rfl hdx ha hb
              have da : Desc S c1 a := Desc_trans hdx (Desc.left ha (Desc.here a))
              have db : Desc S c1 b := Desc_trans hdx (Desc.right hb (Desc.here b))
              have t : ∀ y, Desc S c1 y →
                  (preN S fuel (some c2) (preN S fuel (some c1) n0)).out (some y)
                  = (preN S fuel (some c1) n0).out (some y) := fun y hy =>
                f2 (some y) (fun c z hc hz _ e => by cases hc; cases e; exact disj y hy hz)
              have alt1 : ∀ k, (preN S fuel (some c1) n0).inAlt k = n.inAlt k := by
                intro k
                have b := preN_get_other S fuel (some c1) n0 Field.inAlt k (by decide)
                simp only [Node.get] at b
                rw [b, hn0alt]
              rw [t a da, t b db, t s hdx, alt, alt]
              rw [alt1, alt1] at e
              exact e
            · rw [h2] at hx; cases hx
              exact s2 c2 s a b rfl hdx ha hb

/-! ### The record of an internal gene node after its turn -/

theorem passN_out (S : Tree) (Pd Pt PL : Int) (g1 g2 : Node) :
    ∀ (fuel : Nat) (c : Ptr) (n : Node), (passN S Pd Pt PL g1 g2 fuel c n).out = n.out := by
  intro fuel
  induction fuel with
  | zero => intro c n; cases c <;> rfl
  | succ fuel ih =>
    intro c n
    cases c with
    | none => rfl
    | some q =>
      unfold passN
      rw [visitN_out, ih, ih]

theorem visitN_transfer_root (S : Tree) (hS : 0 < S.length) (Pd Pt PL : Int) (g1 g2 : Node)
    (s : Nat) (n : Node) :
    (visitN S Pd Pt PL g1 g2 s n).transfer (some (S.length - 1)) =
      n.transfer (some (S.length - 1)) := by
  by_cases h : s + 1 = S.length
  · have : S.length - 1 = s := by omega
    rw [this]
    simp [visitN, NodeMap.set_same, h]
  · have : (some (S.length - 1) : Ptr) ≠ some s := by
      intro e; cases e; omega
    simp [visitN, NodeMap.set_other _ _ this]

theorem passN_transfer_root (S : Tree) (hS : 0 < S.length) (Pd Pt PL : Int) (g1 g2 : Node) :
    ∀ (fuel : Nat) (c : Ptr) (n : Node),
      (passN S Pd Pt PL g1 g2 fuel c n).transfer (some (S.length - 1)) =
        n.transfer (some (S.length - 1)) := by
  intro fuel
  induction fuel with
  | zero => intro c n; cases c <;> rfl
  | succ fuel ih =>
    intro c n
    cases c with
    | none => rfl
    | some q =>
      unfold passN
      rw [visitN_transfer_root S hS, ih, ih]

theorem visitN_event (S : Tree) (Pd Pt PL : Int) (g1 g2 : Node) (s : Nat) (n : Node) :
    (visitN S Pd Pt PL g1 g2 s n).event =
      (Min3 ((visitN S Pd Pt PL g1 g2 s n).speciation (some s))
        ((visitN S Pd Pt PL g1 g2 s n).duplication (some s))
        ((visitN S Pd Pt PL g1 g2 s n).transfer (some s))).2 := by
  simp [visitN, NodeMap.set_same]

theorem procN_event (S : Tree) (Pd Pt PL : Int) {fuel : Nat} (hf : 0 < fuel) (g1 g2 n : Node) :
    (procN S Pd Pt PL fuel g1 g2 n).event =
      (Min3 ((procN S Pd Pt PL fuel g1 g2 n).speciation (some (S.length - 1)))
        ((procN S Pd Pt PL fuel g1 g2 n).duplication (some (S.length - 1)))
        ((procN S Pd Pt PL fuel g1 g2 n).transfer (some (S.length - 1)))).2 := by
  unfold procN
  have a := preN_get_other S fuel (some (S.length - 1))
    (passN S Pd Pt PL g1 g2 fuel (some (S.length - 1)) n) Field.speciation
    (some (S.length - 1)) (by decide)
  have b := preN_get_other S fuel (some (S.length - 1))
    (passN S Pd Pt PL g1 g2 fuel (some (S.length - 1)) n) Field.duplication
    (some (S.length - 1)) (by decide)
  have c := preN_get_other S fuel (some (S.length - 1))
    (passN S Pd Pt PL g1 g2 fuel (some (S.length - 1)) n) Field.transfer
    (some (S.length - 1)) (by decide)
  simp only [Node.get] at a b c
  rw [preN_event, a, b, c]
  cases fuel with
  | zero => omega
  | succ fuel =>
    unfold passN
    exact visitN_event _ _ _ _ _ _ _ _

theorem procN_stable {S : Tree} (hw : WellFormed S) (Pd Pt PL : Int) {fuel : Nat}
    (hf : S.length ≤ fuel) (g1 g2 n : Node) {s : Nat} (hs : s < S.length) :
    Stable S Pd Pt PL g1 g2 (procN S Pd Pt PL fuel g1 g2 n) s := by
  have h3 := hw.1
  obtain ⟨_, st⟩ := passN_spec hw Pd Pt PL g1 g2 fuel (some (S.length - 1)) n
    (fun q hq => by cases hq; omega)
  refine Stable_congr ?_ (st (S.length - 1) s rfl (Desc_root hw hs))
  intro f k hfo _
  unfold procN
  exact preN_get_other S fuel _ _ f k hfo

theorem procN_transfer_root (S : Tree) (hS : 0 < S.length) (Pd Pt PL : Int) (fuel : Nat)
    (g1 g2 n : Node) :
    (procN S Pd Pt PL fuel g1 g2 n).transfer (some (S.length - 1)) =
      n.transfer (some (S.length - 1)) := by
  unfold procN
  have c := preN_get_other S fuel (some (S.length - 1))
    (passN S Pd Pt PL g1 g2 fuel (some (S.length - 1)) n) Field.transfer
    (some (S.length - 1)) (by decide)
  simp only [Node.get] at c
  rw [c, passN_transfer_root S hS]

theorem procN_out_root {S : Tree} (hw : WellFormed S) (Pd Pt PL : Int) {fuel : Nat}
    (hf : S.length ≤ fuel) (g1 g2 n : Node) :
    (procN S Pd Pt PL fuel g1 g2 n).out (some (S.length - 1)) = n.out (some (S.length - 1)) := by
  have h3 := hw.1
  unfold procN
  obtain ⟨fr, _⟩ := preN_spec hw fuel (some (S.length - 1))
    (passN S Pd Pt PL g1 g2 fuel (some (S.length - 1)) n) (fun q hq => by cases hq; omega)
  rw [fr (some (S.length - 1)) (fun q x hq _ hx e => by cases hq; cases e; exact hx rfl),
    passN_out]

theorem procN_out_rec {S : Tree} (hw : WellFormed S) (Pd Pt PL : Int) {fuel : Nat}
    (hf : S.length ≤ fuel) (g1 g2 n : Node) {s a b : Nat} (hs : s < S.length)
    (ha : (nd S s).child1 = some a) (hb : (nd S s).child2 = some b) :
    (procN S Pd Pt PL fuel g1 g2 n).out (some a) =
      Min2 ((procN S Pd Pt PL fuel g1 g2 n).out (some s))
        ((procN S Pd Pt PL fuel g1 g2 n).inAlt (some b)) ∧
    (procN S Pd Pt PL fuel g1 g2 n).out (some b) =
      Min2 ((procN S Pd Pt PL fuel g1 g2 n).out (some s))
        ((procN S Pd Pt PL fuel g1 g2 n).inAlt (some a)) := by
  have h3 := hw.1
  unfold procN
  obtain ⟨_, rc⟩ := preN_spec hw fuel (some (S.length - 1))
    (passN S Pd Pt PL g1 g2 fuel (some (S.length - 1)) n) (fun q hq => by cases hq; omega)
  exact rc (S.length - 1) s a b rfl (Desc_root hw hs) ha hb

/-! ### The equations a stable record satisfies -/

theorem Stable.speciation_eq {S : Tree} {Pd Pt PL : Int} {g1 g2 n : Node} {s : Nat}
    (h : Stable S Pd Pt PL g1 g2 n s) :
    n.speciation (some s) = if s < (S.length + 1) / 2 then ⊤
      else Min2 (g1.in_ (nd S s).child1 + g2.in_ (nd S s).child2)
        (g2.in_ (nd S s).child1 + g1.in_ (nd S s).child2) := by
  have := h Field.speciation
  simp only [visitN, Node.get, NodeMap.set_same, decide_eq_true_eq] at this
  exact this.symm

theorem Stable.duplication_eq {S : Tree} {Pd Pt PL : Int} {g1 g2 n : Node} {s : Nat}
    (h : Stable S Pd Pt PL g1 g2 n s) :
    n.duplication (some s) = if s < (S.length + 1) / 2
      then (Pd : Val) + g1.cost (some s) + g2.cost (some s)
      else (Pd : Val) + MinDupP g1 g2 (some s) (nd S s).child1 (nd S s).child2 PL := by
  have := h Field.duplication
  simp only [visitN, Node.get, NodeMap.set_same, decide_eq_true_eq] at this
  exact this.symm

theorem Stable.transfer_eq {S : Tree} {Pd Pt PL : Int} {g1 g2 n : Node} {s : Nat}
    (h : Stable S Pd Pt PL g1 g2 n s) (hr : s + 1 ≠ S.length) :
    n.transfer (some s) = (Pt : Val) +
      Min2 (g1.in_ (some s) + g2.out (some s)) (g2.in_ (some s) + g1.out (some s)) := by
  have := h Field.transfer
  simp only [visitN, Node.get, NodeMap.set_same, decide_eq_true_eq, hr, ne_eq,
    not_false_eq_true, if_true] at this
  exact this.symm

theorem Stable.cost_eq {S : Tree} {Pd Pt PL : Int} {g1 g2 n : Node} {s : Nat}
    (h : Stable S Pd Pt PL g1 g2 n s) :
    n.cost (some s) = (Min3 (n.speciation (some s)) (n.duplication (some s))
      (n.transfer (some s))).1 := by
  have hc := h Field.cost
  rw [h.speciation_eq, h.duplication_eq]
  simp only [visitN, Node.get, NodeMap.set_same, decide_eq_true_eq] at hc
  by_cases hr : s + 1 = S.length
  · simp only [hr, ne_eq, not_true_eq_false, if_false] at hc
    exact hc.symm
  · rw [h.transfer_eq hr]
    simp only [hr, ne_eq, not_false_eq_true, if_true] at hc
    exact hc.symm

theorem Stable.in_eq {S : Tree} {Pd Pt PL : Int} {g1 g2 n : Node} {s : Nat}
    (h : Stable S Pd Pt PL g1 g2 n s) :
    n.in_ (some s) = if s < (S.length + 1) / 2 then n.cost (some s)
      else Min3M (n.cost (some s)) (n.in_ (nd S s).child1 + (PL : Val))
        (n.in_ (nd S s).child2 + (PL : Val)) := by
  have hi := h Field.in_
  have hc := h Field.cost
  simp only [visitN, Node.get, NodeMap.set_same, decide_eq_true_eq] at hi hc
  rw [hc] at hi
  exact hi.symm

theorem Stable.inAlt_eq {S : Tree} {Pd Pt PL : Int} {g1 g2 n : Node} {s : Nat}
    (h : Stable S Pd Pt PL g1 g2 n s) :
    n.inAlt (some s) = if s < (S.length + 1) / 2 then n.cost (some s)
      else Min3M (n.cost (some s)) (n.inAlt (nd S s).child1) (n.inAlt (nd S s).child2) := by
  have hi := h Field.inAlt
  have hc := h Field.cost
  simp only [visitN, Node.get, NodeMap.set_same, decide_eq_true_eq] at hi hc
  rw [hc] at hi
  exact hi.symm

/-! ### Induction over the gene tree after the run -/

theorem final_induct {geneT S : Tree} (hwG : WellFormed geneT) {t : Tree} {PL Pd Pt : Int}
    {fuel : Nat}
    (hL : ∀ x, x < (geneT.length + 1) / 2 → nd t x = leafNode S PL fuel (nd geneT x))
    (hI : ∀ x c1 c2, x < geneT.length → (nd geneT x).child1 = some c1 →
      (nd geneT x).child2 = some c2 →
      nd t x = procN S Pd Pt PL fuel (nd t c1) (nd t c2) (initNode S (nd geneT x) []))
    (P : Nat → Node → Prop)
    (hleaf : ∀ x, x < (geneT.length + 1) / 2 → P x (leafNode S PL fuel (nd geneT x)))
    (hstep : ∀ x c1 c2 g1 g2, x < geneT.length → (nd geneT x).child1 = some c1 →
      (nd geneT x).child2 = some c2 → P c1 g1 → P c2 g2 →
      P x (procN S Pd Pt PL fuel g1 g2 (initNode S (nd geneT x) []))) :
    ∀ x, x < geneT.length → P x (nd t x) := by
  intro x
  induction x using Nat.strong_induction_on with
  | _ x ih =>
    intro hx
    by_cases hk : x < (geneT.length + 1) / 2
    · rw [hL x hk]; exact hleaf x hk
    · obtain ⟨c1, c2, h1, h2, _, e1, e2, _, _⟩ := hwG.inner hx (not_lt.mp hk)
      rw [hI x c1 c2 hx e1 e2]
      exact hstep x c1 c2 _ _ hx e1 e2 (ih c1 h1 (by omega)) (ih c2 h2 (by omega))

/-! ### Products of 64-bit integers that do not wrap around -/

theorem wrap64_of_bounds {x : Int} (h1 : -2 ^ 63 ≤ x) (h2 : x < 2 ^ 63) : wrap64 x = x := by
  unfold wrap64
  have e63 : (2 : Int) ^ 63 = 9223372036854775808 := by norm_num
  have e64 : (2 : Int) ^ 64 = 18446744073709551616 := by norm_num
  rw [e63] at h1 h2 ⊢
  rw [e64]
  omega

theorem wrap64_mul_of_le {PL : Int} {N : Nat} (hPL : 0 ≤ PL) (hB : PL * (N : Int) < 2 ^ 63)
    {d : Nat} (hd : d ≤ N) : wrap64 (PL * (d : Int)) = PL * (d : Int) := by
  have h0 : 0 ≤ PL * (d : Int) := mul_nonneg hPL (Int.ofNat_nonneg d)
  have h1 : PL * (d : Int) ≤ PL * (N : Int) :=
    mul_le_mul_of_nonneg_left (by exact_mod_cast hd) hPL
  exact wrap64_of_bounds (le_trans (by norm_num) h0) (lt_of_le_of_lt h1 hB)

theorem wrap64_two_mul {PL : Int} {N : Nat} (hPL : 0 ≤ PL) (hB : PL * (N : Int) < 2 ^ 63)
    (hN : 2 ≤ N) : wrap64 (2 * PL) = 2 * PL := by
  have := wrap64_mul_of_le hPL hB hN
  rw [mul_comm 2 PL]
  exact_mod_cast this

theorem wrap64_mul_nonneg {PL : Int} {N : Nat} (hPL : 0 ≤ PL) (hB : PL * (N : Int) < 2 ^ 63)
    {d : Nat} (hd : d ≤ N) : 0 ≤ wrap64 (PL * (d : Int)) := by
  rw [wrap64_mul_of_le hPL hB hd]
  exact mul_nonneg hPL (Int.ofNat_nonneg d)

theorem wrap64_two_mul_nonneg {PL : Int} {N : Nat} (hPL : 0 ≤ PL)
    (hB : PL * (N : Int) < 2 ^ 63) (hN : 2 ≤ N) : 0 ≤ wrap64 (2 * PL) := by
  rw [wrap64_two_mul hPL hB hN]
  omega

/-! ### No entry is negative -/

theorem coe_nonneg_iff (a : Int) : (0 : Val) ≤ ((a : Int) : Val) ↔ 0 ≤ a := by
  rw [← WithTop.coe_zero, WithTop.coe_le_coe]

theorem Min2_nonneg {a b : Val} (ha : 0 ≤ a) (hb : 0 ≤ b) : 0 ≤ Min2 a b := by
  rw [Min2_eq_min]; exact le_min ha hb

theorem Min3M_nonneg {a b c : Val} (ha : 0 ≤ a) (hb : 0 ≤ b) (hc : 0 ≤ c) : 0 ≤ Min3M a b c := by
  rw [Min3M_eq_min]; exact le_min (le_min ha hb) hc

theorem Min3_nonneg {a b c : Val} (ha : 0 ≤ a) (hb : 0 ≤ b) (hc : 0 ≤ c) :
    0 ≤ (Min3 a b c).1 := by
  rw [Min3_fst_eq_min]; exact le_min (le_min ha hb) hc

theorem MinP_nonneg (a : Val) (l : List Val) (h : ∀ x, x ∈ a :: l → 0 ≤ x) : 0 ≤ MinP a l :=
  h _ (MinP_mem a l)

theorem Nonneg.cost {n : Node} (h : Nonneg n) (k : Ptr) : 0 ≤ n.cost k := h Field.cost k
theorem Nonneg.speciation {n : Node} (h : Nonneg n) (k : Ptr) : 0 ≤ n.speciation k :=
  h Field.speciation k
theorem Nonneg.duplication {n : Node} (h : Nonneg n) (k : Ptr) : 0 ≤ n.duplication k :=
  h Field.duplication k
theorem Nonneg.transfer {n : Node} (h : Nonneg n) (k : Ptr) : 0 ≤ n.transfer k :=
  h Field.transfer k
theorem Nonneg.in_ {n : Node} (h : Nonneg n) (k : Ptr) : 0 ≤ n.in_ k := h Field.in_ k
theorem Nonneg.inAlt {n : Node} (h : Nonneg n) (k : Ptr) : 0 ≤ n.inAlt k := h Field.inAlt k
theorem Nonneg.out {n : Node} (h : Nonneg n) (k : Ptr) : 0 ≤ n.out k := h Field.out k

theorem MinDupP_nonneg {g1 g2 : Node} (h1 : Nonneg g1) (h2 : Nonneg g2) {PL : Int}
    (hPL : 0 ≤ PL) (hPL2 : 0 ≤ wrap64 (2 * PL)) (s s1 s2 : Ptr) :
    0 ≤ MinDupP g1 g2 s s1 s2 PL := by
  unfold MinDupP
  apply MinP_nonneg
  have p1 : (0 : Val) ≤ ((PL : Int) : Val) := (coe_nonneg_iff PL).mpr hPL
  have p2 : (0 : Val) ≤ ((wrap64 (2 * PL) : Int) : Val) := (coe_nonneg_iff _).mpr hPL2
  intro x hx
  simp only [List.mem_cons, List.mem_singleton, List.not_mem_nil, or_false] at hx
  rcases hx with rfl | rfl | rfl | rfl | rfl | rfl | rfl | rfl | rfl <;>
    first
      | exact add_nonneg (add_nonneg (h1.cost _) (h2.in_ _)) p1
      | exact add_nonneg (add_nonneg (h2.cost _) (h1.in_ _)) p1
      | exact add_nonneg (h1.cost _) (h2.cost _)
      | exact add_nonneg (add_nonneg (h1.in_ _) (h2.in_ _)) p2

theorem Nonneg.put {n : Node} (h : Nonneg n) (f : Field) (k : Ptr) {v : Val} (hv : 0 ≤ v) :
    Nonneg (n.put f k v) := by
  intro g j
  rw [get_put]
  split
  · exact hv
  · exact h g j

theorem Nonneg.foldl {α : Type} (f : Node → α → Node) (hf : ∀ n a, Nonneg n → Nonneg (f n a)) :
    ∀ (l : List α) (n : Node), Nonneg n → Nonneg (l.foldl f n) := by
  intro l
  induction l with
  | nil => intro n h; exact h
  | cons a l ih => intro n h; exact ih _ (hf n a h)

theorem Nonneg.foldl_mem {α : Type} (f : Node → α → Node) :
    ∀ (l : List α) (n : Node), (∀ n a, a ∈ l → Nonneg n → Nonneg (f n a)) → Nonneg n →
      Nonneg (l.foldl f n) := by
  intro l
  induction l with
  | nil => intro n _ h; exact h
  | cons a l ih =>
    intro n hf h
    exact ih _ (fun m b hb hm => hf m b (List.mem_cons_of_mem a hb) hm)
      (hf n a (List.mem_cons_self a l) h)

theorem Nonneg_initNode (S : Tree) (n : Node) (L : List Nat) : Nonneg (initNode S n L) := by
  intro f k
  rw [get_initNode]
  split
  · exact le_top
  · exact le_refl _

theorem Nonneg_leafNode (S : Tree) {PL : Int} (fuel : Nat) (n : Node)
    (hB : ∀ d : Nat, d <
        (ancestorsP S fuel (labelMatches S ((S.length + 1) / 2) n.label)).length →
      0 ≤ wrap64 (PL * (d : Int))) :
    Nonneg (leafNode S PL fuel n) := by
  unfold leafNode UMPR.leafOut UMPR.leafIn UMPR.leafCost
  apply Nonneg.foldl
  · intro n a h
    dsimp only
    split
    · exact h.put _ _ (le_refl _)
    · exact h
  apply Nonneg.foldl_mem
  · intro n a ha h
    refine (h.put _ _ ?_).put _ _ (le_refl _)
    exact (coe_nonneg_iff _).mpr (hB a.1 (List.fst_lt_of_mem_enum ha))
  apply Nonneg.foldl
  · intro n a h
    dsimp only
    split
    · exact h.put _ _ (le_refl _)
    · exact h
  exact Nonneg_initNode _ _ _

theorem ite_nonneg_val {c : Prop} [Decidable c] {a b : Val} (ha : 0 ≤ a) (hb : 0 ≤ b) :
    0 ≤ (if c then a else b) := by
  split
  · exact ha
  · exact hb

theorem set_nonneg {m : NodeMap} (hm : ∀ j, 0 ≤ m j) (k : Ptr) {v : Val} (hv : 0 ≤ v) :
    ∀ j, 0 ≤ (m.set k v) j := by
  intro j
  unfold NodeMap.set
  split
  · exact hv
  · exact hm j

theorem Nonneg_of_fields {n : Node} (h1 : ∀ j, 0 ≤ n.cost j) (h2 : ∀ j, 0 ≤ n.speciation j)
    (h3 : ∀ j, 0 ≤ n.duplication j) (h4 : ∀ j, 0 ≤ n.transfer j) (h5 : ∀ j, 0 ≤ n.in_ j)
    (h6 : ∀ j, 0 ≤ n.inAlt j) (h7 : ∀ j, 0 ≤ n.out j) : Nonneg n := by
  intro f k
  cases f
  · exact h1 k
  · exact h2 k
  · exact h3 k
  · exact h4 k
  · exact h5 k
  · exact h6 k
  · exact h7 k

theorem Nonneg_visitN (S : Tree) {Pd Pt PL : Int} (hPd : 0 ≤ Pd) (hPt : 0 ≤ Pt)
    (hPL : 0 ≤ PL) (hPL2 : 0 ≤ wrap64 (2 * PL)) {g1 g2 n : Node} (h1 : Nonneg g1)
    (h2 : Nonneg g2) (h : Nonneg n) (s : Nat) : Nonneg (visitN S Pd Pt PL g1 g2 s n) := by
  have pd : (0 : Val) ≤ ((Pd : Int) : Val) := (coe_nonneg_iff Pd).mpr hPd
  have pt : (0 : Val) ≤ ((Pt : Int) : Val) := (coe_nonneg_iff Pt).mpr hPt
  have pl : (0 : Val) ≤ ((PL : Int) : Val) := (coe_nonneg_iff PL).mpr hPL
  have hspec : (0 : Val) ≤ (if decide (s < (S.length + 1) / 2) = true then ⊤
      else Min2 (g1.in_ (nd S s).child1 + g2.in_ (nd S s).child2)
        (g2.in_ (nd S s).child1 + g1.in_ (nd S s).child2)) := by
    split
    · exact le_top
    · exact Min2_nonneg (add_nonneg (h1.in_ _) (h2.in_ _)) (add_nonneg (h2.in_ _) (h1.in_ _))
  have hdup : (0 : Val) ≤ (if decide (s < (S.length + 1) / 2) = true
      then (Pd : Val) + g1.cost (some s) + g2.cost (some s)
      else (Pd : Val) + MinDupP g1 g2 (some s) (nd S s).child1 (nd S s).child2 PL) := by
    split
    · exact add_nonneg (add_nonneg pd (h1.cost _)) (h2.cost _)
    · exact add_nonneg pd (MinDupP_nonneg h1 h2 hPL hPL2 _ _ _)
  have htr : (0 : Val) ≤ (if decide (s + 1 ≠ S.length) = true then (Pt : Val) +
      Min2 (g1.in_ (some s) + g2.out (some s)) (g2.in_ (some s) + g1.out (some s))
      else n.transfer (some s)) := by
    split
    · exact add_nonneg pt (Min2_nonneg (add_nonneg (h1.in_ _) (h2.out _))
        (add_nonneg (h2.in_ _) (h1.out _)))
    · exact h.transfer _
  have hm := Min3_nonneg hspec hdup htr
  refine Nonneg_of_fields ?_ ?_ ?_ ?_ ?_ ?_ ?_
  · exact set_nonneg h.cost (some s) hm
  · exact set_nonneg h.speciation (some s) hspec
  · exact set_nonneg h.duplication (some s) hdup
  · exact set_nonneg h.transfer (some s) htr
  · exact set_nonneg h.in_ (some s) (ite_nonneg_val hm
      (Min3M_nonneg hm (add_nonneg (h.in_ _) pl) (add_nonneg (h.in_ _) pl)))
  · exact set_nonneg h.inAlt (some s) (ite_nonneg_val hm
      (Min3M_nonneg hm (h.inAlt _) (h.inAlt _)))
  · exact h.out

theorem Nonneg_passN (S : Tree) {Pd Pt PL : Int} (hPd : 0 ≤ Pd) (hPt : 0 ≤ Pt)
    (hPL : 0 ≤ PL) (hPL2 : 0 ≤ wrap64 (2 * PL)) {g1 g2 : Node} (h1 : Nonneg g1)
    (h2 : Nonneg g2) :
    ∀ (fuel : Nat) (c : Ptr) (n : Node), Nonneg n → Nonneg (passN S Pd Pt PL g1 g2 fuel c n) := by
  intro fuel
  induction fuel with
  | zero => intro c n h; cases c <;> exact h
  | succ fuel ih =>
    intro c n h
    cases c with
    | none => exact h
    | some q =>
      unfold passN
      exact Nonneg_visitN S hPd hPt hPL hPL2 h1 h2 (ih _ _ (ih _ _ h)) q

theorem Nonneg_preN (S : Tree) :
    ∀ (fuel : Nat) (c : Ptr) (n : Node), Nonneg n → Nonneg (preN S fuel c n) := by
  intro fuel
  induction fuel with
  | zero => intro c n h; cases c <;> exact h
  | succ fuel ih =>
    intro c n h
    cases c with
    | none => exact h
    | some r =>
      unfold preN
      cases h1 : (nd S r).child1 with
      | none => exact h
      | some c1 =>
        cases h2 : (nd S r).child2 with
        | none => exact h
        | some c2 =>
          simp only []
          apply ih
          apply ih
          have a : Nonneg (n.put .out (some c1) (Min2 (n.out (some r)) (n.inAlt (some c2)))) :=
            h.put _ _ (Min2_nonneg (h.out _) (h.inAlt _))
          exact a.put _ _ (Min2_nonneg (a.out _) (h.inAlt _))

theorem Nonneg_procN (S : Tree) {Pd Pt PL : Int} (hPd : 0 ≤ Pd) (hPt : 0 ≤ Pt)
    (hPL : 0 ≤ PL) (hPL2 : 0 ≤ wrap64 (2 * PL)) (fuel : Nat) {g1 g2 n : Node}
    (h1 : Nonneg g1) (h2 : Nonneg g2) (h : Nonneg n) :
    Nonneg (procN S Pd Pt PL fuel g1 g2 n) :=
  Nonneg_preN S fuel _ _ (Nonneg_passN S hPd hPt hPL hPL2 h1 h2 fuel _ n h)

/-! ### The path from a species node to the root -/

theorem pathUp_nodup {S : Tree} (hw : WellFormed S) :
    ∀ (fuel p : Nat), p < S.length →
      (p :: pathUp S fuel p).Nodup ∧ ∀ a, a ∈ pathUp S fuel p → p < a ∧ a < S.length := by
  intro fuel
  induction fuel with
  | zero => intro p _; simp [pathUp]
  | succ fuel ih =>
    intro p hp
    unfold pathUp
    cases h : (nd S p).parent with
    | none => simp
    | some q =>
      have hq := hw.parent_gt hp h
      obtain ⟨nd1, gt1⟩ := ih q hq.2.1
      simp only []
      have hall : ∀ a, a ∈ q :: pathUp S fuel q → p < a ∧ a < S.length := by
        intro a ha
        rcases List.mem_cons.mp ha with rfl | ha
        · exact ⟨hq.1, hq.2.1⟩
        · have := gt1 a ha
          exact ⟨by omega, this.2⟩
      refine ⟨List.nodup_cons.mpr ⟨?_, nd1⟩, hall⟩
      intro hmem
      have := (hall p hmem).1
      omega

theorem pathUp_length {S : Tree} (hw : WellFormed S) :
    ∀ (fuel p : Nat), p < S.length → (pathUp S fuel p).length + p < S.length := by
  intro fuel
  induction fuel with
  | zero => intro p hp; simpa [pathUp] using hp
  | succ fuel ih =>
    intro p hp
    unfold pathUp
    cases h : (nd S p).parent with
    | none => simpa using hp
    | some q =>
      have hq := hw.parent_gt hp h
      have := ih q hq.2.1
      simp only [List.length_cons]
      omega

theorem pathUp_getElem? {S : Tree} (hw : WellFormed S) :
    ∀ (d fuel p : Nat), p < S.length → S.length ≤ p + fuel →
      (p :: pathUp S fuel p)[d]? = ancestorAt S d p := by
  intro d
  induction d with
  | zero => intro fuel p _ _; simp [ancestorAt]
  | succ d ih =>
    intro fuel p hp hf
    cases fuel with
    | zero => omega
    | succ fuel =>
      unfold pathUp ancestorAt
      cases h : (nd S p).parent with
      | none => simp
      | some q =>
        have hq := hw.parent_gt hp h
        simp only [List.getElem?_cons_succ]
        exact ih fuel q hq.2.1 (by omega)

theorem pathUp_root_child {S : Tree} (hw : WellFormed S) :
    ∀ (fuel p : Nat), p < S.length → p ≠ S.length - 1 → S.length ≤ p + fuel →
      ∃ a, a ∈ p :: pathUp S fuel p ∧ (nd S a).parent = some (S.length - 1) := by
  intro fuel
  induction fuel with
  | zero => intro p hp _ hf; omega
  | succ fuel ih =>
    intro p hp hne hf
    obtain ⟨q, hq1, hq2, hq3, _⟩ := hw.2.2.2.2.2 p (by omega)
    by_cases hqr : q = S.length - 1
    · exact ⟨p, List.mem_cons_self _ _, by rw [hq3, hqr]⟩
    · obtain ⟨a, ha, hpa⟩ := ih q hq1 hqr (by omega)
      refine ⟨a, ?_, hpa⟩
      unfold pathUp
      rw [hq3]
      exact List.mem_cons_of_mem _ ha

theorem filter_range_eq_single (k s0 : Nat) (h : s0 < k) (p : Nat → Bool)
    (hp : ∀ j, j < k → (p j = true ↔ j = s0)) : (List.range k).filter p = [s0] := by
  induction k with
  | zero => omega
  | succ k ih =>
    rw [List.range_succ, List.filter_append]
    by_cases hk : s0 = k
    · subst hk
      have h1 : (List.range s0).filter p = [] := by
        rw [List.filter_eq_nil_iff]
        intro a ha
        simp at ha
        intro hpa
        have := (hp a (by omega)).mp hpa
        omega
      have h2 : p s0 = true := (hp s0 (by omega)).mpr rfl
      simp [h1, h2]
    · have h1 := ih (by omega) (fun j hj => hp j (by omega))
      have h2 : ¬ p k = true := fun hpk => hk ((hp k (by omega)).mp hpk).symm
      simp [h1, h2]

theorem labelMatches_single {S : Tree} (hd : DistinctLabels S) {s0 : Nat}
    (h0 : s0 < (S.length + 1) / 2) (hl : (S.length + 1) / 2 ≤ S.length) :
    labelMatches S ((S.length + 1) / 2) (nd S s0).label = [s0] := by
  unfold labelMatches
  apply filter_range_eq_single _ _ h0
  intro j hj
  simp only [decide_eq_true_eq]
  constructor
  · intro e
    exact (hd s0 (by omega) j (by omega) e).symm
  · intro e; rw [e]

/-! ### The record of a gene leaf -/

theorem leafNode_cost (S : Tree) (PL : Int) (fuel : Nat) (n : Node) {s : Nat}
    (hs : s < S.length) :
    (leafNode S PL fuel n).cost (some s) =
      if s < (S.length + 1) / 2 ∧ n.label = (nd S s).label then 0 else ⊤ := by
  unfold leafNode
  have a := get_leafOut S (List.range ((S.length + 1) / 2))
    (UMPR.leafIn PL (ancestorsP S fuel (labelMatches S ((S.length + 1) / 2) n.label))
      (UMPR.leafCost S (List.range ((S.length + 1) / 2))
        (initNode S n (labelMatches S ((S.length + 1) / 2) n.label)))) Field.cost (some s)
  rw [if_neg (by simp)] at a
  have b := get_leafIn_other PL (ancestorsP S fuel (labelMatches S ((S.length + 1) / 2) n.label))
    (UMPR.leafCost S (List.range ((S.length + 1) / 2))
      (initNode S n (labelMatches S ((S.length + 1) / 2) n.label))) Field.cost (some s)
    (Or.inl ⟨by decide, by decide⟩)
  have c := get_leafCost S (List.range ((S.length + 1) / 2))
    (initNode S n (labelMatches S ((S.length + 1) / 2) n.label)) Field.cost (some s)
  have d := get_initNode S n (labelMatches S ((S.length + 1) / 2) n.label) Field.cost (some s)
  rw [if_pos ⟨s, hs, rfl⟩] at d
  simp only [Node.get] at a b c d
  rw [a, b, c, d, (initNode_shape S n _).1]
  by_cases h : s < (S.length + 1) / 2 ∧ n.label = (nd S s).label
  · rw [if_pos h, if_pos ⟨trivial, s, by simpa using h.1, rfl, h.2⟩]
  · rw [if_neg h, if_neg]
    rintro ⟨_, a, ha, hk, hl⟩
    cases hk
    exact h ⟨by simpa using ha, hl⟩

/-- The maps of a gene leaf that the leaf loop never writes hold +Inf at every species
node. -/
theorem leafNode_untouched (S : Tree) (PL : Int) (fuel : Nat) (n : Node) (f : Field)
    (hf : f = Field.speciation ∨ f = Field.duplication ∨ f = Field.transfer) {s : Nat}
    (hs : s < S.length) : (leafNode S PL fuel n).get f (some s) = ⊤ := by
  unfold leafNode
  rw [get_leafOut, if_neg (by rcases hf with h | h | h <;> simp [h]),
    get_leafIn_other _ _ _ _ _ (Or.inl (by rcases hf with h | h | h <;> simp [h])),
    get_leafCost, if_neg (by rcases hf with h | h | h <;> simp [h]), get_initNode,
    if_pos ⟨s, hs, rfl⟩]

theorem leafNode_in_single {S : Tree} (hw : WellFormed S) (PL : Int) {fuel : Nat}
    (hf : S.length ≤ fuel) (n : Node) {s0 : Nat} (h0 : s0 < S.length)
    (hL : labelMatches S ((S.length + 1) / 2) n.label = [s0]) :
    (∀ d a, ancestorAt S d s0 = some a →
      (leafNode S PL fuel n).in_ (some a) = ((wrap64 (PL * (d : Int)) : Int) : Val) ∧
      (leafNode S PL fuel n).inAlt (some a) = 0) ∧
    (∀ x, x < S.length → (∀ d, ancestorAt S d s0 ≠ some x) →
      (leafNode S PL fuel n).in_ (some x) = ⊤ ∧ (leafNode S PL fuel n).inAlt (some x) = ⊤) := by
  have hanc : ancestorsP S fuel [s0] = s0 :: pathUp S fuel s0 := by
    simp [ancestorsP]
  have hget : ∀ d, (s0 :: pathUp S fuel s0)[d]? = ancestorAt S d s0 := fun d =>
    pathUp_getElem? hw d fuel s0 h0 (by omega)
  have hnd := (pathUp_nodup hw fuel s0 h0).1
  unfold leafNode
  rw [hL, hanc]
  have o1 : ∀ m k, (UMPR.leafOut S (List.range ((S.length + 1) / 2)) m).in_ k = m.in_ k := by
    intro m k
    have := get_leafOut S (List.range ((S.length + 1) / 2)) m Field.in_ k
    rw [if_neg (by simp)] at this
    exact this
  have o2 : ∀ m k, (UMPR.leafOut S (List.range ((S.length + 1) / 2)) m).inAlt k = m.inAlt k := by
    intro m k
    have := get_leafOut S (List.range ((S.length + 1) / 2)) m Field.inAlt k
    rw [if_neg (by simp)] at this
    exact this
  constructor
  · intro d a hda
    rw [o1, o2]
    exact leafIn_nodup PL _ _ hnd d a (by rw [hget]; exact hda)
  · intro x hx hoff
    rw [o1, o2]
    have hxn : ∀ a, a ∈ s0 :: pathUp S fuel s0 → (some x : Ptr) ≠ some a := by
      intro a ha e
      cases e
      obtain ⟨d, hd⟩ := List.getElem?_of_mem ha
      rw [hget] at hd
      exact hoff d hd
    have i1 := get_leafIn_other PL (s0 :: pathUp S fuel s0)
      (UMPR.leafCost S (List.range ((S.length + 1) / 2)) (initNode S n [s0])) Field.in_
      (some x) (Or.inr hxn)
    have i2 := get_leafIn_other PL (s0 :: pathUp S fuel s0)
      (UMPR.leafCost S (List.range ((S.length + 1) / 2)) (initNode S n [s0])) Field.inAlt
      (some x) (Or.inr hxn)
    have c1 := get_leafCost S (List.range ((S.length + 1) / 2)) (initNode S n [s0])
      Field.in_ (some x)
    have c2 := get_leafCost S (List.range ((S.length + 1) / 2)) (initNode S n [s0])
      Field.inAlt (some x)
    rw [if_neg (by simp)] at c1 c2
    have d1 := get_initNode S n [s0] Field.in_ (some x)
    have d2 := get_initNode S n [s0] Field.inAlt (some x)
    rw [if_pos ⟨x, hx, rfl⟩] at d1 d2
    simp only [Node.get] at i1 i2 c1 c2 d1 d2
    rw [i1, i2, c1, c2, d1, d2]
    exact ⟨rfl, rfl⟩

/-- With one mapped species leaf and a loss weight for which no product `PLoss * dist`
wraps around, no entry of the record of a gene leaf is negative. -/
theorem Nonneg_leafNode_single {S : Tree} (hw : WellFormed S) {PL : Int} (hPL : 0 ≤ PL)
    (hB : PL * (S.length : Int) < 2 ^ 63) (fuel : Nat) (n : Node) {s0 : Nat}
    (h0 : s0 < S.length)
    (hL : labelMatches S ((S.length + 1) / 2) n.label = [s0]) :
    Nonneg (leafNode S PL fuel n) := by
  apply Nonneg_leafNode
  intro d hd
  have hanc : ancestorsP S fuel [s0] = s0 :: pathUp S fuel s0 := by
    simp [ancestorsP]
  rw [hL, hanc, List.length_cons] at hd
  have := pathUp_length hw fuel s0 h0
  exact wrap64_mul_nonneg hPL hB (show d ≤ S.length by omega)

/-! ### Finite entries -/

theorem leafIn_aux_lt_top (PL : Int) :
    ∀ (anc : List Nat) (start : Nat) (n : Node) (a : Nat),
      (a ∈ anc ∨ n.in_ (some a) < ⊤) →
      ((anc.enumFrom start).foldl (fun l da =>
        (l.put .in_ (some da.2) ((wrap64 (PL * (da.1 : Int)) : Int) : Val)).put .inAlt (some da.2) 0)
        n).in_ (some a) < ⊤ := by
  intro anc
  induction anc with
  | nil =>
    intro start n a h
    rcases h with h | h
    · simp at h
    · exact h
  | cons b anc ih =>
    intro start n a h
    rw [List.enumFrom_cons, List.foldl_cons]
    apply ih
    by_cases hab : a = b
    · right
      subst hab
      simp only [Node.put, NodeMap.set, if_true]
      exact WithTop.coe_lt_top _
    · rcases h with h | h
      · rcases List.mem_cons.mp h with e | e
        · exact absurd e hab
        · exact Or.inl e
      · right
        have : (some a : Ptr) ≠ some b := by intro e; cases e; exact hab rfl
        simp only [Node.put, NodeMap.set, this, if_false]
        exact h

theorem leafNode_in_lt_top (S : Tree) (PL : Int) (fuel : Nat) (n : Node) {a : Nat}
    (ha : a ∈ ancestorsP S fuel (labelMatches S ((S.length + 1) / 2) n.label)) :
    (leafNode S PL fuel n).in_ (some a) < ⊤ := by
  unfold leafNode
  have o := get_leafOut S (List.range ((S.length + 1) / 2))
    (UMPR.leafIn PL (ancestorsP S fuel (labelMatches S ((S.length + 1) / 2) n.label))
      (UMPR.leafCost S (List.range ((S.length + 1) / 2))
        (initNode S n (labelMatches S ((S.length + 1) / 2) n.label)))) Field.in_ (some a)
  rw [if_neg (by simp)] at o
  simp only [Node.get] at o
  rw [o]
  unfold UMPR.leafIn List.enum
  exact leafIn_aux_lt_top PL _ 0 _ a (Or.inl ha)

/-- A gene leaf with a mapped species leaf has a finite `in` entry at a child of the
species root. -/
theorem leafNode_fin {S : Tree} (hw : WellFormed S) (PL : Int) {fuel : Nat}
    (hf : S.length ≤ fuel) (n : Node)
    (hm : ∃ j, j < (S.length + 1) / 2 ∧ n.label = (nd S j).label) :
    (leafNode S PL fuel n).in_ (nd S (S.length - 1)).child1 < ⊤ ∨
    (leafNode S PL fuel n).in_ (nd S (S.length - 1)).child2 < ⊤ := by
  have hk := hw.half_le
  obtain ⟨j, hj, hl⟩ := hm
  have hjm : j ∈ labelMatches S ((S.length + 1) / 2) n.label := by
    unfold labelMatches
    simp [hj, hl]
  cases hL : labelMatches S ((S.length + 1) / 2) n.label with
  | nil => rw [hL] at hjm; simp at hjm
  | cons s0 rest =>
    have hs0 : s0 < (S.length + 1) / 2 :=
      labelMatches_lt S _ n.label s0 (by rw [hL]; exact List.mem_cons_self _ _)
    obtain ⟨a, ha, hpa⟩ := pathUp_root_child hw fuel s0 (by omega) (by omega) (by omega)
    have hmem : a ∈ ancestorsP S fuel (labelMatches S ((S.length + 1) / 2) n.label) := by
      rw [hL]
      unfold ancestorsP
      simp only [List.flatMap_cons, List.mem_cons, List.mem_append]
      rcases List.mem_cons.mp ha with e | e
      · exact Or.inl e
      · exact Or.inr (Or.inl e)
    have hfin := leafNode_in_lt_top S PL fuel n hmem
    have hal : a < S.length := by
      rcases List.mem_cons.mp ha with e | e
      · omega
      · exact ((pathUp_nodup hw fuel s0 (by omega)).2 a e).2
    rcases (hw.parent_gt hal hpa).2.2 with e | e
    · left; rw [e]; exact hfin
    · right; rw [e]; exact hfin

theorem MinDupP_lt_top {g1 g2 : Node} {s s1 s2 : Ptr} (PL : Int)
    (h1 : g1.cost s < ⊤ ∨ g1.in_ s1 < ⊤ ∨ g1.in_ s2 < ⊤)
    (h2 : g2.cost s < ⊤ ∨ g2.in_ s1 < ⊤ ∨ g2.in_ s2 < ⊤) :
    MinDupP g1 g2 s s1 s2 PL < ⊤ := by
  unfold MinDupP
  apply MinP_lt_top
  have c1 : (((PL : Int)) : Val) < ⊤ := WithTop.coe_lt_top _
  have c2 : ((wrap64 (2 * PL) : Int) : Val) < ⊤ := WithTop.coe_lt_top _
  rcases h1 with a | a | a <;> rcases h2 with b | b | b
  · exact ⟨g1.cost s + g2.cost s, by simp, WithTop.add_lt_top.mpr ⟨a, b⟩⟩
  · exact ⟨g1.cost s + g2.in_ s1 + (PL : Val), by simp,
      WithTop.add_lt_top.mpr ⟨WithTop.add_lt_top.mpr ⟨a, b⟩, c1⟩⟩
  · exact ⟨g1.cost s + g2.in_ s2 + (PL : Val), by simp,
      WithTop.add_lt_top.mpr ⟨WithTop.add_lt_top.mpr ⟨a, b⟩, c1⟩⟩
  · exact ⟨g2.cost s + g1.in_ s1 + (PL : Val), by simp,
      WithTop.add_lt_top.mpr ⟨WithTop.add_lt_top.mpr ⟨b, a⟩, c1⟩⟩
  · exact ⟨g1.in_ s1 + g2.in_ s1 + ((wrap64 (2 * PL) : Int) : Val), by simp,
      WithTop.add_lt_top.mpr ⟨WithTop.add_lt_top.mpr ⟨a, b⟩, c2⟩⟩
  · exact ⟨g1.in_ s1 + g2.in_ s2 + ((wrap64 (2 * PL) : Int) : Val), by simp,
      WithTop.add_lt_top.mpr ⟨WithTop.add_lt_top.mpr ⟨a, b⟩, c2⟩⟩
  · exact ⟨g2.cost s + g1.in_ s2 + (PL : Val), by simp,
      WithTop.add_lt_top.mpr ⟨WithTop.add_lt_top.mpr ⟨b, a⟩, c1⟩⟩
  · exact ⟨g1.in_ s2 + g2.in_ s1 + ((wrap64 (2 * PL) : Int) : Val), by simp,
      WithTop.add_lt_top.mpr ⟨WithTop.add_lt_top.mpr ⟨a, b⟩, c2⟩⟩
  · exact ⟨g1.in_ s2 + g2.in_ s2 + ((wrap64 (2 * PL) : Int) : Val), by simp,
      WithTop.add_lt_top.mpr ⟨WithTop.add_lt_top.mpr ⟨a, b⟩, c2⟩⟩

/-- An internal gene node whose two children each have a finite entry at the species
root or at one of its children has a finite cost at the species root. -/
theorem procN_cost_root_lt_top {S : Tree} (hw : WellFormed S) (Pd Pt PL : Int) {fuel : Nat}
    (hf : S.length ≤ fuel) {g1 g2 : Node} (n : Node)
    (h1 : g1.cost (some (S.length - 1)) < ⊤ ∨ g1.in_ (nd S (S.length - 1)).child1 < ⊤ ∨
      g1.in_ (nd S (S.length - 1)).child2 < ⊤)
    (h2 : g2.cost (some (S.length - 1)) < ⊤ ∨ g2.in_ (nd S (S.length - 1)).child1 < ⊤ ∨
      g2.in_ (nd S (S.length - 1)).child2 < ⊤) :
    (procN S Pd Pt PL fuel g1 g2 n).cost (some (S.length - 1)) < ⊤ := by
  have hk := hw.half_le
  have st := procN_stable hw Pd Pt PL hf g1 g2 n (show S.length - 1 < S.length by omega)
  rw [st.cost_eq, Min3_fst_eq_min, st.duplication_eq, if_neg (by omega)]
  refine lt_of_le_of_lt (le_trans (min_le_left _ _) (min_le_right _ _)) ?_
  exact WithTop.add_lt_top.mpr ⟨WithTop.coe_lt_top _, MinDupP_lt_top PL h1 h2⟩

/-- C1 (the code departs from the claim): `Min9 2 3 1 1 1 1 1 1 1` and `Min [2, 3, 1]`
return 2, although 1 is among the arguments: `Min` stops at the first element that is
strictly smaller than its successor. -/
theorem Min9_returns_non_minimum :
    Min9 2 3 1 1 1 1 1 1 1 = Except.ok 2 ∧ Min [2, 3, 1] = Except.ok 2 := by
  decide

/-- C7: on a non-empty species tree, `OptimalCost` returns the minimum of
`cost[root][s]` over the species nodes `s` of the list: the value is attained at some
position of the list and is at most the entry of every position. -/
theorem OptimalCost_is_minimum (rootNode : Node) (speciesT : Tree)
    (h : 0 < speciesT.length) :
    ∃ v, OptimalCost rootNode speciesT = Except.ok v ∧
      (∃ i, i < speciesT.length ∧ v = rootNode.cost (some i)) ∧
      ∀ i, i < speciesT.length → v ≤ rootNode.cost (some i) :=
  OptimalCost_spec rootNode speciesT h

/-- A concrete instance of `OptimalCost_is_minimum`. -/
theorem OptimalCost_is_minimum_witness :
    0 < mainSpeciesTree.length ∧
    ∃ v, OptimalCost (mkLeaf "A" none) mainSpeciesTree = Except.ok v ∧
      (∃ i, i < mainSpeciesTree.length ∧ v = (mkLeaf "A" none).cost (some i)) ∧
      ∀ i, i < mainSpeciesTree.length → v ≤ (mkLeaf "A" none).cost (some i) :=
  ⟨by decide, OptimalCost_is_minimum (mkLeaf "A" none) mainSpeciesTree (by decide)⟩

/-- C8: `Min3 a b c` returns the minimum of the three values, with the label
"speciation" exactly when `a ≤ b` and `a ≤ c`, "duplication" exactly when `b < a` and
`b ≤ c`, and "transfer" exactly when `c < a` and `c < b`. -/
theorem Min3_value_and_label (a b c : Val) :
    (Min3 a b c).1 = min a (min b c) ∧
    ((Min3 a b c).2 = "speciation" ↔ a ≤ b ∧ a ≤ c) ∧
    ((Min3 a b c).2 = "duplication" ↔ b < a ∧ b ≤ c) ∧
    ((Min3 a b c).2 = "transfer" ↔ c < a ∧ c < b) := by
  unfold Min3
  by_cases hab : b < a
  · by_cases hbc : c < b
    · have hac : c < a := lt_trans hbc hab
      simp [hab, hbc, hac, min_eq_right, le_of_lt, not_le.mpr]
    · have hbc2 : b ≤ c := not_lt.mp hbc
      simp [hab, hbc, hbc2, min_eq_right, min_eq_left, le_of_lt, not_le.mpr]
  · have hab2 : a ≤ b := not_lt.mp hab
    by_cases hac : c < a
    · have hcb : c < b := lt_of_lt_of_le hac hab2
      simp [hab, hac, hab2, hcb, min_eq_right, le_of_lt, not_le.mpr]
    · have hac2 : a ≤ c := not_lt.mp hac
      simp [hab, hac, hab2, hac2, min_eq_left, le_min]

/-- C2 (the code departs from the claim): with the species tree (A,B) and the gene tree
(A,X), whose leaf X has the label of no species leaf, `UMPR` does not return +Inf: it
stops with the index-out-of-range panic of `l.L[0]` in `FindAncestors`. -/
theorem UMPR_unmapped_leaf_panics :
    faultOf (UMPR 3 geneAX speciesAB 3 3 3 2 1) = some Fault.indexOutOfRange ∧
    costOf (UMPR 3 geneAX speciesAB 3 3 3 2 1) = none := by
  decide

set_option maxRecDepth 1000000 in
/-- C3 (the code departs from the claim): with the species tree ((A,B),C) and the same
tree as gene tree, the gene node (A,B) ends with the event "duplication". -/
theorem UMPR_congruent_event_duplication :
    eventsOf (UMPR 5 treeABC treeABC 5 5 3 2 1) =
      some ["", "", "", "duplication", "speciation"] := by
  decide

set_option maxRecDepth 1000000 in
/-- C5: on the scenario of `main` the run returns the cost 2, which is finite and
strictly positive, and the gene node at position 4, whose children are the leaves A and
C, ends with the event "duplication", which is not "speciation". -/
theorem UMPR_main_scenario :
    ∃ v t, UMPR 7 mainGeneTree mainSpeciesTree 7 7 3 2 1 = Except.ok (v, t) ∧
      v ≠ ⊤ ∧ 0 < v ∧ (nd mainGeneTree 4).child1 = some 0 ∧ (nd mainGeneTree 4).child2 = some 1 ∧
      (nd mainGeneTree 0).label = "A" ∧ (nd mainGeneTree 1).label = "C" ∧
      (nd t 4).event ≠ "speciation" := by
  have hc : costOf (UMPR 7 mainGeneTree mainSpeciesTree 7 7 3 2 1) = some 2 := by decide
  have he : eventsOf (UMPR 7 mainGeneTree mainSpeciesTree 7 7 3 2 1) =
      some ["", "", "", "", "duplication", "duplication", "speciation"] := by decide
  cases hr : UMPR 7 mainGeneTree mainSpeciesTree 7 7 3 2 1 with
  | error e => rw [hr] at hc; simp [costOf] at hc
  | ok r =>
    obtain ⟨v, t⟩ := r
    rw [hr] at hc he
    simp only [costOf, Option.some.injEq] at hc
    simp only [eventsOf, Option.some.injEq] at he
    refine ⟨v, t, rfl, ?_, ?_, rfl, rfl, rfl, rfl, ?_⟩
    · rw [hc]; decide
    · rw [hc]; decide
    · have h4 : (t.map fun n => n.event)[4]? = some "duplication" := by rw [he]; rfl
      have : (nd t 4).event = "duplication" := by
        simp only [List.getElem?_map] at h4
        unfold nd
        cases h : t[4]? with
        | none => rw [h] at h4; simp at h4
        | some n => rw [h] at h4; simpa using h4
      rw [this]; decide

set_option maxRecDepth 1000000 in
/-- C6 (the code departs from the claim): with the species tree (A,B), the gene tree
((A,B),(A,(A,B))), loss cost 1 and transfer cost 2, raising the duplication cost from 1
to 2 lowers the returned cost from 5 to 4. -/
theorem UMPR_not_monotone_in_duplication :
    costOf (UMPR 9 geneDup speciesAB 9 3 1 1 2) = some 5 ∧
    costOf (UMPR 9 geneDup speciesAB 9 3 1 2 2) = some 4 := by
  decide

set_option maxRecDepth 1000000 in
/-- C4 (the claim as stated fails): with the species tree (A,B), which is well formed
and has pairwise distinct labels, the same tree as gene tree, and the non-negative
weights `PLoss = 2^62`, `Pduplication = 2`, `Ptransfer = 1`, `UMPR` returns a negative
value, not 0: `2*PLoss` overflows the 64-bit integer and `float64(2*PLoss)` is
`-2^63`. -/
theorem UMPR_congruent_cost_overflow :
    WellFormed speciesAB ∧ DistinctLabels speciesAB ∧ Congruent speciesAB speciesAB ∧
    (0 : Int) ≤ 4611686018427387904 ∧ (4611686018427387904 : Int) = 2 ^ 62 ∧
    wrap64 (2 * 4611686018427387904) = -2 ^ 63 ∧
    ∃ v, costOf (UMPR 3 speciesAB speciesAB 3 3 4611686018427387904 2 1) = some v ∧
      v < 0 ∧ v ≠ 0 :=
  ⟨by decide, by decide, by decide, by decide, by decide, by decide,
    ((-9223372036854775806 : Int) : Val), by decide, by decide, by decide⟩

/-- C4 (amended): for a well-formed species tree with pairwise distinct labels, a gene
tree that is a structural copy of it with the same leaf labels, non-negative weights,
and a loss weight so small that no product of the run overflows the 64-bit integer
(`PLoss` times the number of species nodes is below `2^63`), `UMPR` returns exactly
0. -/
theorem UMPR_congruent_cost_zero (geneT S : Tree) (PL Pd Pt : Int) (fuel : Nat)
    (hwS : WellFormed S) (hdS : DistinctLabels S) (hc : Congruent geneT S)
    (hPL : 0 ≤ PL) (hB : PL * (S.length : Int) < 2 ^ 63) (hPd : 0 ≤ Pd) (hPt : 0 ≤ Pt)
    (hf : S.length ≤ fuel) :
    ∃ v t, UMPR fuel geneT S geneT.length S.length PL Pd Pt = Except.ok (v, t) ∧ v = 0 := by
  have hk := hwS.half_le
  have hPL2 : 0 ≤ wrap64 (2 * PL) := wrap64_two_mul_nonneg hPL hB (by have := hwS.1; omega)
  have hlen : geneT.length = S.length := hc.1
  have hwG : WellFormed geneT :=
    hwS.of_shape hlen (fun i hi => ⟨(hc.2 i hi).1, (hc.2 i hi).2.1, (hc.2 i hi).2.2.1⟩)
  have hm : LeavesMapped geneT S := by
    intro i hi
    rw [hlen] at hi
    exact ⟨i, hi, (hc.2 i (by omega)).2.2.2 hi⟩
  obtain ⟨v, t, e, _, hL, hI, ho⟩ := UMPR_run hwG hwS hdS hm PL Pd Pt (by omega) hf
  refine ⟨v, t, e, ?_⟩
  have key := final_induct hwG hL hI
    (fun x n => Nonneg n ∧ n.in_ (some x) = 0 ∧ ((S.length + 1) / 2 ≤ x → n.cost (some x) = 0))
    (by
      intro x hx
      rw [hlen] at hx
      have hl : (nd geneT x).label = (nd S x).label := (hc.2 x (by omega)).2.2.2 hx
      have hM : labelMatches S ((S.length + 1) / 2) (nd geneT x).label = [x] := by
        rw [hl]; exact labelMatches_single hdS hx (by omega)
      refine ⟨Nonneg_leafNode_single hwS hPL hB fuel _ (show x < S.length by omega) hM, ?_,
        fun h => by omega⟩
      have hs := leafNode_in_single hwS PL hf (nd geneT x) (show x < S.length by omega) hM
      have := (hs.1 0 x rfl).1
      rw [this]
      simp [wrap64])
    (by
      intro x c1 c2 g1 g2 hx h1 h2 p1 p2
      rw [hlen] at hx
      have e1 : (nd S x).child1 = some c1 := by rw [← (hc.2 x hx).2.1]; exact h1
      have e2 : (nd S x).child2 = some c2 := by rw [← (hc.2 x hx).2.2.1]; exact h2
      have hkx := (hwS.child1_lt hx e1).2.2
      have nn := Nonneg_procN S hPd hPt hPL hPL2 fuel p1.1 p2.1
        (Nonneg_initNode S (nd geneT x) [])
      have st := procN_stable hwS Pd Pt PL hf g1 g2 (initNode S (nd geneT x) []) hx
      have hspec : (procN S Pd Pt PL fuel g1 g2 (initNode S (nd geneT x) [])).speciation
          (some x) = 0 := by
        rw [st.speciation_eq, if_neg (by omega), e1, e2, p1.2.1, p2.2.1, Min2_eq_min, zero_add]
        exact min_eq_left (add_nonneg (p2.1.in_ _) (p1.1.in_ _))
      have hcost : (procN S Pd Pt PL fuel g1 g2 (initNode S (nd geneT x) [])).cost
          (some x) = 0 := by
        rw [st.cost_eq, Min3_fst_eq_min, hspec, min_eq_left (nn.duplication _),
          min_eq_left (nn.transfer _)]
      refine ⟨nn, ?_, fun _ => hcost⟩
      rw [st.in_eq, if_neg (by omega), Min3M_eq_min, hcost]
      have pl : (0 : Val) ≤ ((PL : Int) : Val) := (coe_nonneg_iff PL).mpr hPL
      rw [min_eq_left (add_nonneg (nn.in_ _) pl), min_eq_left (add_nonneg (nn.in_ _) pl)])
  obtain ⟨v1, ev1, ⟨i, hi, hvi⟩, hmin⟩ := OptimalCost_spec (nd t (geneT.length - 1)) S
    (by omega)
  rw [ho] at ev1
  cases ev1
  have hroot := key (geneT.length - 1) (by omega)
  have h0 : v ≤ 0 := by
    have := hmin (S.length - 1) (by omega)
    rw [← hlen, hroot.2.2 (by omega)] at this
    exact this
  have h1 : 0 ≤ v := by
    rw [hvi]
    exact hroot.1.cost _
  exact le_antisymm h0 h1

/-- A concrete instance of `UMPR_congruent_cost_zero`: the tree of `main` as species
tree and as its own gene tree. -/
theorem UMPR_congruent_cost_zero_witness :
    WellFormed mainSpeciesTree ∧ DistinctLabels mainSpeciesTree ∧
    Congruent mainSpeciesTree mainSpeciesTree ∧
    (3 : Int) * (mainSpeciesTree.length : Int) < 2 ^ 63 ∧
    ∃ v t, UMPR 7 mainSpeciesTree mainSpeciesTree mainSpeciesTree.length
      mainSpeciesTree.length 3 2 1 = Except.ok (v, t) ∧ v = 0 :=
  ⟨by decide, by decide, by decide, by decide,
    UMPR_congruent_cost_zero mainSpeciesTree mainSpeciesTree 3 2 1 7 (by decide) (by decide)
      (by decide) (by decide) (by decide) (by decide) (by decide) (by decide)⟩

/-- C9: on well-formed trees (so the species tree has an internal node) in which every
gene leaf carries the label of a species leaf, the value `UMPR` returns is finite,
whatever the weights. -/
theorem UMPR_cost_finite (geneT S : Tree) (PL Pd Pt : Int) (fuel : Nat)
    (hwG : WellFormed geneT) (hwS : WellFormed S) (hdS : DistinctLabels S)
    (hm : LeavesMapped geneT S) (hfG : geneT.length ≤ fuel) (hfS : S.length ≤ fuel) :
    ∃ v t, UMPR fuel geneT S geneT.length S.length PL Pd Pt = Except.ok (v, t) ∧ v ≠ ⊤ := by
  have hk := hwS.half_le
  have hkG := hwG.half_le
  obtain ⟨v, t, e, _, hL, hI, ho⟩ := UMPR_run hwG hwS hdS hm PL Pd Pt hfG hfS
  refine ⟨v, t, e, ?_⟩
  have key := final_induct hwG hL hI
    (fun _ n => n.cost (some (S.length - 1)) < ⊤ ∨ n.in_ (nd S (S.length - 1)).child1 < ⊤ ∨
      n.in_ (nd S (S.length - 1)).child2 < ⊤)
    (fun x hx => Or.inr (leafNode_fin hwS PL hfS (nd geneT x) (hm x hx)))
    (fun x c1 c2 g1 g2 _ _ _ p1 p2 =>
      Or.inl (procN_cost_root_lt_top hwS Pd Pt PL hfS _ p1 p2))
  obtain ⟨c1, c2, h1, h2, _, e1, e2, _, _⟩ :=
    hwG.inner (show geneT.length - 1 < geneT.length by omega) (by omega)
  have hroot : (nd t (geneT.length - 1)).cost (some (S.length - 1)) < ⊤ := by
    rw [hI _ c1 c2 (by omega) e1 e2]
    exact procN_cost_root_lt_top hwS Pd Pt PL hfS _ (key c1 (by omega)) (key c2 (by omega))
  obtain ⟨v1, ev1, _, hmin⟩ := OptimalCost_spec (nd t (geneT.length - 1)) S (by omega)
  rw [ho] at ev1
  cases ev1
  exact ne_of_lt (lt_of_le_of_lt (hmin (S.length - 1) (by omega)) hroot)

/-- A concrete instance of `UMPR_cost_finite`: the trees and weights of `main`. -/
theorem UMPR_cost_finite_witness :
    WellFormed mainGeneTree ∧ WellFormed mainSpeciesTree ∧ DistinctLabels mainSpeciesTree ∧
    LeavesMapped mainGeneTree mainSpeciesTree ∧
    ∃ v t, UMPR 7 mainGeneTree mainSpeciesTree mainGeneTree.length mainSpeciesTree.length
      3 2 1 = Except.ok (v, t) ∧ v ≠ ⊤ :=
  ⟨by decide, by decide, by decide, by decide,
    UMPR_cost_finite mainGeneTree mainSpeciesTree 3 2 1 7 (by decide) (by decide) (by decide)
      (by decide) (by decide) (by decide)⟩

set_option maxRecDepth 1000000 in
/-- C10 (the claim as stated fails): on the trees of `main`, which are well formed and
in which every gene leaf carries the label of a species leaf, with the non-negative
weights `PLoss = 2^62`, `Pduplication = 2`, `Ptransfer = 1`, `UMPR` returns a negative
value: `PLoss * 2` and `2*PLoss` overflow the 64-bit integer, so that the run adds
`-2^63`. -/
theorem UMPR_cost_negative_overflow :
    WellFormed mainGeneTree ∧ WellFormed mainSpeciesTree ∧ DistinctLabels mainSpeciesTree ∧
    LeavesMapped mainGeneTree mainSpeciesTree ∧
    (0 : Int) ≤ 4611686018427387904 ∧ (4611686018427387904 : Int) = 2 ^ 62 ∧
    ∃ v, costOf (UMPR 7 mainGeneTree mainSpeciesTree 7 7 4611686018427387904 2 1) = some v ∧
      v < 0 :=
  ⟨by decide, by decide, by decide, by decide, by decide, by decide,
    ((-13835058055282163706 : Int) : Val), by decide, by decide⟩

/-- C10 (amended): on well-formed trees in which every gene leaf carries the label of a
species leaf, with non-negative weights and a loss weight so small that no product of
the run overflows the 64-bit integer (`PLoss` times the number of species nodes is below
`2^63`), the value `UMPR` returns is at least 0. -/
theorem UMPR_cost_nonneg (geneT S : Tree) (PL Pd Pt : Int) (fuel : Nat)
    (hwG : WellFormed geneT) (hwS : WellFormed S) (hdS : DistinctLabels S)
    (hm : LeavesMapped geneT S) (hPL : 0 ≤ PL) (hB : PL * (S.length : Int) < 2 ^ 63)
    (hPd : 0 ≤ Pd) (hPt : 0 ≤ Pt) (hfG : geneT.length ≤ fuel) (hfS : S.length ≤ fuel) :
    ∃ v t, UMPR fuel geneT S geneT.length S.length PL Pd Pt = Except.ok (v, t) ∧ 0 ≤ v := by
  have hk := hwS.half_le
  have hkG := hwG.half_le
  have hPL2 : 0 ≤ wrap64 (2 * PL) := wrap64_two_mul_nonneg hPL hB (by have := hwS.1; omega)
  obtain ⟨v, t, e, _, hL, hI, ho⟩ := UMPR_run hwG hwS hdS hm PL Pd Pt hfG hfS
  refine ⟨v, t, e, ?_⟩
  have key := final_induct hwG hL hI (fun _ n => Nonneg n)
    (fun x hx => by
      obtain ⟨j, hj, hl⟩ := hm x hx
      exact Nonneg_leafNode_single hwS hPL hB fuel _ (show j < S.length by omega)
        (by rw [hl]; exact labelMatches_single hdS hj (by omega)))
    (fun x c1 c2 g1 g2 _ _ _ p1 p2 =>
      Nonneg_procN S hPd hPt hPL hPL2 fuel p1 p2 (Nonneg_initNode S (nd geneT x) []))
  obtain ⟨v1, ev1, ⟨i, _, hvi⟩, _⟩ := OptimalCost_spec (nd t (geneT.length - 1)) S (by omega)
  rw [ho] at ev1
  cases ev1
  rw [hvi]
  exact (key (geneT.length - 1) (by omega)).cost _

/-- A concrete instance of `UMPR_cost_nonneg`: the trees and weights of `main`. -/
theorem UMPR_cost_nonneg_witness :
    WellFormed mainGeneTree ∧ WellFormed mainSpeciesTree ∧ DistinctLabels mainSpeciesTree ∧
    LeavesMapped mainGeneTree mainSpeciesTree ∧
    (3 : Int) * (mainSpeciesTree.length : Int) < 2 ^ 63 ∧
    ∃ v t, UMPR 7 mainGeneTree mainSpeciesTree mainGeneTree.length mainSpeciesTree.length
      3 2 1 = Except.ok (v, t) ∧ 0 ≤ v :=
  ⟨by decide, by decide, by decide, by decide, by decide,
    UMPR_cost_nonneg mainGeneTree mainSpeciesTree 3 2 1 7 (by decide) (by decide) (by decide)
      (by decide) (by decide) (by decide) (by decide) (by decide) (by decide) (by decide)⟩

/-- C11: on well-formed rooted binary trees with pairwise distinct species labels in
which every gene leaf carries the label of a species leaf, and with fuel for the longer
of the two trees, `UMPR` returns a value: the run meets no index out of range, no `Min`
of an empty array, no nil species root and no nil or stray pointer. -/
theorem UMPR_total (geneT S : Tree) (PL Pd Pt : Int) (fuel : Nat)
    (hwG : WellFormed geneT) (hwS : WellFormed S) (hdS : DistinctLabels S)
    (hm : LeavesMapped geneT S) (hfG : geneT.length ≤ fuel) (hfS : S.length ≤ fuel) :
    ∃ v t, UMPR fuel geneT S geneT.length S.length PL Pd Pt = Except.ok (v, t) ∧
      faultOf (UMPR fuel geneT S geneT.length S.length PL Pd Pt) = none := by
  obtain ⟨v, t, e, _⟩ := UMPR_run hwG hwS hdS hm PL Pd Pt hfG hfS
  exact ⟨v, t, e, by rw [e]; rfl⟩

/-- A concrete instance of `UMPR_total`: the trees and weights of `main`. -/
theorem UMPR_total_witness :
    WellFormed mainGeneTree ∧ WellFormed mainSpeciesTree ∧ DistinctLabels mainSpeciesTree ∧
    LeavesMapped mainGeneTree mainSpeciesTree ∧
    ∃ v t, UMPR 7 mainGeneTree mainSpeciesTree mainGeneTree.length mainSpeciesTree.length
      3 2 1 = Except.ok (v, t) ∧
      faultOf (UMPR 7 mainGeneTree mainSpeciesTree mainGeneTree.length mainSpeciesTree.length
        3 2 1) = none :=
  ⟨by decide, by decide, by decide, by decide,
    UMPR_total mainGeneTree mainSpeciesTree 3 2 1 7 (by decide) (by decide) (by decide)
      (by decide) (by decide) (by decide)⟩

/-- C12: after `UMPR`, whatever the weights, the cost map of every gene leaf `g` holds 0
at every species leaf with the label of `g` and +Inf at every other species node: the
passes leave the cost map of a gene leaf as the leaf loop wrote it. -/
theorem UMPR_leaf_cost (geneT S : Tree) (PL Pd Pt : Int) (fuel : Nat)
    (hwG : WellFormed geneT) (hwS : WellFormed S) (hdS : DistinctLabels S)
    (hm : LeavesMapped geneT S) (hfG : geneT.length ≤ fuel) (hfS : S.length ≤ fuel) :
    ∃ v t, UMPR fuel geneT S geneT.length S.length PL Pd Pt = Except.ok (v, t) ∧
      ∀ g, g < (geneT.length + 1) / 2 → ∀ s, s < S.length →
        (nd t g).cost (some s) =
          if s < (S.length + 1) / 2 ∧ (nd geneT g).label = (nd S s).label then 0 else ⊤ := by
  obtain ⟨v, t, e, _, hL, _, _⟩ := UMPR_run hwG hwS hdS hm PL Pd Pt hfG hfS
  refine ⟨v, t, e, ?_⟩
  intro g hg s hs
  rw [hL g hg]
  exact leafNode_cost S PL fuel (nd geneT g) hs

/-- A concrete instance of `UMPR_leaf_cost`: the trees and weights of `main`. -/
theorem UMPR_leaf_cost_witness :
    WellFormed mainGeneTree ∧ WellFormed mainSpeciesTree ∧ DistinctLabels mainSpeciesTree ∧
    LeavesMapped mainGeneTree mainSpeciesTree ∧
    ∃ v t, UMPR 7 mainGeneTree mainSpeciesTree mainGeneTree.length mainSpeciesTree.length
      3 2 1 = Except.ok (v, t) ∧
      ∀ g, g < (mainGeneTree.length + 1) / 2 → ∀ s, s < mainSpeciesTree.length →
        (nd t g).cost (some s) =
          if s < (mainSpeciesTree.length + 1) / 2 ∧
            (nd mainGeneTree g).label = (nd mainSpeciesTree s).label then 0 else ⊤ :=
  ⟨by decide, by decide, by decide, by decide,
    UMPR_leaf_cost mainGeneTree mainSpeciesTree 3 2 1 7 (by decide) (by decide) (by decide)
      (by decide) (by decide) (by decide)⟩

/-- C13: `InitializeLMap` returns when the two leaf counts fit the trees; afterwards the
mapping list of every gene leaf `g` is the list of the species leaves with the label of
`g`, each once and in the order of the species list, so a species leaf is in the list
exactly when the labels are identical, and the mapping list of every later gene node is
empty. -/
theorem InitializeLMap_lists (geneT S : Tree) (geneLeave speciesLeave : Nat)
    (hg : geneLeave ≤ geneT.length) (hs : speciesLeave ≤ S.length) :
    ∃ G1, InitializeLMap geneT S geneLeave speciesLeave = Except.ok G1 ∧
      G1.length = geneT.length ∧
      (∀ g, g < geneLeave →
        (nd G1 g).L = (List.range speciesLeave).filter
          (fun s => decide ((nd geneT g).label = (nd S s).label)) ∧
        ∀ s, s < speciesLeave → (s ∈ (nd G1 g).L ↔ (nd geneT g).label = (nd S s).label)) ∧
      (∀ g, geneLeave ≤ g → g < geneT.length → (nd G1 g).L = []) := by
  obtain ⟨G1, e, l, n⟩ := InitializeLMap_eq geneT S geneLeave speciesLeave hg hs
  refine ⟨G1, e, l, ?_, ?_⟩
  · intro g hgl
    have hL : (nd G1 g).L = (List.range speciesLeave).filter
        (fun s => decide ((nd geneT g).label = (nd S s).label)) := by
      rw [n g (by omega)]
      simp only [hgl, if_true]
      rfl
    refine ⟨hL, ?_⟩
    intro s hsl
    rw [hL]
    simp [hsl]
  · intro g hgl hgn
    rw [n g hgn]
    simp only [show ¬ g < geneLeave by omega, if_false]

/-- A concrete instance of `InitializeLMap_lists`: the trees of `main`. -/
theorem InitializeLMap_lists_witness :
    4 ≤ mainGeneTree.length ∧ 4 ≤ mainSpeciesTree.length ∧
    ∃ G1, InitializeLMap mainGeneTree mainSpeciesTree 4 4 = Except.ok G1 ∧
      G1.length = mainGeneTree.length ∧
      (∀ g, g < 4 →
        (nd G1 g).L = (List.range 4).filter
          (fun s => decide ((nd mainGeneTree g).label = (nd mainSpeciesTree s).label)) ∧
        ∀ s, s < 4 →
          (s ∈ (nd G1 g).L ↔ (nd mainGeneTree g).label = (nd mainSpeciesTree s).label)) ∧
      (∀ g, 4 ≤ g → g < mainGeneTree.length → (nd G1 g).L = []) :=
  ⟨by decide, by decide,
    InitializeLMap_lists mainGeneTree mainSpeciesTree 4 4 (by decide) (by decide)⟩

/-- C14: after `UMPR` on well-formed input, the event of every internal gene node is the
label `Min3` gives for its final `speciation`, `duplication` and `transfer` entries at
the species root, the last species node of the post-order pass. -/
theorem UMPR_event_at_species_root (geneT S : Tree) (PL Pd Pt : Int) (fuel : Nat)
    (hwG : WellFormed geneT) (hwS : WellFormed S) (hdS : DistinctLabels S)
    (hm : LeavesMapped geneT S) (hfG : geneT.length ≤ fuel) (hfS : S.length ≤ fuel) :
    ∃ v t, UMPR fuel geneT S geneT.length S.length PL Pd Pt = Except.ok (v, t) ∧
      ∀ g, (geneT.length + 1) / 2 ≤ g → g < geneT.length →
        (nd t g).event =
          (Min3 ((nd t g).speciation (some (S.length - 1)))
            ((nd t g).duplication (some (S.length - 1)))
            ((nd t g).transfer (some (S.length - 1)))).2 := by
  obtain ⟨v, t, e, _, _, hI, _⟩ := UMPR_run hwG hwS hdS hm PL Pd Pt hfG hfS
  refine ⟨v, t, e, ?_⟩
  intro g hk hg
  obtain ⟨c1, c2, _, _, _, e1, e2, _, _⟩ := hwG.inner hg hk
  have hf0 : 0 < fuel := by have := hwS.1; omega
  rw [hI g c1 c2 hg e1 e2]
  exact procN_event S Pd Pt PL hf0 _ _ _

/-- A concrete instance of `UMPR_event_at_species_root`: the trees and weights of
`main`. -/
theorem UMPR_event_at_species_root_witness :
    WellFormed mainGeneTree ∧ WellFormed mainSpeciesTree ∧ DistinctLabels mainSpeciesTree ∧
    LeavesMapped mainGeneTree mainSpeciesTree ∧
    ∃ v t, UMPR 7 mainGeneTree mainSpeciesTree mainGeneTree.length mainSpeciesTree.length
      3 2 1 = Except.ok (v, t) ∧
      ∀ g, (mainGeneTree.length + 1) / 2 ≤ g → g < mainGeneTree.length →
        (nd t g).event =
          (Min3 ((nd t g).speciation (some (mainSpeciesTree.length - 1)))
            ((nd t g).duplication (some (mainSpeciesTree.length - 1)))
            ((nd t g).transfer (some (mainSpeciesTree.length - 1)))).2 :=
  ⟨by decide, by decide, by decide, by decide,
    UMPR_event_at_species_root mainGeneTree mainSpeciesTree 3 2 1 7 (by decide) (by decide)
      (by decide) (by decide) (by decide) (by decide)⟩

set_option maxRecDepth 1000000 in
/-- C17 (the claim as stated fails): with the tree ((A,B),C) as species tree and as gene
tree and `PLoss = 2^62`, the gene leaf A maps to the species leaf A alone, the species
root lies at distance 2 above that leaf, and the `in` entry of the gene leaf at the root
is `-2^63`, not `PLoss * 2 = 2^63`: the product overflows the 64-bit integer. -/
theorem UMPR_leaf_seed_overflow :
    WellFormed treeABC ∧ DistinctLabels treeABC ∧ LeavesMapped treeABC treeABC ∧
    (4611686018427387904 : Int) = 2 ^ 62 ∧
    ancestorAt treeABC 2 0 = some 4 ∧
    Except.map (fun r => (nd r.2 0).L) (UMPR 5 treeABC treeABC 5 5 4611686018427387904 2 1) =
      Except.ok [0] ∧
    entryOf (UMPR 5 treeABC treeABC 5 5 4611686018427387904 2 1) 0 Field.in_ (some 4) =
      some ((-9223372036854775808 : Int) : Val) ∧
    ((-9223372036854775808 : Int) : Val) ≠ ((((4611686018427387904 : Int) * 2 : Int)) : Val) := by
  decide

/-- C17 (amended): after `UMPR` on well-formed input, for a gene leaf `g` whose label is
the label of the species leaf `s0` (its only mapped leaf, the species labels being
distinct), the species node at distance `d` above `s0` has `inAlt = 0` and as `in` the
value `float64(PLoss * d)` with the product formed in 64-bit integers: the wrapped
product in general, and `PLoss * d` itself whenever `-2^63 ≤ PLoss * d < 2^63`; every
species node off the path from `s0` to the root keeps `in = inAlt = +Inf`. -/
theorem UMPR_leaf_seed (geneT S : Tree) (PL Pd Pt : Int) (fuel : Nat)
    (hwG : WellFormed geneT) (hwS : WellFormed S) (hdS : DistinctLabels S)
    (hm : LeavesMapped geneT S) (hfG : geneT.length ≤ fuel) (hfS : S.length ≤ fuel) :
    ∃ v t, UMPR fuel geneT S geneT.length S.length PL Pd Pt = Except.ok (v, t) ∧
      ∀ g s0, g < (geneT.length + 1) / 2 → s0 < (S.length + 1) / 2 →
        (nd geneT g).label = (nd S s0).label →
        (nd t g).L = [s0] ∧
        (∀ d a, ancestorAt S d s0 = some a →
          (nd t g).in_ (some a) = ((wrap64 (PL * (d : Int)) : Int) : Val) ∧
          (-2 ^ 63 ≤ PL * (d : Int) → PL * (d : Int) < 2 ^ 63 →
            (nd t g).in_ (some a) = ((PL * (d : Int) : Int) : Val)) ∧
          (nd t g).inAlt (some a) = 0) ∧
        (∀ x, x < S.length → (∀ d, ancestorAt S d s0 ≠ some x) →
          (nd t g).in_ (some x) = ⊤ ∧ (nd t g).inAlt (some x) = ⊤) := by
  have hk := hwS.half_le
  obtain ⟨v, t, e, _, hL, _, _⟩ := UMPR_run hwG hwS hdS hm PL Pd Pt hfG hfS
  refine ⟨v, t, e, ?_⟩
  intro g s0 hg h0 hl
  have hM : labelMatches S ((S.length + 1) / 2) (nd geneT g).label = [s0] := by
    rw [hl]; exact labelMatches_single hdS h0 (by omega)
  rw [hL g hg]
  have hs := leafNode_in_single hwS PL hfS (nd geneT g) (show s0 < S.length by omega) hM
  refine ⟨?_, ?_, hs.2⟩
  · rw [(leafNode_shape S PL fuel (nd geneT g)).2.2.2.2, hM]
  · intro d a hda
    refine ⟨(hs.1 d a hda).1, ?_, (hs.1 d a hda).2⟩
    intro h1 h2
    rw [(hs.1 d a hda).1, wrap64_of_bounds h1 h2]

/-- A concrete instance of `UMPR_leaf_seed`: the trees and weights of `main`. -/
theorem UMPR_leaf_seed_witness :
    WellFormed mainGeneTree ∧ WellFormed mainSpeciesTree ∧ DistinctLabels mainSpeciesTree ∧
    LeavesMapped mainGeneTree mainSpeciesTree ∧
    ∃ v t, UMPR 7 mainGeneTree mainSpeciesTree mainGeneTree.length mainSpeciesTree.length
      3 2 1 = Except.ok (v, t) ∧
      ∀ g s0, g < (mainGeneTree.length + 1) / 2 → s0 < (mainSpeciesTree.length + 1) / 2 →
        (nd mainGeneTree g).label = (nd mainSpeciesTree s0).label →
        (nd t g).L = [s0] ∧
        (∀ d a, ancestorAt mainSpeciesTree d s0 = some a →
          (nd t g).in_ (some a) = ((wrap64 ((3 : Int) * (d : Int)) : Int) : Val) ∧
          (-2 ^ 63 ≤ (3 : Int) * (d : Int) → (3 : Int) * (d : Int) < 2 ^ 63 →
            (nd t g).in_ (some a) = ((((3 : Int) * (d : Int) : Int)) : Val)) ∧
          (nd t g).inAlt (some a) = 0) ∧
        (∀ x, x < mainSpeciesTree.length → (∀ d, ancestorAt mainSpeciesTree d s0 ≠ some x) →
          (nd t g).in_ (some x) = ⊤ ∧ (nd t g).inAlt (some x) = ⊤) :=
  ⟨by decide, by decide, by decide, by decide,
    UMPR_leaf_seed mainGeneTree mainSpeciesTree 3 2 1 7 (by decide) (by decide) (by decide)
      (by decide) (by decide) (by decide)⟩

set_option maxRecDepth 1000000 in
/-- C18 (the code departs from the claim): with the species tree (A,A), whose two
leaves both carry the label A, and the gene tree (A,A), the run returns, the gene leaf
at 0 is mapped to the species leaves 0 and 1, and its `in` and `inAlt` entries at the
species leaf 1 are +Inf, not 0: `FindAncestors` puts only `L[0]` itself on the list. -/
theorem UMPR_second_mapped_leaf_not_seeded :
    (Except.map (fun r => (nd r.2 0).L) (UMPR 3 geneAA speciesAA 3 3 3 2 1)) =
      Except.ok [0, 1] ∧
    entryOf (UMPR 3 geneAA speciesAA 3 3 3 2 1) 0 Field.in_ (some 1) = some ⊤ ∧
    entryOf (UMPR 3 geneAA speciesAA 3 3 3 2 1) 0 Field.inAlt (some 1) = some ⊤ ∧
    entryOf (UMPR 3 geneAA speciesAA 3 3 3 2 1) 0 Field.in_ (some 0) = some 0 := by
  decide

/-- C19: after `UMPR` on well-formed input, for every internal gene node `g` with
children `g1`, `g2` and every species node `s` other than the root,
`transfer[g][s] = Ptransfer + min (in[g1][s] + out[g2][s]) (in[g2][s] + out[g1][s])`
over the final maps; at the species root the `transfer` entry of every gene node is
+Inf. -/
theorem UMPR_transfer (geneT S : Tree) (PL Pd Pt : Int) (fuel : Nat)
    (hwG : WellFormed geneT) (hwS : WellFormed S) (hdS : DistinctLabels S)
    (hm : LeavesMapped geneT S) (hfG : geneT.length ≤ fuel) (hfS : S.length ≤ fuel) :
    ∃ v t, UMPR fuel geneT S geneT.length S.length PL Pd Pt = Except.ok (v, t) ∧
      (∀ g g1 g2, g < geneT.length → (nd geneT g).child1 = some g1 →
        (nd geneT g).child2 = some g2 → ∀ s, s < S.length → s ≠ S.length - 1 →
        (nd t g).transfer (some s) = (Pt : Val) +
          min ((nd t g1).in_ (some s) + (nd t g2).out (some s))
            ((nd t g2).in_ (some s) + (nd t g1).out (some s))) ∧
      (∀ g, g < geneT.length → (nd t g).transfer (some (S.length - 1)) = ⊤) := by
  have h3 := hwS.1
  obtain ⟨v, t, e, _, hL, hI, _⟩ := UMPR_run hwG hwS hdS hm PL Pd Pt hfG hfS
  refine ⟨v, t, e, ?_, ?_⟩
  · intro g g1 g2 hg e1 e2 s hs hsr
    have st := procN_stable hwS Pd Pt PL hfS (nd t g1) (nd t g2)
      (initNode S (nd geneT g) []) hs
    rw [← hI g g1 g2 hg e1 e2] at st
    rw [st.transfer_eq (by omega), Min2_eq_min]
  · intro g hg
    by_cases hk : g < (geneT.length + 1) / 2
    · rw [hL g hk]
      exact leafNode_untouched S PL fuel _ Field.transfer (Or.inr (Or.inr rfl)) (by omega)
    · obtain ⟨c1, c2, _, _, _, e1, e2, _, _⟩ := hwG.inner hg (not_lt.mp hk)
      rw [hI g c1 c2 hg e1 e2, procN_transfer_root S (by omega)]
      have := get_initNode S (nd geneT g) [] Field.transfer (some (S.length - 1))
      rw [if_pos ⟨S.length - 1, by omega, rfl⟩] at this
      exact this

/-- A concrete instance of `UMPR_transfer`: the trees and weights of `main`. -/
theorem UMPR_transfer_witness :
    WellFormed mainGeneTree ∧ WellFormed mainSpeciesTree ∧ DistinctLabels mainSpeciesTree ∧
    LeavesMapped mainGeneTree mainSpeciesTree ∧
    ∃ v t, UMPR 7 mainGeneTree mainSpeciesTree mainGeneTree.length mainSpeciesTree.length
      3 2 1 = Except.ok (v, t) ∧
      (∀ g g1 g2, g < mainGeneTree.length → (nd mainGeneTree g).child1 = some g1 →
        (nd mainGeneTree g).child2 = some g2 → ∀ s, s < mainSpeciesTree.length →
        s ≠ mainSpeciesTree.length - 1 →
        (nd t g).transfer (some s) = ((1 : Int) : Val) +
          min ((nd t g1).in_ (some s) + (nd t g2).out (some s))
            ((nd t g2).in_ (some s) + (nd t g1).out (some s))) ∧
      (∀ g, g < mainGeneTree.length →
        (nd t g).transfer (some (mainSpeciesTree.length - 1)) = ⊤) :=
  ⟨by decide, by decide, by decide, by decide,
    UMPR_transfer mainGeneTree mainSpeciesTree 3 2 1 7 (by decide) (by decide) (by decide)
      (by decide) (by decide) (by decide)⟩

/-- C20: after `UMPR` on well-formed input, for every internal gene node `g` and every
internal species node `s` with children `s1`, `s2`,
`out[g][s1] = min out[g][s] inAlt[g][s2]` and `out[g][s2] = min out[g][s] inAlt[g][s1]`,
and `out[g]` is +Inf at the species root. -/
theorem UMPR_out (geneT S : Tree) (PL Pd Pt : Int) (fuel : Nat)
    (hwG : WellFormed geneT) (hwS : WellFormed S) (hdS : DistinctLabels S)
    (hm : LeavesMapped geneT S) (hfG : geneT.length ≤ fuel) (hfS : S.length ≤ fuel) :
    ∃ v t, UMPR fuel geneT S geneT.length S.length PL Pd Pt = Except.ok (v, t) ∧
      ∀ g, (geneT.length + 1) / 2 ≤ g → g < geneT.length →
        (∀ s s1 s2, s < S.length → (nd S s).child1 = some s1 → (nd S s).child2 = some s2 →
          (nd t g).out (some s1) = min ((nd t g).out (some s)) ((nd t g).inAlt (some s2)) ∧
          (nd t g).out (some s2) = min ((nd t g).out (some s)) ((nd t g).inAlt (some s1))) ∧
        (nd t g).out (some (S.length - 1)) = ⊤ := by
  have h3 := hwS.1
  obtain ⟨v, t, e, _, _, hI, _⟩ := UMPR_run hwG hwS hdS hm PL Pd Pt hfG hfS
  refine ⟨v, t, e, ?_⟩
  intro g hk hg
  obtain ⟨c1, c2, _, _, _, e1, e2, _, _⟩ := hwG.inner hg hk
  rw [hI g c1 c2 hg e1 e2]
  constructor
  · intro s s1 s2 hs a1 a2
    have := procN_out_rec hwS Pd Pt PL hfS (nd t c1) (nd t c2) (initNode S (nd geneT g) [])
      hs a1 a2
    rw [Min2_eq_min, Min2_eq_min] at this
    exact this
  · rw [procN_out_root hwS Pd Pt PL hfS]
    have := get_initNode S (nd geneT g) [] Field.out (some (S.length - 1))
    rw [if_pos ⟨S.length - 1, by omega, rfl⟩] at this
    exact this

/-- A concrete instance of `UMPR_out`: the trees and weights of `main`. -/
theorem UMPR_out_witness :
    WellFormed mainGeneTree ∧ WellFormed mainSpeciesTree ∧ DistinctLabels mainSpeciesTree ∧
    LeavesMapped mainGeneTree mainSpeciesTree ∧
    ∃ v t, UMPR 7 mainGeneTree mainSpeciesTree mainGeneTree.length mainSpeciesTree.length
      3 2 1 = Except.ok (v, t) ∧
      ∀ g, (mainGeneTree.length + 1) / 2 ≤ g → g < mainGeneTree.length →
        (∀ s s1 s2, s < mainSpeciesTree.length → (nd mainSpeciesTree s).child1 = some s1 →
          (nd mainSpeciesTree s).child2 = some s2 →
          (nd t g).out (some s1) = min ((nd t g).out (some s)) ((nd t g).inAlt (some s2)) ∧
          (nd t g).out (some s2) = min ((nd t g).out (some s)) ((nd t g).inAlt (some s1))) ∧
        (nd t g).out (some (mainSpeciesTree.length - 1)) = ⊤ :=
  ⟨by decide, by decide, by decide, by decide,
    UMPR_out mainGeneTree mainSpeciesTree 3 2 1 7 (by decide) (by decide) (by decide)
      (by decide) (by decide) (by decide)⟩

/-! ### Small parsimony -/

namespace Parsimony

set_option maxRecDepth 1000000 in
/-- C15 (the code departs from the claim).  On the tree of `main` with the leaves A, T,
C, G and the matrix `gapMatrix`, whatever number `r` is drawn: the run returns, the
score stored at the root is 9 for each nucleotide and 10 for the gap, every internal
node gets the symbol drawn for the root, and the labelling has parsimony score 9.  The
labelling of the same tree with a gap at every internal node has parsimony score 8:
neither the stored score for the gap nor the labelling produced is minimal. -/
theorem MinimumParsimony_not_minimal :
    (∀ r : Fin 4,
      scoreOf (MinimumParsimony 7 (fun _ => r.val) ["A", "T", "C", "G"] gapMatrix mainTree
          nucList) 6 = some [9, 9, 9, 9, 10] ∧
      labelsOf (MinimumParsimony 7 (fun _ => r.val) ["A", "T", "C", "G"] gapMatrix mainTree
          nucList) = some ["A", "T", "C", "G", nucList.getD r.val "", nucList.getD r.val "",
            nucList.getD r.val ""] ∧
      pointersOf (MinimumParsimony 7 (fun _ => r.val) ["A", "T", "C", "G"] gapMatrix mainTree
          nucList) = some (gapLabelled.map fun n => (n.parent, n.child1, n.child2)) ∧
      scoreOfRun (MinimumParsimony 7 (fun _ => r.val) ["A", "T", "C", "G"] gapMatrix mainTree
          nucList) gapMatrix nucList 0 = some 9) ∧
    gapLabelled.map (fun n => n.label) = ["A", "T", "C", "G", "-", "-", "-"] ∧
    nucList[4]? = some "-" ∧
    parsimonyScore gapLabelled gapMatrix nucList 0 = some 8 := by
  decide

end Parsimony

/-! ### Reconciliation by last common ancestors -/

namespace Method1

theorem getElem?_node {t : Tree} {i : Nat} (h : i < t.length) : t[i]? = some (nd t i) := by
  unfold nd
  rw [List.getElem?_eq_getElem h]
  rfl

theorem node_of_getElem? {t : Tree} {i : Nat} {n : Node} (h : t[i]? = some n) :
    nd t i = n := by
  unfold nd
  rw [h]
  rfl

theorem node_set_eq {t : Tree} {g : Nat} (n : Node) (h : g < t.length) :
    nd (t.set g n) g = n := by
  unfold nd
  rw [List.getElem?_set_self h]
  rfl

theorem node_set_ne {t : Tree} {g x : Nat} (n : Node) (h : x ≠ g) :
    nd (t.set g n) x = nd t x := by
  unfold nd
  rw [List.getElem?_set_ne (Ne.symm h)]

theorem skeleton_length (t : Tree) : (skeleton t).length = t.length := by
  unfold skeleton
  simp

theorem skeleton_node (t : Tree) (i : Nat) :
    Recon.nd (skeleton t) i =
      mkInner (nd t i).label (nd t i).parent (nd t i).child1 (nd t i).child2 := by
  unfold Recon.nd nd skeleton
  rw [List.getElem?_map]
  cases t[i]? with
  | none => rfl
  | some n => rfl

theorem skeleton_parent (t : Tree) (i : Nat) :
    (Recon.nd (skeleton t) i).parent = (nd t i).parent := by
  rw [skeleton_node]
  rfl

theorem skeleton_child1 (t : Tree) (i : Nat) :
    (Recon.nd (skeleton t) i).child1 = (nd t i).child1 := by
  rw [skeleton_node]
  rfl

theorem skeleton_child2 (t : Tree) (i : Nat) :
    (Recon.nd (skeleton t) i).child2 = (nd t i).child2 := by
  rw [skeleton_node]
  rfl

theorem skeleton_set_number (t : Tree) (r : Nat) (k : Int) :
    skeleton (t.set r ⟨(nd t r).label, (nd t r).child1, (nd t r).child2, (nd t r).parent, k,
      (nd t r).event⟩) = skeleton t := by
  unfold skeleton
  apply List.ext_getElem?
  intro i
  rw [List.getElem?_map, List.getElem?_map]
  by_cases hi : i = r
  · subst hi
    by_cases hl : i < t.length
    · rw [List.getElem?_set_self hl, getElem?_node hl]
      rfl
    · rw [List.getElem?_eq_none (by simpa using hl), List.getElem?_eq_none (by simpa using hl)]
  · rw [List.getElem?_set_ne (Ne.symm hi)]

end Method1

namespace Method1

/-- What a call of `InitializeSTree` at the species node `r` leaves behind, from the
state `(t, n)` to the state `(t1, n1)`. -/
theorem InitializeSTree_spec {T : Recon.Tree} (hw : WellFormed T) (r : Nat) :
    r < T.length → ∀ (fuel : Nat) (t : Tree) (n : Int), r < fuel → skeleton t = T →
    ∃ t1 n1, InitializeSTree fuel (t, n) (some r) = Except.ok (t1, n1) ∧ skeleton t1 = T ∧
      n < n1 ∧
      (∀ x, ¬ Desc T r x → nd t1 x = nd t x) ∧
      (nd t1 r).number = n ∧
      (∀ x, Desc T r x → n ≤ (nd t1 x).number ∧ (nd t1 x).number < n1) ∧
      (∀ x y, Desc T r x → Desc T r y → (nd t1 x).number = (nd t1 y).number → x = y) ∧
      (∀ x p, Desc T r x → x ≠ r → (nd t1 x).parent = some p →
        (nd t1 p).number < (nd t1 x).number) := by
  induction r using Nat.strong_induction_on with
  | _ r ih =>
    intro hr fuel t n hf hT
    obtain ⟨fuel, rfl⟩ : ∃ k, fuel = k + 1 := ⟨fuel - 1, by omega⟩
    have hlen : t.length = T.length := by rw [← hT, skeleton_length]
    have hrt : r < t.length := by omega
    obtain ⟨m, hm⟩ : ∃ m : Node, m = ⟨(nd t r).label, (nd t r).child1, (nd t r).child2,
        (nd t r).parent, n, (nd t r).event⟩ := ⟨_, rfl⟩
    have hset : skeleton (t.set r m) = T := by
      rw [hm, skeleton_set_number, hT]
    have hmn : m.number = n := by rw [hm]
    have hch1 : (nd t r).child1 = (Recon.nd T r).child1 := by rw [← hT, skeleton_child1]
    have hch2 : (nd t r).child2 = (Recon.nd T r).child2 := by rw [← hT, skeleton_child2]
    have hpar : ∀ (u : Tree), skeleton u = T → ∀ x, (nd u x).parent = (Recon.nd T x).parent := by
      intro u hu x
      rw [← hu, skeleton_parent]
    unfold InitializeSTree
    simp only [getElem?_node hrt, ← hm]
    by_cases hk : r < (T.length + 1) / 2
    · -- a leaf
      obtain ⟨h1, h2⟩ := hw.leaf hk
      rw [hch1, hch2, h1, h2]
      simp only [ne_eq, not_true_eq_false, if_false]
      have hD : ∀ x, Desc T r x → x = r := by
        intro x hx
        rcases Desc_cases hx with h | ⟨c, hc, _⟩ | ⟨c, hc, _⟩
        · exact h
        · rw [h1] at hc; exact absurd hc (by simp)
        · rw [h2] at hc; exact absurd hc (by simp)
      refine ⟨_, _, rfl, hset, by omega, ?_, ?_, ?_, ?_, ?_⟩
      · intro x hx
        have hne : x ≠ r := fun h => hx (by rw [h]; exact Desc.here r)
        rw [node_set_ne _ hne]
      · rw [node_set_eq _ hrt, hmn]
      · intro x hx
        rw [hD x hx, node_set_eq _ hrt, hmn]
        constructor <;> omega
      · intro x y hx hy _
        rw [hD x hx, hD y hy]
      · intro x p hx hne _
        exact absurd (hD x hx) hne
    · -- an internal node
      obtain ⟨c1, c2, hc1, hc2, hne, h1, h2, hp1, hp2⟩ := hw.inner hr (not_lt.mp hk)
      rw [hch1, hch2, h1, h2]
      simp only [ne_eq, not_false_eq_true, if_true, reduceCtorEq]
      obtain ⟨t2, n2, e2, hT2, hn2, out2, _, rg2, inj2, par2⟩ :=
        ih c1 hc1 (by omega) fuel (t.set r m) (n + 1) (by omega) hset
      obtain ⟨t3, n3, e3, hT3, hn3, out3, _, rg3, inj3, par3⟩ :=
        ih c2 hc2 (by omega) fuel t2 n2 (by omega) hT2
      rw [e2]
      simp only []
      rw [e3]
      have hD : ∀ x, Desc T r x → x = r ∨ Desc T c1 x ∨ Desc T c2 x := by
        intro x hx
        rcases Desc_cases hx with h | ⟨c, hc, hd⟩ | ⟨c, hc, hd⟩
        · exact Or.inl h
        · rw [h1] at hc; cases hc; exact Or.inr (Or.inl hd)
        · rw [h2] at hc; cases hc; exact Or.inr (Or.inr hd)
      have hdis : ∀ x, Desc T c1 x → Desc T c2 x → False := fun x hx1 hx2 =>
        subtree_disjoint hw hr hp1 hp2 hc1 hc2 hne hx1 hx2
      have hr1 : ¬ Desc T c1 r := fun h => by have := Desc_le hw h; omega
      have hr2 : ¬ Desc T c2 r := fun h => by have := Desc_le hw h; omega
      -- the records after the call
      have hAtR : nd t3 r = m := by
        rw [out3 r hr2, out2 r hr1, node_set_eq _ hrt]
      have hAt1 : ∀ x, Desc T c1 x → nd t3 x = nd t2 x := fun x hx =>
        out3 x (fun h => hdis x hx h)
      have numR : (nd t3 r).number = n := by rw [hAtR, hmn]
      have num1 : ∀ x, Desc T c1 x → n + 1 ≤ (nd t3 x).number ∧ (nd t3 x).number < n2 := by
        intro x hx
        rw [hAt1 x hx]
        exact rg2 x hx
      refine ⟨t3, n3, rfl, hT3, by omega, ?_, numR, ?_, ?_, ?_⟩
      · intro x hx
        have hxr : x ≠ r := fun h => hx (by rw [h]; exact Desc.here r)
        have hx1 : ¬ Desc T c1 x := fun h => hx (Desc.left h1 h)
        have hx2 : ¬ Desc T c2 x := fun h => hx (Desc.right h2 h)
        rw [out3 x hx2, out2 x hx1, node_set_ne _ hxr]
      · intro x hx
        rcases hD x hx with h | h | h
        · rw [h, numR]
          omega
        · have := num1 x h
          omega
        · have := rg3 x h
          omega
      · intro x y hx hy hxy
        rcases hD x hx with h | h | h <;> rcases hD y hy with k | k | k
        · rw [h, k]
        · have := num1 y k
          rw [h, numR] at hxy
          omega
        · have := rg3 y k
          rw [h, numR] at hxy
          omega
        · have := num1 x h
          rw [k, numR] at hxy
          omega
        · rw [hAt1 x h, hAt1 y k] at hxy
          exact inj2 x y h k hxy
        · have := num1 x h
          have := rg3 y k
          omega
        · have := rg3 x h
          rw [k, numR] at hxy
          omega
        · have := num1 y k
          have := rg3 x h
          omega
        · exact inj3 x y h k hxy
      · intro x p hx hxr hp
        have hpT : (Recon.nd T x).parent = some p := by rw [← hpar t3 hT3 x, hp]
        rcases hD x hx with h | h | h
        · exact absurd h hxr
        · by_cases hxc : x = c1
          · subst hxc
            rw [hp1] at hpT
            cases hpT
            have := num1 x (Desc.here x)
            omega
          · obtain ⟨q, hq, hdq⟩ := Desc_parent hw (by omega) h hxc
            rw [hpT] at hq
            cases hq
            rw [hAt1 x h, hAt1 p hdq]
            refine par2 x p h hxc ?_
            rw [hpar t2 hT2 x, hpT]
        · by_cases hxc : x = c2
          · subst hxc
            rw [hp2] at hpT
            cases hpT
            have := rg3 x (Desc.here x)
            omega
          · exact par3 x p h hxc hp

/-- After `InitializeSTree` from the root with the counter at 1, the species tree is
numbered, and its pointers are the ones it had. -/
theorem InitializeSTree_numbered {S0 S : Tree} {k : Int} {fuel : Nat}
    (hw : WellFormed (skeleton S0)) (hf : S0.length ≤ fuel)
    (hS : InitializeSTree fuel (S0, 1) (some (S0.length - 1)) = Except.ok (S, k)) :
    skeleton S = skeleton S0 ∧ Numbered S := by
  have hlen0 : (skeleton S0).length = S0.length := skeleton_length S0
  have h3 : 3 ≤ (skeleton S0).length := hw.1
  obtain ⟨t1, n1, e1, hT1, _, _, _, rg, inj, par⟩ :=
    InitializeSTree_spec hw (S0.length - 1) (by omega) fuel S0 1 (by omega) rfl
  rw [hS] at e1
  cases e1
  have hlen : S.length = S0.length := by rw [← skeleton_length S, hT1, hlen0]
  have hroot : ∀ x, x < S.length → Desc (skeleton S0) (S0.length - 1) x := by
    intro x hx
    have := Desc_root hw (x := x) (by omega)
    rwa [hlen0] at this
  refine ⟨hT1, ?_, ?_, ?_⟩
  · intro x hx
    exact (rg x (hroot x hx)).1
  · intro x y hx hy hxy
    exact inj x y (hroot x hx) (hroot y hy) hxy
  · intro x p hx hp
    refine par x p (hroot x hx) ?_ hp
    intro hxr
    have hnone : (Recon.nd (skeleton S0) ((skeleton S0).length - 1)).parent = none :=
      hw.2.2.2.2.1
    rw [hlen0, ← hT1, skeleton_parent, ← hxr, hp] at hnone
    exact absurd hnone (by simp)

end Method1

namespace Method1

theorem scan_drop {S : Tree} (hN : Numbered S) {x p : Nat} (hx : x < S.length)
    (hp : (nd S x).parent = some p) (hpl : p < S.length) :
    ∀ d k, k + d = x →
      FindParentNum.scan S (nd S x).number (S.drop k) = Except.ok (nd S p).number := by
  intro d
  induction d with
  | zero =>
    intro k hk
    have hkx : k = x := by omega
    subst hkx
    have hcons : S.drop k = nd S k :: S.drop (k + 1) := by
      rw [List.drop_eq_getElem_cons hx]
      congr 1
      have h1 := getElem?_node hx
      rw [List.getElem?_eq_getElem hx] at h1
      exact Option.some.inj h1
    rw [hcons]
    unfold FindParentNum.scan
    simp only [if_true, hp, deref, getElem?_node hpl]
  | succ d ih =>
    intro k hk
    have hkl : k < S.length := by omega
    have hcons : S.drop k = nd S k :: S.drop (k + 1) := by
      rw [List.drop_eq_getElem_cons hkl]
      congr 1
      have h1 := getElem?_node hkl
      rw [List.getElem?_eq_getElem hkl] at h1
      exact Option.some.inj h1
    rw [hcons]
    unfold FindParentNum.scan
    have hne : (nd S k).number ≠ (nd S x).number := by
      intro h
      have := hN.2.1 k x hkl hx h
      omega
    rw [if_neg hne]
    exact ih (k + 1) (by omega)

/-- In a numbered tree `FindParentNum` returns the number of the parent. -/
theorem FindParentNum_eq {S : Tree} (hN : Numbered S) {x p : Nat} (hx : x < S.length)
    (hp : (nd S x).parent = some p) (hpl : p < S.length) :
    FindParentNum S (nd S x).number = Except.ok (nd S p).number := by
  unfold FindParentNum
  have := scan_drop hN hx hp hpl x 0 (by omega)
  rwa [List.drop_zero] at this

/-- A node that lies strictly above another one has the smaller number. -/
theorem number_lt_of_Desc {S : Tree} (hw : WellFormed (skeleton S)) (hN : Numbered S)
    {z y : Nat} (hd : Desc (skeleton S) z y) (hne : z ≠ y) :
    (nd S z).number < (nd S y).number := by
  have hlen : (skeleton S).length = S.length := skeleton_length S
  induction hd with
  | here s => exact absurd rfl hne
  | @left s c x hc hcx ih =>
    by_cases hs : s < (skeleton S).length
    · obtain ⟨hcs, hpar, _⟩ := hw.child1_lt hs hc
      rw [skeleton_parent] at hpar
      have h1 := hN.2.2 c s (by omega) hpar
      by_cases hcx2 : c = x
      · rw [← hcx2]; exact h1
      · exact lt_trans h1 (ih hcx2)
    · rw [nd_default_of_le (not_lt.mp hs)] at hc
      exact absurd hc (by simp [default])
  | @right s c x hc hcx ih =>
    by_cases hs : s < (skeleton S).length
    · obtain ⟨hcs, hpar, _⟩ := hw.child2_lt hs hc
      rw [skeleton_parent] at hpar
      have h1 := hN.2.2 c s (by omega) hpar
      by_cases hcx2 : c = x
      · rw [← hcx2]; exact h1
      · exact lt_trans h1 (ih hcx2)
    · rw [nd_default_of_le (not_lt.mp hs)] at hc
      exact absurd hc (by simp [default])

/-- Only a node of the slice lies above another node. -/
theorem Desc_lt_length {T : Recon.Tree} {w x : Nat} (hd : Desc T w x) (hne : w ≠ x) :
    w < T.length := by
  by_contra hc
  rcases Desc_cases hd with h | ⟨c, h, _⟩ | ⟨c, h, _⟩
  · exact hne h.symm
  · rw [nd_default_of_le (not_lt.mp hc)] at h
    exact absurd h (by simp [default])
  · rw [nd_default_of_le (not_lt.mp hc)] at h
    exact absurd h (by simp [default])

/-- One step up: when the number of `x` exceeds the number of `y`, the node at `x` has a
parent, and the nodes above both `x` and `y` are the nodes above both the parent and
`y`. -/
theorem step_up {S : Tree} (hw : WellFormed (skeleton S)) (hN : Numbered S) {x y : Nat}
    (hx : x < S.length) (hy : y < S.length) (hgt : (nd S y).number < (nd S x).number) :
    ∃ p, p < S.length ∧ x < p ∧ (nd S x).parent = some p ∧ Desc (skeleton S) p x ∧
      ∀ w, Desc (skeleton S) w x → Desc (skeleton S) w y → Desc (skeleton S) w p := by
  have hlen : (skeleton S).length = S.length := skeleton_length S
  have hxy : x ≠ y := fun h => by rw [h] at hgt; exact lt_irrefl _ hgt
  have hnd : ¬ Desc (skeleton S) x y := by
    intro h
    have := number_lt_of_Desc hw hN h hxy
    omega
  have hxr : x < (skeleton S).length - 1 := by
    by_contra hc
    have hroot : x = (skeleton S).length - 1 := by omega
    have := Desc_root hw (x := y) (by omega)
    rw [← hroot] at this
    exact hnd this
  obtain ⟨p, hp1, hp2, hp3, hp4⟩ := hw.2.2.2.2.2 x hxr
  have hdpx : Desc (skeleton S) p x := by
    rcases hp4 with h | h
    · exact Desc.left h (Desc.here x)
    · exact Desc.right h (Desc.here x)
  refine ⟨p, by omega, hp2, by rw [← skeleton_parent, hp3], hdpx, ?_⟩
  intro w hwx hwy
  have hwne : w ≠ x := fun h => hnd (h ▸ hwy)
  have hwl := Desc_lt_length hwx hwne
  obtain ⟨q, hq, hdq⟩ := Desc_parent hw hwl hwx (Ne.symm hwne)
  rw [hp3] at hq
  cases hq
  exact hdq

/-- The loop of `TraverseGTree` ends at the number of the last common ancestor. -/
theorem climb_lca {S : Tree} (hw : WellFormed (skeleton S)) (hN : Numbered S) :
    ∀ (fuel x y : Nat), x < S.length → y < S.length →
      (S.length - x) + (S.length - y) ≤ fuel + 1 →
      ∃ z, z < S.length ∧
        TraverseGTree.climb S fuel (nd S x).number (nd S y).number =
          Except.ok (nd S z).number ∧ IsLCA S z x y := by
  intro fuel
  induction fuel with
  | zero =>
    intro x y hx hy hm
    omega
  | succ fuel ih =>
    intro x y hx hy hm
    unfold TraverseGTree.climb
    by_cases hab : (nd S x).number = (nd S y).number
    · have hxy := hN.2.1 x y hx hy hab
      subst hxy
      rw [if_pos hab]
      exact ⟨x, hx, rfl, Desc.here x, Desc.here x, fun w h _ => h⟩
    · rw [if_neg hab]
      by_cases hgt : (nd S x).number > (nd S y).number
      · rw [if_pos hgt]
        obtain ⟨p, hpl, hxp, hp, hdpx, hup⟩ := step_up hw hN hx hy hgt
        rw [FindParentNum_eq hN hx hp hpl]
        obtain ⟨z, hz, ez, h1, h2, h3⟩ := ih p y hpl hy (by omega)
        exact ⟨z, hz, ez, Desc_trans h1 hdpx, h2, fun w hwx hwy => h3 w (hup w hwx hwy) hwy⟩
      · rw [if_neg hgt]
        have hlt : (nd S x).number < (nd S y).number := by omega
        obtain ⟨p, hpl, hyp, hp, hdpy, hup⟩ := step_up hw hN hy hx hlt
        rw [FindParentNum_eq hN hy hp hpl]
        obtain ⟨z, hz, ez, h1, h2, h3⟩ := ih x p hx hpl (by omega)
        exact ⟨z, hz, ez, h1, Desc_trans h2 hdpy, fun w hwx hwy => h3 w hwx (hup w hwy hwx)⟩

end Method1

namespace Method1

theorem loop_range_succ {σ : Type} (f : σ → Nat → Except Fault σ) (i m : Nat) (s : σ) :
    loop f (List.range' i (m + 1)) s =
      match f s i with
      | .error e => .error e
      | .ok s1 => loop f (List.range' (i + 1) m) s1 := by
  rw [List.range'_succ]
  rfl

/-- One round of the outer loop of `TraverseGTree`, at a node whose children stand
earlier in the slice and carry numbers of species nodes. -/
theorem TraverseGTree_step {S G : Tree} (hw : WellFormed (skeleton S)) (hN : Numbered S)
    {fuel : Nat} (hf : 2 * S.length ≤ fuel + 1) {i c1 c2 x y : Nat} (hi : i < G.length)
    (h1 : (nd G i).child1 = some c1) (h2 : (nd G i).child2 = some c2)
    (hc1 : c1 < i) (hc2 : c2 < i) (hx : x < S.length) (hy : y < S.length)
    (hnx : (nd G c1).number = (nd S x).number) (hny : (nd G c2).number = (nd S y).number) :
    ∃ z G1, z < S.length ∧ IsLCA S z x y ∧ TraverseGTree.step fuel S G i = Except.ok G1 ∧
      G1.length = G.length ∧ (∀ j, j ≠ i → nd G1 j = nd G j) ∧
      (nd G1 i).child1 = some c1 ∧ (nd G1 i).child2 = some c2 ∧
      (nd G1 i).number = (nd S z).number ∧
      (nd G1 i).event = (nd G i).event ++
        (if (nd S z).number = (nd G c1).number ∨ (nd S z).number = (nd G c2).number
         then "duplication" else "speciation") := by
  obtain ⟨z, hz, ez, hlca⟩ := climb_lca hw hN fuel x y hx hy (by omega)
  have hc1l : c1 < G.length := by omega
  have hc2l : c2 < G.length := by omega
  refine ⟨z, (G.set i { nd G i with number := (nd S z).number }).set i
      { nd G i with
        number := (nd S z).number
        event := (nd G i).event ++
          TraverseGTree.event (G.set i { nd G i with number := (nd S z).number }) i c1 c2 },
    hz, hlca, ?_, ?_, ?_, ?_, ?_, ?_, ?_⟩
  · unfold TraverseGTree.step
    simp only [getElem?_node hi, h1, h2, deref, getElem?_node hc1l, getElem?_node hc2l,
      hnx, hny, ez]
  · simp
  · intro j hj
    rw [node_set_ne _ hj, node_set_ne _ hj]
  · rw [node_set_eq _ (by simpa using hi)]
    exact h1
  · rw [node_set_eq _ (by simpa using hi)]
    exact h2
  · rw [node_set_eq _ (by simpa using hi)]
  · rw [node_set_eq _ (by simpa using hi)]
    simp only [TraverseGTree.event]
    rw [node_set_eq _ hi, node_set_ne _ (by omega : c1 ≠ i), node_set_ne _ (by omega : c2 ≠ i)]

/-- The outer loop of `TraverseGTree` from the position `i` on. -/
theorem TraverseGTree_loop {S G0 : Tree} (hw : WellFormed (skeleton S)) (hN : Numbered S)
    {speciesnum fuel : Nat} (hG : GeneOK G0 S speciesnum) (hf : 2 * S.length ≤ fuel + 1) :
    ∀ (m i : Nat) (G : Tree), i + m = G0.length → speciesnum ≤ i →
      G.length = G0.length →
      (∀ j, i ≤ j → nd G j = nd G0 j) →
      (∀ j, j < i → ∃ s, s < S.length ∧ (nd G j).number = (nd S s).number) →
      (∀ j, speciesnum ≤ j → j < i →
        ∃ c1 c2 x y z, (nd G0 j).child1 = some c1 ∧ (nd G0 j).child2 = some c2 ∧
          c1 < j ∧ c2 < j ∧ x < S.length ∧ y < S.length ∧ z < S.length ∧
          (nd S x).number = (nd G c1).number ∧ (nd S y).number = (nd G c2).number ∧
          IsLCA S z x y ∧ (nd G j).number = (nd S z).number ∧
          (nd G j).event = (nd G0 j).event ++
            (if (nd G j).number = (nd G c1).number ∨ (nd G j).number = (nd G c2).number
             then "duplication" else "speciation")) →
      ∃ G1, loop (TraverseGTree.step fuel S) (List.range' i m) G = Except.ok G1 ∧
        ∀ j, speciesnum ≤ j → j < G0.length →
          ∃ c1 c2 x y z, (nd G0 j).child1 = some c1 ∧ (nd G0 j).child2 = some c2 ∧
            c1 < j ∧ c2 < j ∧ x < S.length ∧ y < S.length ∧ z < S.length ∧
            (nd S x).number = (nd G1 c1).number ∧ (nd S y).number = (nd G1 c2).number ∧
            IsLCA S z x y ∧ (nd G1 j).number = (nd S z).number ∧
            (nd G1 j).event = (nd G0 j).event ++
              (if (nd G1 j).number = (nd G1 c1).number ∨ (nd G1 j).number = (nd G1 c2).number
               then "duplication" else "speciation") := by
  intro m
  induction m with
  | zero =>
    intro i G him hni hlen hrest hnum hdone
    refine ⟨G, rfl, ?_⟩
    intro j hj hjl
    exact hdone j hj (by omega)
  | succ m ih =>
    intro i G him hni hlen hrest hnum hdone
    have hil : i < G0.length := by omega
    obtain ⟨c1, hc1, c2, hc2, h1, h2⟩ := hG.2 i hil hni
    obtain ⟨x, hx, hnx⟩ := hnum c1 hc1
    obtain ⟨y, hy, hny⟩ := hnum c2 hc2
    rw [← hrest i (le_refl i)] at h1 h2
    obtain ⟨z, G1, hz, hlca, e1, hlen1, hother, _, _, hnz, hev⟩ :=
      TraverseGTree_step hw hN hf (by omega : i < G.length) h1 h2 hc1 hc2 hx hy hnx hny
    rw [loop_range_succ, e1]
    simp only []
    refine ih (i + 1) G1 (by omega) (by omega) (by omega) ?_ ?_ ?_
    · intro j hj
      rw [hother j (by omega)]
      exact hrest j (by omega)
    · intro j hj
      by_cases hji : j = i
      · subst hji
        exact ⟨z, hz, hnz⟩
      · rw [hother j hji]
        exact hnum j (by omega)
    · intro j hj hji
      by_cases hjeq : j = i
      · subst hjeq
        rw [hrest j (le_refl j)] at h1 h2
        refine ⟨c1, c2, x, y, z, h1, h2, hc1, hc2, hx, hy, hz, ?_, ?_, hlca, hnz, ?_⟩
        · rw [hother c1 (by omega), hnx]
        · rw [hother c2 (by omega), hny]
        · rw [hev, hnz, hother c1 (by omega), hother c2 (by omega), hrest j (le_refl j)]
      · obtain ⟨d1, d2, x1, y1, z1, k1, k2, k3, k4, k5, k6, k7, k8, k9, k10, k11, k12⟩ :=
          hdone j hj (by omega)
        refine ⟨d1, d2, x1, y1, z1, k1, k2, k3, k4, k5, k6, k7, ?_, ?_, k10, ?_, ?_⟩
        · rw [hother d1 (by omega)]; exact k8
        · rw [hother d2 (by omega)]; exact k9
        · rw [hother j hjeq]; exact k11
        · rw [hother j hjeq, hother d1 (by omega), hother d2 (by omega)]; exact k12

end Method1

namespace Method1

/-- C16.  Let the species tree `S0` be a rooted binary tree and `S` the tree that
`InitializeSTree` makes of it from the root with the counter at 1, and let the gene
tree `G` have, below the position `speciesnum`, leaves that carry numbers of species
nodes and, from `speciesnum` on, nodes whose children stand earlier in the slice.
Then `TraverseGTree` returns (with fuel for twice the length of the species tree), and
every gene node from `speciesnum` on has the number of the last common ancestor `z` of
the species nodes `x` and `y` whose numbers its two children have; its event is the
event it had, followed by "duplication" when its number is the number of one of its
children and by "speciation" otherwise, so that a node without an event ends with
exactly that word. -/
theorem TraverseGTree_lca (S0 S G : Tree) (k : Int) (speciesnum fuelS fuel : Nat)
    (hw : WellFormed (skeleton S0)) (hfS : S0.length ≤ fuelS)
    (hS : InitializeSTree fuelS (S0, 1) (some (S0.length - 1)) = Except.ok (S, k))
    (hG : GeneOK G S speciesnum) (hf : 2 * S.length ≤ fuel) :
    ∃ G1, TraverseGTree fuel G S speciesnum = Except.ok G1 ∧
      ∀ i, speciesnum ≤ i → i < G.length →
        ∃ c1 c2 x y z, (nd G i).child1 = some c1 ∧ (nd G i).child2 = some c2 ∧
          x < S.length ∧ y < S.length ∧ z < S.length ∧
          (nd S x).number = (nd G1 c1).number ∧ (nd S y).number = (nd G1 c2).number ∧
          IsLCA S z x y ∧ (nd G1 i).number = (nd S z).number ∧
          (nd G1 i).event = (nd G i).event ++
            (if (nd G1 i).number = (nd G1 c1).number ∨ (nd G1 i).number = (nd G1 c2).number
             then "duplication" else "speciation") ∧
          ((nd G i).event = "" →
            ((nd G1 i).event = "duplication" ↔
              ((nd G1 i).number = (nd G1 c1).number ∨ (nd G1 i).number = (nd G1 c2).number)) ∧
            ((nd G1 i).event = "speciation" ↔
              ¬ ((nd G1 i).number = (nd G1 c1).number ∨
                (nd G1 i).number = (nd G1 c2).number))) := by
  obtain ⟨hsk, hN⟩ := InitializeSTree_numbered hw hfS hS
  have hwS : WellFormed (skeleton S) := by rw [hsk]; exact hw
  by_cases hn : speciesnum ≤ G.length
  · obtain ⟨G1, e, h⟩ := TraverseGTree_loop hwS hN hG (by omega : 2 * S.length ≤ fuel + 1)
      (G.length - speciesnum) speciesnum G (by omega) (le_refl _) rfl (fun j _ => rfl) hG.1
      (fun j h1 h2 => by omega)
    refine ⟨G1, e, ?_⟩
    intro i hi hil
    obtain ⟨c1, c2, x, y, z, k1, k2, _, _, k5, k6, k7, k8, k9, k10, k11, k12⟩ := h i hi hil
    refine ⟨c1, c2, x, y, z, k1, k2, k5, k6, k7, k8, k9, k10, k11, k12, ?_⟩
    intro he
    rw [k12, he]
    by_cases hc : (nd G1 i).number = (nd G1 c1).number ∨ (nd G1 i).number = (nd G1 c2).number
    · rw [if_pos hc]
      exact ⟨⟨fun _ => hc, fun _ => by decide⟩,
        ⟨fun h => absurd h (by decide), fun h => absurd hc h⟩⟩
    · rw [if_neg hc]
      exact ⟨⟨fun h => absurd h (by decide), fun h => absurd h hc⟩,
        ⟨fun _ => hc, fun _ => by decide⟩⟩
  · refine ⟨G, ?_, ?_⟩
    · unfold TraverseGTree
      have h0 : G.length - speciesnum = 0 := by omega
      rw [h0]
      rfl
    · intro i hi hil
      omega

/-- Witness for C16: the trees of `main`, the species tree numbered in preorder and the
gene leaves numbered by `InitializeGTree`. -/
theorem TraverseGTree_lca_witness :
    WellFormed (skeleton mainSpeciesTree) ∧
    InitializeSTree 7 (mainSpeciesTree, 1) (some (mainSpeciesTree.length - 1)) =
      Except.ok (numberedSpeciesTree, 8) ∧
    InitializeGTree mainGeneTree numberedSpeciesTree 4 = Except.ok numberedGeneTree ∧
    GeneOK numberedGeneTree numberedSpeciesTree 4 ∧
    ∃ G1, TraverseGTree 14 numberedGeneTree numberedSpeciesTree 4 = Except.ok G1 ∧
      ∀ i, 4 ≤ i → i < numberedGeneTree.length →
        ∃ c1 c2 x y z, (nd numberedGeneTree i).child1 = some c1 ∧
          (nd numberedGeneTree i).child2 = some c2 ∧
          x < numberedSpeciesTree.length ∧ y < numberedSpeciesTree.length ∧
          z < numberedSpeciesTree.length ∧
          (nd numberedSpeciesTree x).number = (nd G1 c1).number ∧
          (nd numberedSpeciesTree y).number = (nd G1 c2).number ∧
          IsLCA numberedSpeciesTree z x y ∧
          (nd G1 i).number = (nd numberedSpeciesTree z).number ∧
          (nd G1 i).event = (nd numberedGeneTree i).event ++
            (if (nd G1 i).number = (nd G1 c1).number ∨ (nd G1 i).number = (nd G1 c2).number
             then "duplication" else "speciation") ∧
          ((nd numberedGeneTree i).event = "" →
            ((nd G1 i).event = "duplication" ↔
              ((nd G1 i).number = (nd G1 c1).number ∨ (nd G1 i).number = (nd G1 c2).number)) ∧
            ((nd G1 i).event = "speciation" ↔
              ¬ ((nd G1 i).number = (nd G1 c1).number ∨
                (nd G1 i).number = (nd G1 c2).number))) :=
  ⟨by decide, by decide, by decide, by decide,
    TraverseGTree_lca mainSpeciesTree numberedSpeciesTree numberedGeneTree 8 4 7 14
      (by decide) (by decide) (by decide) (by decide) (by decide)⟩

end Method1

/-! ### More on the records of the gene nodes -/

/-- The `out` map of a gene leaf after the leaf loop: 0 at the species leaves with
another label, +Inf at every other species node. -/
theorem leafNode_out (S : Tree) (PL : Int) (fuel : Nat) (n : Node) {s : Nat}
    (hs : s < S.length) :
    (leafNode S PL fuel n).out (some s) =
      if s < (S.length + 1) / 2 ∧ (nd S s).label ≠ n.label then 0 else ⊤ := by
  unfold leafNode
  have a := get_leafOut S (List.range ((S.length + 1) / 2))
    (UMPR.leafIn PL (ancestorsP S fuel (labelMatches S ((S.length + 1) / 2) n.label))
      (UMPR.leafCost S (List.range ((S.length + 1) / 2))
        (initNode S n (labelMatches S ((S.length + 1) / 2) n.label)))) Field.out (some s)
  have b := get_leafIn_other PL (ancestorsP S fuel (labelMatches S ((S.length + 1) / 2) n.label))
    (UMPR.leafCost S (List.range ((S.length + 1) / 2))
      (initNode S n (labelMatches S ((S.length + 1) / 2) n.label))) Field.out (some s)
    (Or.inl ⟨by decide, by decide⟩)
  have c := get_leafCost S (List.range ((S.length + 1) / 2))
    (initNode S n (labelMatches S ((S.length + 1) / 2) n.label)) Field.out (some s)
  rw [if_neg (by simp)] at c
  have d := get_initNode S n (labelMatches S ((S.length + 1) / 2) n.label) Field.out (some s)
  rw [if_pos ⟨s, hs, rfl⟩] at d
  have hl : (UMPR.leafIn PL (ancestorsP S fuel (labelMatches S ((S.length + 1) / 2) n.label))
      (UMPR.leafCost S (List.range ((S.length + 1) / 2))
        (initNode S n (labelMatches S ((S.length + 1) / 2) n.label)))).label = n.label := by
    rw [← (leafIn_shape PL _ _).1, ← (leafCost_shape S _ _).1, (initNode_shape S n _).1]
  simp only [Node.get] at a b c d
  rw [a, b, c, d, hl]
  by_cases h : s < (S.length + 1) / 2 ∧ (nd S s).label ≠ n.label
  · rw [if_pos h, if_pos ⟨trivial, s, by simpa using h.1, rfl, h.2⟩]
  · rw [if_neg h, if_neg]
    rintro ⟨_, a, ha, hk, hl⟩
    cases hk
    exact h ⟨by simpa using ha, hl⟩

/-! ### The entries of the final maps -/

/-- C21: after `UMPR` on well-formed input, for every internal gene node `g` and every
internal species node `s` with children `s1`, `s2`,
`in[g][s] = min (cost[g][s]) (in[g][s1] + PLoss) (in[g][s2] + PLoss)`. -/
theorem UMPR_in_internal (geneT S : Tree) (PL Pd Pt : Int) (fuel : Nat)
    (hwG : WellFormed geneT) (hwS : WellFormed S) (hdS : DistinctLabels S)
    (hm : LeavesMapped geneT S) (hfG : geneT.length ≤ fuel) (hfS : S.length ≤ fuel) :
    ∃ v t, UMPR fuel geneT S geneT.length S.length PL Pd Pt = Except.ok (v, t) ∧
      ∀ g, (geneT.length + 1) / 2 ≤ g → g < geneT.length →
        ∀ s s1 s2, s < S.length → (nd S s).child1 = some s1 → (nd S s).child2 = some s2 →
          (nd t g).in_ (some s) =
            min (min ((nd t g).cost (some s)) ((nd t g).in_ (some s1) + (PL : Val)))
              ((nd t g).in_ (some s2) + (PL : Val)) := by
  obtain ⟨v, t, e, _, _, hI, _⟩ := UMPR_run hwG hwS hdS hm PL Pd Pt hfG hfS
  refine ⟨v, t, e, ?_⟩
  intro g hgk hg s s1 s2 hs e1 e2
  obtain ⟨c1, c2, _, _, _, k1, k2, _, _⟩ := hwG.inner hg hgk
  have st := procN_stable hwS Pd Pt PL hfS (nd t c1) (nd t c2)
    (initNode S (nd geneT g) []) hs
  rw [← hI g c1 c2 hg k1 k2] at st
  have hk := (hwS.child1_lt hs e1).2.2
  rw [st.in_eq, if_neg (by omega), e1, e2, Min3M_eq_min]

/-- A concrete instance of `UMPR_in_internal`: the trees and weights of `main`. -/
theorem UMPR_in_internal_witness :
    WellFormed mainGeneTree ∧ WellFormed mainSpeciesTree ∧ DistinctLabels mainSpeciesTree ∧
    LeavesMapped mainGeneTree mainSpeciesTree ∧
    ∃ v t, UMPR 7 mainGeneTree mainSpeciesTree mainGeneTree.length mainSpeciesTree.length
      3 2 1 = Except.ok (v, t) ∧
      ∀ g, (mainGeneTree.length + 1) / 2 ≤ g → g < mainGeneTree.length →
        ∀ s s1 s2, s < mainSpeciesTree.length → (nd mainSpeciesTree s).child1 = some s1 →
          (nd mainSpeciesTree s).child2 = some s2 →
          (nd t g).in_ (some s) =
            min (min ((nd t g).cost (some s)) ((nd t g).in_ (some s1) + ((3 : Int) : Val)))
              ((nd t g).in_ (some s2) + ((3 : Int) : Val)) :=
  ⟨by decide, by decide, by decide, by decide,
    UMPR_in_internal mainGeneTree mainSpeciesTree 3 2 1 7 (by decide) (by decide) (by decide)
      (by decide) (by decide) (by decide)⟩

/-- C22: after `UMPR` on well-formed input, for every internal gene node `g` with
children `g1`, `g2` and every internal species node `s` with children `s1`, `s2`,
`speciation[g][s] = min (in[g1][s1] + in[g2][s2]) (in[g2][s1] + in[g1][s2])` over the
final maps of `g1` and `g2`. -/
theorem UMPR_speciation_internal (geneT S : Tree) (PL Pd Pt : Int) (fuel : Nat)
    (hwG : WellFormed geneT) (hwS : WellFormed S) (hdS : DistinctLabels S)
    (hm : LeavesMapped geneT S) (hfG : geneT.length ≤ fuel) (hfS : S.length ≤ fuel) :
    ∃ v t, UMPR fuel geneT S geneT.length S.length PL Pd Pt = Except.ok (v, t) ∧
      ∀ g g1 g2, g < geneT.length → (nd geneT g).child1 = some g1 →
        (nd geneT g).child2 = some g2 →
        ∀ s s1 s2, s < S.length → (nd S s).child1 = some s1 → (nd S s).child2 = some s2 →
          (nd t g).speciation (some s) =
            min ((nd t g1).in_ (some s1) + (nd t g2).in_ (some s2))
              ((nd t g2).in_ (some s1) + (nd t g1).in_ (some s2)) := by
  obtain ⟨v, t, e, _, _, hI, _⟩ := UMPR_run hwG hwS hdS hm PL Pd Pt hfG hfS
  refine ⟨v, t, e, ?_⟩
  intro g g1 g2 hg k1 k2 s s1 s2 hs e1 e2
  have st := procN_stable hwS Pd Pt PL hfS (nd t g1) (nd t g2)
    (initNode S (nd geneT g) []) hs
  rw [← hI g g1 g2 hg k1 k2] at st
  have hk := (hwS.child1_lt hs e1).2.2
  rw [st.speciation_eq, if_neg (by omega), e1, e2, Min2_eq_min]

/-- A concrete instance of `UMPR_speciation_internal`: the trees and weights of
`main`. -/
theorem UMPR_speciation_internal_witness :
    WellFormed mainGeneTree ∧ WellFormed mainSpeciesTree ∧ DistinctLabels mainSpeciesTree ∧
    LeavesMapped mainGeneTree mainSpeciesTree ∧
    ∃ v t, UMPR 7 mainGeneTree mainSpeciesTree mainGeneTree.length mainSpeciesTree.length
      3 2 1 = Except.ok (v, t) ∧
      ∀ g g1 g2, g < mainGeneTree.length → (nd mainGeneTree g).child1 = some g1 →
        (nd mainGeneTree g).child2 = some g2 →
        ∀ s s1 s2, s < mainSpeciesTree.length → (nd mainSpeciesTree s).child1 = some s1 →
          (nd mainSpeciesTree s).child2 = some s2 →
          (nd t g).speciation (some s) =
            min ((nd t g1).in_ (some s1) + (nd t g2).in_ (some s2))
              ((nd t g2).in_ (some s1) + (nd t g1).in_ (some s2)) :=
  ⟨by decide, by decide, by decide, by decide,
    UMPR_speciation_internal mainGeneTree mainSpeciesTree 3 2 1 7 (by decide) (by decide)
      (by decide) (by decide) (by decide) (by decide)⟩

/-- C23: after `UMPR` on well-formed input, for every internal gene node `g` with
children `g1`, `g2` and every species leaf `s`, `speciation[g][s]` is +Inf,
`duplication[g][s] = Pduplication + cost[g1][s] + cost[g2][s]`, and
`in[g][s] = inAlt[g][s] = cost[g][s]`. -/
theorem UMPR_species_leaf (geneT S : Tree) (PL Pd Pt : Int) (fuel : Nat)
    (hwG : WellFormed geneT) (hwS : WellFormed S) (hdS : DistinctLabels S)
    (hm : LeavesMapped geneT S) (hfG : geneT.length ≤ fuel) (hfS : S.length ≤ fuel) :
    ∃ v t, UMPR fuel geneT S geneT.length S.length PL Pd Pt = Except.ok (v, t) ∧
      ∀ g g1 g2, g < geneT.length → (nd geneT g).child1 = some g1 →
        (nd geneT g).child2 = some g2 → ∀ s, s < (S.length + 1) / 2 →
          (nd t g).speciation (some s) = ⊤ ∧
          (nd t g).duplication (some s) =
            (Pd : Val) + (nd t g1).cost (some s) + (nd t g2).cost (some s) ∧
          (nd t g).in_ (some s) = (nd t g).cost (some s) ∧
          (nd t g).inAlt (some s) = (nd t g).cost (some s) := by
  obtain ⟨v, t, e, _, _, hI, _⟩ := UMPR_run hwG hwS hdS hm PL Pd Pt hfG hfS
  refine ⟨v, t, e, ?_⟩
  intro g g1 g2 hg k1 k2 s hs
  have hlt := hwS.half_le
  have st := procN_stable hwS Pd Pt PL hfS (nd t g1) (nd t g2)
    (initNode S (nd geneT g) []) (lt_trans hs hlt)
  rw [← hI g g1 g2 hg k1 k2] at st
  refine ⟨?_, ?_, ?_, ?_⟩
  · rw [st.speciation_eq, if_pos hs]
  · rw [st.duplication_eq, if_pos hs]
  · rw [st.in_eq, if_pos hs]
  · rw [st.inAlt_eq, if_pos hs]

/-- A concrete instance of `UMPR_species_leaf`: the trees and weights of `main`. -/
theorem UMPR_species_leaf_witness :
    WellFormed mainGeneTree ∧ WellFormed mainSpeciesTree ∧ DistinctLabels mainSpeciesTree ∧
    LeavesMapped mainGeneTree mainSpeciesTree ∧
    ∃ v t, UMPR 7 mainGeneTree mainSpeciesTree mainGeneTree.length mainSpeciesTree.length
      3 2 1 = Except.ok (v, t) ∧
      ∀ g g1 g2, g < mainGeneTree.length → (nd mainGeneTree g).child1 = some g1 →
        (nd mainGeneTree g).child2 = some g2 → ∀ s, s < (mainSpeciesTree.length + 1) / 2 →
          (nd t g).speciation (some s) = ⊤ ∧
          (nd t g).duplication (some s) =
            ((2 : Int) : Val) + (nd t g1).cost (some s) + (nd t g2).cost (some s) ∧
          (nd t g).in_ (some s) = (nd t g).cost (some s) ∧
          (nd t g).inAlt (some s) = (nd t g).cost (some s) :=
  ⟨by decide, by decide, by decide, by decide,
    UMPR_species_leaf mainGeneTree mainSpeciesTree 3 2 1 7 (by decide) (by decide)
      (by decide) (by decide) (by decide) (by decide)⟩

/-- C24: after `UMPR`, for every gene leaf `g` and every species node `i`, `out[g][i]`
is 0 when `i` is a species leaf whose label differs from the label of `g`, and +Inf
when `i` is a species leaf with the label of `g` or an internal species node. -/
theorem UMPR_leaf_out (geneT S : Tree) (PL Pd Pt : Int) (fuel : Nat)
    (hwG : WellFormed geneT) (hwS : WellFormed S) (hdS : DistinctLabels S)
    (hm : LeavesMapped geneT S) (hfG : geneT.length ≤ fuel) (hfS : S.length ≤ fuel) :
    ∃ v t, UMPR fuel geneT S geneT.length S.length PL Pd Pt = Except.ok (v, t) ∧
      ∀ g, g < (geneT.length + 1) / 2 → ∀ i, i < S.length →
        (i < (S.length + 1) / 2 → (nd S i).label ≠ (nd geneT g).label →
          (nd t g).out (some i) = 0) ∧
        (i < (S.length + 1) / 2 → (nd S i).label = (nd geneT g).label →
          (nd t g).out (some i) = ⊤) ∧
        ((S.length + 1) / 2 ≤ i → (nd t g).out (some i) = ⊤) := by
  obtain ⟨v, t, e, _, hL, _, _⟩ := UMPR_run hwG hwS hdS hm PL Pd Pt hfG hfS
  refine ⟨v, t, e, ?_⟩
  intro g hg i hi
  rw [hL g hg, leafNode_out S PL fuel (nd geneT g) hi]
  refine ⟨?_, ?_, ?_⟩
  · intro h1 h2
    rw [if_pos ⟨h1, h2⟩]
  · intro h1 h2
    rw [if_neg (fun h => h.2 h2)]
  · intro h1
    rw [if_neg (fun h => by omega)]

/-- A concrete instance of `UMPR_leaf_out`: the trees and weights of `main`. -/
theorem UMPR_leaf_out_witness :
    WellFormed mainGeneTree ∧ WellFormed mainSpeciesTree ∧ DistinctLabels mainSpeciesTree ∧
    LeavesMapped mainGeneTree mainSpeciesTree ∧
    ∃ v t, UMPR 7 mainGeneTree mainSpeciesTree mainGeneTree.length mainSpeciesTree.length
      3 2 1 = Except.ok (v, t) ∧
      ∀ g, g < (mainGeneTree.length + 1) / 2 → ∀ i, i < mainSpeciesTree.length →
        (i < (mainSpeciesTree.length + 1) / 2 →
          (nd mainSpeciesTree i).label ≠ (nd mainGeneTree g).label →
          (nd t g).out (some i) = 0) ∧
        (i < (mainSpeciesTree.length + 1) / 2 →
          (nd mainSpeciesTree i).label = (nd mainGeneTree g).label →
          (nd t g).out (some i) = ⊤) ∧
        ((mainSpeciesTree.length + 1) / 2 ≤ i → (nd t g).out (some i) = ⊤) :=
  ⟨by decide, by decide, by decide, by decide,
    UMPR_leaf_out mainGeneTree mainSpeciesTree 3 2 1 7 (by decide) (by decide)
      (by decide) (by decide) (by decide) (by decide)⟩

/-! ### `Min` -/

/-- C29: on a non-empty array `Min` returns the element at the first position `i` whose
element is strictly smaller than the next one, or the last element when there is no
such position; the value returned is an element of the array, and it is at least every
lower bound of the array, so never smaller than the minimum. -/
theorem Min_first_descent (a : Val) (l : List Val) :
    ∃ v, Min (a :: l) = Except.ok v ∧
      (∃ i, (a :: l)[i]? = some v ∧
        (∀ j x y, j < i → (a :: l)[j]? = some x → (a :: l)[j + 1]? = some y → ¬ x < y) ∧
        (i + 1 = (a :: l).length ∨ ∃ y, (a :: l)[i + 1]? = some y ∧ v < y)) ∧
      v ∈ a :: l ∧ ∀ m, (∀ x, x ∈ a :: l → m ≤ x) → m ≤ v := by
  refine ⟨MinP a l, Min_cons a l, ?_, MinP_mem a l, fun m hm => hm _ (MinP_mem a l)⟩
  induction l generalizing a with
  | nil =>
    refine ⟨0, rfl, ?_, Or.inl rfl⟩
    intro j x y hj
    omega
  | cons b rest ih =>
    unfold MinP
    by_cases h : a < b
    · rw [if_pos h]
      refine ⟨0, rfl, ?_, Or.inr ⟨b, by simp, h⟩⟩
      intro j x y hj
      omega
    · rw [if_neg h]
      obtain ⟨i, hi, hlow, hnext⟩ := ih b
      refine ⟨i + 1, by simpa using hi, ?_, ?_⟩
      · intro j x y hj hx hy
        cases j with
        | zero =>
          simp only [List.getElem?_cons_zero, Option.some.injEq, zero_add,
            List.getElem?_cons_succ] at hx hy
          rw [← hx, ← hy]
          exact h
        | succ j =>
          rw [List.getElem?_cons_succ] at hx hy
          exact hlow j x y (by omega) hx hy
      · rcases hnext with hl | ⟨y, hy, hvy⟩
        · left
          simp only [List.length_cons] at hl ⊢
          omega
        · right
          exact ⟨y, by simpa using hy, hvy⟩

/-! ### The map `inAlt` and the subtrees of the species tree -/

theorem ancestorAt_Desc {S : Tree} (hw : WellFormed S) :
    ∀ (d s0 a : Nat), s0 < S.length → ancestorAt S d s0 = some a → Desc S a s0 := by
  intro d
  induction d with
  | zero =>
    intro s0 a _ h
    simp only [ancestorAt, Option.some.injEq] at h
    rw [← h]
    exact Desc.here s0
  | succ d ih =>
    intro s0 a h0 h
    unfold ancestorAt at h
    cases hp : (nd S s0).parent with
    | none => rw [hp] at h; exact absurd h (by simp)
    | some p =>
      rw [hp] at h
      obtain ⟨_, hpl, hc⟩ := hw.parent_gt h0 hp
      have hd := ih p a hpl h
      rcases hc with hc | hc
      · exact Desc_trans hd (Desc.left hc (Desc.here s0))
      · exact Desc_trans hd (Desc.right hc (Desc.here s0))

theorem ancestorAt_parent {S : Tree} :
    ∀ (d s0 c a : Nat), ancestorAt S d s0 = some c → (nd S c).parent = some a →
      ancestorAt S (d + 1) s0 = some a := by
  intro d
  induction d with
  | zero =>
    intro s0 c a h hp
    simp only [ancestorAt, Option.some.injEq] at h
    subst h
    simp [ancestorAt, hp]
  | succ d ih =>
    intro s0 c a h hp
    unfold ancestorAt at h ⊢
    cases hq : (nd S s0).parent with
    | none => rw [hq] at h; exact absurd h (by simp)
    | some q =>
      rw [hq] at h
      simp only []
      exact ih q c a h hp

theorem Desc_ancestorAt {S : Tree} (hw : WellFormed S) {a s0 : Nat} (ha : a < S.length)
    (hd : Desc S a s0) : ∃ d, ancestorAt S d s0 = some a := by
  induction hd with
  | here s => exact ⟨0, rfl⟩
  | @left s c x hc _ ih =>
    obtain ⟨hcs, hpar, _⟩ := hw.child1_lt ha hc
    obtain ⟨d, hd⟩ := ih (by omega)
    exact ⟨d + 1, ancestorAt_parent d x c s hd hpar⟩
  | @right s c x hc _ ih =>
    obtain ⟨hcs, hpar, _⟩ := hw.child2_lt ha hc
    obtain ⟨d, hd⟩ := ih (by omega)
    exact ⟨d + 1, ancestorAt_parent d x c s hd hpar⟩

/-- A record whose `inAlt` entries obey the equations of `PostOrderSpT` holds, at every
species node, the least `cost` entry of the subtree below that node. -/
theorem inAlt_subtree_min {S : Tree} (hw : WellFormed S) (n : Node)
    (h : ∀ s, s < S.length → n.inAlt (some s) =
      if s < (S.length + 1) / 2 then n.cost (some s)
      else Min3M (n.cost (some s)) (n.inAlt (nd S s).child1) (n.inAlt (nd S s).child2))
    (s : Nat) : s < S.length →
      (∀ x, Desc S s x → n.inAlt (some s) ≤ n.cost (some x)) ∧
      ∃ x, Desc S s x ∧ n.inAlt (some s) = n.cost (some x) := by
  induction s using Nat.strong_induction_on with
  | _ s ih =>
    intro hs
    by_cases hk : s < (S.length + 1) / 2
    · obtain ⟨h1, h2⟩ := hw.leaf hk
      have hD : ∀ x, Desc S s x → x = s := by
        intro x hx
        rcases Desc_cases hx with e | ⟨c, hc, _⟩ | ⟨c, hc, _⟩
        · exact e
        · rw [h1] at hc; exact absurd hc (by simp)
        · rw [h2] at hc; exact absurd hc (by simp)
      rw [h s hs, if_pos hk]
      refine ⟨?_, s, Desc.here s, rfl⟩
      intro x hx
      rw [hD x hx]
    · obtain ⟨c1, c2, hc1, hc2, _, e1, e2, _, _⟩ := hw.inner hs (not_lt.mp hk)
      obtain ⟨l1, x1, d1, m1⟩ := ih c1 hc1 (by omega)
      obtain ⟨l2, x2, d2, m2⟩ := ih c2 hc2 (by omega)
      have hv : n.inAlt (some s) =
          min (min (n.cost (some s)) (n.inAlt (some c1))) (n.inAlt (some c2)) := by
        rw [h s hs, if_neg hk, e1, e2, Min3M_eq_min]
      refine ⟨?_, ?_⟩
      · intro x hx
        rw [hv]
        rcases Desc_cases hx with e | ⟨c, hc, hd⟩ | ⟨c, hc, hd⟩
        · rw [e]
          exact le_trans (min_le_left _ _) (min_le_left _ _)
        · rw [e1] at hc
          cases hc
          exact le_trans (le_trans (min_le_left _ _) (min_le_right _ _)) (l1 x hd)
        · rw [e2] at hc
          cases hc
          exact le_trans (min_le_right _ _) (l2 x hd)
      · rw [hv]
        rcases min_choice (min (n.cost (some s)) (n.inAlt (some c1))) (n.inAlt (some c2))
          with k | k
        · rcases min_choice (n.cost (some s)) (n.inAlt (some c1)) with k1 | k1
          · exact ⟨s, Desc.here s, by rw [k, k1]⟩
          · exact ⟨x1, Desc.left e1 d1, by rw [k, k1, m1]⟩
        · exact ⟨x2, Desc.right e2 d2, by rw [k, m2]⟩

/-- The same for the record of a gene leaf with one mapped species leaf `s0`: `inAlt` is
0 on the path from `s0` to the root, where the subtree holds `s0`, and +Inf elsewhere. -/
theorem leafNode_inAlt_min {S : Tree} (hw : WellFormed S) (hd : DistinctLabels S) (PL : Int)
    {fuel : Nat} (hf : S.length ≤ fuel) (n : Node) {s0 : Nat} (h0 : s0 < (S.length + 1) / 2)
    (hl : n.label = (nd S s0).label) {s : Nat} (hs : s < S.length) :
    (∀ x, Desc S s x → (leafNode S PL fuel n).inAlt (some s) ≤
      (leafNode S PL fuel n).cost (some x)) ∧
    ∃ x, Desc S s x ∧ (leafNode S PL fuel n).inAlt (some s) =
      (leafNode S PL fuel n).cost (some x) := by
  have hlt := hw.half_le
  have h0l : s0 < S.length := by omega
  have hM : labelMatches S ((S.length + 1) / 2) n.label = [s0] := by
    rw [hl]; exact labelMatches_single hd h0 (by omega)
  obtain ⟨hon, hoff⟩ := leafNode_in_single hw PL hf n h0l hM
  have hcost : ∀ x, x < S.length → (leafNode S PL fuel n).cost (some x) =
      if x = s0 then 0 else ⊤ := by
    intro x hx
    rw [leafNode_cost S PL fuel n hx]
    by_cases hx0 : x = s0
    · rw [if_pos hx0, if_pos ⟨by omega, by rw [hx0, hl]⟩]
    · rw [if_neg hx0, if_neg]
      rintro ⟨_, hlab⟩
      exact hx0 (hd x hx s0 h0l (by rw [← hlab, hl]))
  have hle : ∀ x, Desc S s x → x < S.length := fun x hx =>
    lt_of_le_of_lt (Desc_le hw hx) hs
  by_cases hp : Desc S s s0
  · obtain ⟨d, hd0⟩ := Desc_ancestorAt hw hs hp
    have hz := (hon d s hd0).2
    rw [hz]
    refine ⟨?_, s0, hp, by rw [hcost s0 h0l, if_pos rfl]⟩
    intro x hx
    rw [hcost x (hle x hx)]
    split
    · exact le_refl _
    · exact le_top
  · have hz := (hoff s hs (fun d hc => hp (ancestorAt_Desc hw d s0 s h0l hc))).2
    rw [hz]
    have hs0 : s ≠ s0 := fun e => hp (e ▸ Desc.here s)
    refine ⟨?_, s, Desc.here s, by rw [hcost s hs, if_neg hs0]⟩
    intro x hx
    have hx0 : x ≠ s0 := fun e => hp (e ▸ hx)
    rw [hcost x (hle x hx), if_neg hx0]

/-- C28: after `UMPR` on well-formed input with pairwise distinct species labels, for
every gene node `g`, leaf or internal, and every species node `s`, `inAlt[g][s]` is the
minimum of `cost[g][x]` over the species nodes `x` of the subtree rooted at `s`, `s`
included: it is at most each of these entries and equal to one of them. -/
theorem UMPR_inAlt_subtree_min (geneT S : Tree) (PL Pd Pt : Int) (fuel : Nat)
    (hwG : WellFormed geneT) (hwS : WellFormed S) (hdS : DistinctLabels S)
    (hm : LeavesMapped geneT S) (hfG : geneT.length ≤ fuel) (hfS : S.length ≤ fuel) :
    ∃ v t, UMPR fuel geneT S geneT.length S.length PL Pd Pt = Except.ok (v, t) ∧
      ∀ g, g < geneT.length → ∀ s, s < S.length →
        (∀ x, Desc S s x → (nd t g).inAlt (some s) ≤ (nd t g).cost (some x)) ∧
        ∃ x, Desc S s x ∧ (nd t g).inAlt (some s) = (nd t g).cost (some x) := by
  obtain ⟨v, t, e, _, hL, hI, _⟩ := UMPR_run hwG hwS hdS hm PL Pd Pt hfG hfS
  refine ⟨v, t, e, ?_⟩
  intro g hg s hs
  by_cases hk : g < (geneT.length + 1) / 2
  · obtain ⟨s0, h0, hl⟩ := hm g hk
    rw [hL g hk]
    exact leafNode_inAlt_min hwS hdS PL hfS (nd geneT g) h0 hl hs
  · obtain ⟨c1, c2, _, _, _, k1, k2, _, _⟩ := hwG.inner hg (not_lt.mp hk)
    refine inAlt_subtree_min hwS (nd t g) ?_ s hs
    intro q hq
    have st := procN_stable hwS Pd Pt PL hfS (nd t c1) (nd t c2)
      (initNode S (nd geneT g) []) hq
    rw [← hI g c1 c2 hg k1 k2] at st
    exact st.inAlt_eq

/-- A concrete instance of `UMPR_inAlt_subtree_min`: the trees and weights of `main`. -/
theorem UMPR_inAlt_subtree_min_witness :
    WellFormed mainGeneTree ∧ WellFormed mainSpeciesTree ∧ DistinctLabels mainSpeciesTree ∧
    LeavesMapped mainGeneTree mainSpeciesTree ∧
    ∃ v t, UMPR 7 mainGeneTree mainSpeciesTree mainGeneTree.length mainSpeciesTree.length
      3 2 1 = Except.ok (v, t) ∧
      ∀ g, g < mainGeneTree.length → ∀ s, s < mainSpeciesTree.length →
        (∀ x, Desc mainSpeciesTree s x → (nd t g).inAlt (some s) ≤ (nd t g).cost (some x)) ∧
        ∃ x, Desc mainSpeciesTree s x ∧ (nd t g).inAlt (some s) = (nd t g).cost (some x) :=
  ⟨by decide, by decide, by decide, by decide,
    UMPR_inAlt_subtree_min mainGeneTree mainSpeciesTree 3 2 1 7 (by decide) (by decide)
      (by decide) (by decide) (by decide) (by decide)⟩

/-! ### The event of an internal gene node, on any input -/

theorem Min3_label_top (a b : Val) :
    (Min3 a b ⊤).2 = "speciation" ∨ (Min3 a b ⊤).2 = "duplication" := by
  unfold Min3
  by_cases h : a > b
  · right
    simp [h]
  · left
    simp [h]

theorem KeepsRoot_same (S : Tree) (g : Nat) (G : Tree) : KeepsRoot S g G G :=
  ⟨rfl, fun _ _ => rfl, rfl, rfl, rfl⟩

theorem KeepsRoot_then {S : Tree} {g : Nat} {G G1 G2 : Tree} (h1 : KeepsRoot S g G G1)
    (h2 : KeepsRoot S g G1 G2) : KeepsRoot S g G G2 := by
  obtain ⟨a1, a2, a3, a4, a5⟩ := h1
  obtain ⟨b1, b2, b3, b4, b5⟩ := h2
  exact ⟨b1.trans a1, fun x hx => (b2 x hx).trans (a2 x hx), b3.trans a3, b4.trans a4,
    b5.trans a5⟩

/-- The last species node is never "not the root" for `NotRoot`. -/
theorem NotRoot_last {S : Tree} {s : Nat} {sn : Node} (hs : S[s]? = some sn)
    (hr : s = S.length - 1) : NotRoot sn S = Except.ok false := by
  unfold NotRoot
  rw [List.getLast?_eq_getElem?, ← hr, hs]
  simp

/-- What the statements of `PostOrderSpT` for one species node do to the gene slice,
whenever they return. -/
theorem visit_result {S G G1 : Tree} {g s : Nat} {sn : Node} {sl : Nat} {Pd Pt PL : Int}
    (h : PostOrderSpT.visit S G g s sn sl Pd Pt PL = Except.ok G1) :
    ∃ R : Node, G1 = G.set g R ∧ g < G.length ∧ R.child1 = (nd G g).child1 ∧
      R.child2 = (nd G g).child2 ∧
      (∀ k, k ≠ some s → R.transfer k = (nd G g).transfer k) ∧
      (NotRoot sn S = Except.ok false → R.transfer = (nd G g).transfer) ∧
      R.event = (Min3 (R.speciation (some s)) (R.duplication (some s))
        (R.transfer (some s))).2 := by
  unfold PostOrderSpT.visit at h
  cases hgn : G[g]? with
  | none =>
    simp only [hgn] at h
    exact absurd h (by simp)
  | some gn =>
    have hg : g < G.length := lt_of_getElem? hgn
    have hnd : nd G g = gn := nd_of_getElem? hgn
    simp only [hgn, MinDup_eq] at h
    cases hc1 : gn.child1 with
    | none =>
      simp only [hc1] at h
      exact absurd h (by simp)
    | some g1 =>
      cases hc2 : gn.child2 with
      | none =>
        simp only [hc1, hc2] at h
        exact absurd h (by simp)
      | some g2 =>
        simp only [hc1, hc2] at h
        by_cases hb : g1 < G.length ∧ g2 < G.length
        · rw [if_pos hb] at h
          cases hS : SLeave sn S sl with
          | error e =>
            simp only [hS] at h
            exact absurd h (by simp)
          | ok b =>
            cases hN : NotRoot sn S with
            | error e =>
              cases b <;> simp only [hS, hN] at h <;> exact absurd h (by simp)
            | ok nr =>
              cases b <;> cases nr <;>
              · simp only [hS, hN, Except.ok.injEq, wr, wrEvent, rd, nd_set_eq, List.set_set,
                  List.length_set, hg, if_true, if_false, Bool.false_eq_true] at h
                refine ⟨_, h.symm, hg, ?_, ?_, ?_, ?_, ?_⟩
                · simp [Node.put, Node.setEvent]
                · simp [Node.put, Node.setEvent]
                · intro k hk
                  simp [Node.put, Node.setEvent, NodeMap.set, hk]
                · intro hf
                  first
                    | (cases hf; done)
                    | simp [Node.put, Node.setEvent]
                · simp [Node.put, Node.setEvent, Node.get]
        · rw [if_neg hb] at h
          exact absurd h (by simp)

theorem KeepsRoot_of_visit {S G G1 : Tree} {g s : Nat} {sn : Node} {sl : Nat}
    {Pd Pt PL : Int} (hs : S[s]? = some sn)
    (h : PostOrderSpT.visit S G g s sn sl Pd Pt PL = Except.ok G1) : KeepsRoot S g G G1 := by
  obtain ⟨R, rfl, hg, r1, r2, r3, r4, _⟩ := visit_result h
  refine ⟨by simp, fun x hx => nd_set_ne _ hx, ?_, ?_, ?_⟩
  · rw [nd_set_eq _ hg, r1]
  · rw [nd_set_eq _ hg, r2]
  · rw [nd_set_eq _ hg]
    by_cases hr : s = S.length - 1
    · rw [r4 (NotRoot_last hs hr)]
    · exact r3 _ (fun hk => hr (Option.some.inj hk).symm)

/-- `PostOrderSpT` for the gene node at `g` rewrites the record at `g` only and never
its `transfer` entry for the species root. -/
theorem PostOrderSpT_keeps {S : Tree} {g sl : Nat} {Pd Pt PL : Int} :
    ∀ (fuel : Nat) (c : Ptr) (G G1 : Tree),
      PostOrderSpT S g sl Pd Pt PL fuel c G = Except.ok G1 → KeepsRoot S g G G1 := by
  intro fuel
  induction fuel with
  | zero =>
    intro c G G1 h
    cases c with
    | none =>
      simp only [PostOrderSpT, Except.ok.injEq] at h
      rw [← h]
      exact KeepsRoot_same S g G
    | some s =>
      simp only [PostOrderSpT] at h
      exact absurd h (by simp)
  | succ fuel ih =>
    intro c G G1 h
    cases c with
    | none =>
      simp only [PostOrderSpT, Except.ok.injEq] at h
      rw [← h]
      exact KeepsRoot_same S g G
    | some s =>
      unfold PostOrderSpT at h
      cases hs : S[s]? with
      | none =>
        simp only [hs] at h
        exact absurd h (by simp)
      | some sn =>
        simp only [hs] at h
        cases e1 : PostOrderSpT S g sl Pd Pt PL fuel sn.child1 G with
        | error e =>
          simp only [e1] at h
          exact absurd h (by simp)
        | ok G2 =>
          simp only [e1] at h
          cases e2 : PostOrderSpT S g sl Pd Pt PL fuel sn.child2 G2 with
          | error e =>
            simp only [e2] at h
            exact absurd h (by simp)
          | ok G3 =>
            simp only [e2] at h
            exact KeepsRoot_then (KeepsRoot_then (ih _ _ _ e1) (ih _ _ _ e2)) (KeepsRoot_of_visit hs h)

/-- After `PostOrderSpT` from the species root, the event of the gene node is not
"transfer" when its `transfer` entry for the species root was +Inf. -/
theorem PostOrderSpT_root_event {S G G1 : Tree} {g sl : Nat} {Pd Pt PL : Int} (fuel : Nat)
    (h : PostOrderSpT S g sl Pd Pt PL fuel (some (S.length - 1)) G = Except.ok G1)
    (ht : (nd G g).transfer (some (S.length - 1)) = ⊤) : EventOK (nd G1 g) := by
  cases fuel with
  | zero =>
    simp only [PostOrderSpT] at h
    exact absurd h (by simp)
  | succ fuel =>
    unfold PostOrderSpT at h
    cases hs : S[S.length - 1]? with
    | none =>
      simp only [hs] at h
      exact absurd h (by simp)
    | some sn =>
      simp only [hs] at h
      cases e1 : PostOrderSpT S g sl Pd Pt PL fuel sn.child1 G with
      | error e =>
        simp only [e1] at h
        exact absurd h (by simp)
      | ok G2 =>
        simp only [e1] at h
        cases e2 : PostOrderSpT S g sl Pd Pt PL fuel sn.child2 G2 with
        | error e =>
          simp only [e2] at h
          exact absurd h (by simp)
        | ok G3 =>
          simp only [e2] at h
          have k := KeepsRoot_then (PostOrderSpT_keeps _ _ _ _ e1) (PostOrderSpT_keeps _ _ _ _ e2)
          obtain ⟨R, rfl, hg, _, _, _, r4, r5⟩ := visit_result h
          rw [nd_set_eq _ hg]
          unfold EventOK
          rw [r5, r4 (NotRoot_last hs rfl), k.2.2.2.2, ht]
          exact Min3_label_top _ _

/-- `PreOrderIntNSpT` leaves the event, the `transfer` map and the child pointers of the
record as they were. -/
theorem PreOrderIntNSpT_keeps (S : Tree) :
    ∀ (fuel : Nat) (c : Ptr) (n n1 : Node), PreOrderIntNSpT S fuel c n = Except.ok n1 →
      n1.event = n.event ∧ n1.transfer = n.transfer ∧ n1.child1 = n.child1 ∧
        n1.child2 = n.child2 := by
  intro fuel
  induction fuel with
  | zero =>
    intro c n n1 h
    cases c <;> simp [PreOrderIntNSpT] at h
  | succ fuel ih =>
    intro c n n1 h
    cases c with
    | none => simp [PreOrderIntNSpT] at h
    | some r =>
      unfold PreOrderIntNSpT at h
      cases hr : S[r]? with
      | none =>
        simp only [hr] at h
        exact absurd h (by simp)
      | some rn =>
        simp only [hr] at h
        cases hc1 : rn.child1 with
        | none =>
          simp only [hc1, Except.ok.injEq] at h
          rw [← h]
          exact ⟨rfl, rfl, rfl, rfl⟩
        | some c1 =>
          cases hc2 : rn.child2 with
          | none =>
            simp only [hc1, hc2, Except.ok.injEq] at h
            rw [← h]
            exact ⟨rfl, rfl, rfl, rfl⟩
          | some c2 =>
            simp only [hc1, hc2] at h
            split at h
            · exact absurd h (by simp)
            · rename_i n2 e1
              obtain ⟨a1, a2, a3, a4⟩ := ih _ _ _ e1
              obtain ⟨b1, b2, b3, b4⟩ := ih _ _ _ h
              exact ⟨b1.trans a1, b2.trans a2, b3.trans a3, b4.trans a4⟩

/-- `PostOrderGeneT` from the gene node at `g` keeps the slice ready and leaves every
internal gene node below `g` with an event other than "transfer". -/
theorem PostOrderGeneT_events {S T0 : Tree} (hw : WellFormed T0) {sl : Nat} {Pd Pt PL : Int}
    {fuelS : Nat} :
    ∀ (fuel g : Nat) (G G1 : Tree),
      PostOrderGeneT S (some (S.length - 1)) sl Pd Pt PL fuelS fuel g G = Except.ok G1 →
      g < T0.length → Ready S T0 G →
      Ready S T0 G1 ∧ (∀ x, ¬ Desc T0 g x → nd G1 x = nd G x) ∧
        (∀ x, Desc T0 g x → (T0.length + 1) / 2 ≤ x → EventOK (nd G1 x)) := by
  intro fuel
  induction fuel with
  | zero =>
    intro g G G1 h
    simp only [PostOrderGeneT] at h
    exact absurd h (by simp)
  | succ fuel ih =>
    intro g G G1 h hg hR
    obtain ⟨hlen, hch, htr⟩ := hR
    have hgG : g < G.length := by omega
    unfold PostOrderGeneT at h
    simp only [getElem?_eq_nd hgG] at h
    by_cases hk : g < (T0.length + 1) / 2
    · -- a leaf: nothing happens
      obtain ⟨h1, h2⟩ := hw.leaf hk
      rw [(hch g).1, (hch g).2, h1, h2] at h
      simp only [Except.ok.injEq] at h
      subst h
      refine ⟨⟨hlen, hch, htr⟩, fun _ _ => rfl, ?_⟩
      intro x hx hxk
      rcases Desc_cases hx with e | ⟨c, hc, _⟩ | ⟨c, hc, _⟩
      · omega
      · rw [h1] at hc; exact absurd hc (by simp)
      · rw [h2] at hc; exact absurd hc (by simp)
    · obtain ⟨c1, c2, hc1, hc2, hne, e1, e2, hp1, hp2⟩ := hw.inner hg (not_lt.mp hk)
      rw [(hch g).1, (hch g).2, e1, e2] at h
      simp only [] at h
      split at h
      · exact absurd h (by simp)
      · rename_i G2 k1
        split at h
        · exact absurd h (by simp)
        · rename_i G3 k2
          split at h
          · exact absurd h (by simp)
          · rename_i G4 k3
            split at h
            · exact absurd h (by simp)
            · split at h
              · exact absurd h (by simp)
              · rename_i gn k4
                simp only [Except.ok.injEq] at h
                subst h
                obtain ⟨⟨l2, ch2, tr2⟩, fr2, ev2⟩ := ih c1 G G2 k1 (by omega) ⟨hlen, hch, htr⟩
                obtain ⟨⟨l3, ch3, tr3⟩, fr3, ev3⟩ := ih c2 G2 G3 k2 (by omega) ⟨l2, ch2, tr2⟩
                have hg3 : g < G3.length := by omega
                have kp := PostOrderSpT_keeps _ _ _ _ k3
                have ev := PostOrderSpT_root_event _ k3 (tr3 g hg3)
                obtain ⟨p1, p2, p3, p4⟩ := PreOrderIntNSpT_keeps S _ _ _ _ k4
                obtain ⟨q1, q2, q3, q4, q5⟩ := kp
                have hg4 : g < G4.length := by omega
                have hdis : ∀ x, Desc T0 c1 x → Desc T0 c2 x → False := fun x a b =>
                  subtree_disjoint hw hg hp1 hp2 hc1 hc2 hne a b
                have hD : ∀ x, Desc T0 g x → x = g ∨ Desc T0 c1 x ∨ Desc T0 c2 x := by
                  intro x hx
                  rcases Desc_cases hx with e | ⟨c, hc, hd⟩ | ⟨c, hc, hd⟩
                  · exact Or.inl e
                  · rw [e1] at hc; cases hc; exact Or.inr (Or.inl hd)
                  · rw [e2] at hc; cases hc; exact Or.inr (Or.inr hd)
                refine ⟨⟨by simp [q1, l3], ?_, ?_⟩, ?_, ?_⟩
                · intro x
                  by_cases hx : x = g
                  · subst hx
                    rw [nd_set_eq _ hg4, p3, p4, q3, q4]
                    exact ch3 x
                  · rw [nd_set_ne _ hx, q2 x hx]
                    exact ch3 x
                · intro x hxl
                  by_cases hx : x = g
                  · subst hx
                    rw [nd_set_eq _ hg4, p2, q5]
                    exact tr3 x hg3
                  · rw [nd_set_ne _ hx, q2 x hx]
                    exact tr3 x (by simpa [q1] using hxl)
                · intro x hx
                  have hxg : x ≠ g := fun e => hx (e ▸ Desc.here x)
                  have hx1 : ¬ Desc T0 c1 x := fun a => hx (Desc.left e1 a)
                  have hx2 : ¬ Desc T0 c2 x := fun a => hx (Desc.right e2 a)
                  rw [nd_set_ne _ hxg, q2 x hxg, fr3 x hx2, fr2 x hx1]
                · intro x hx hxk
                  rcases hD x hx with e | a | a
                  · subst e
                    rw [nd_set_eq _ hg4]
                    unfold EventOK at ev ⊢
                    rw [p1]
                    exact ev
                  · have hxg : x ≠ g := by have := Desc_le hw a; omega
                    rw [nd_set_ne _ hxg, q2 x hxg, fr3 x (fun b => hdis x a b)]
                    exact ev2 x a hxk
                  · have hxg : x ≠ g := by have := Desc_le hw a; omega
                    rw [nd_set_ne _ hxg, q2 x hxg]
                    exact ev3 x a hxk

theorem loopM_inv {σ α : Type} (P : σ → Prop) (f : σ → α → Except Fault σ)
    (hf : ∀ s a s1, P s → f s a = Except.ok s1 → P s1) :
    ∀ (l : List α) (s s1 : σ), P s → loopM f l s = Except.ok s1 → P s1 := by
  intro l
  induction l with
  | nil =>
    intro s s1 hP h
    simp only [loopM, Except.ok.injEq] at h
    rw [← h]
    exact hP
  | cons a l ih =>
    intro s s1 hP h
    unfold loopM at h
    split at h
    · exact absurd h (by simp)
    · rename_i s2 e
      exact ih s2 s1 (hf s a s2 hP e) h

theorem nd_map_children (t : Tree) (f : Node → Node)
    (hf : ∀ n, (f n).child1 = n.child1 ∧ (f n).child2 = n.child2) (x : Nat) :
    (nd (t.map f) x).child1 = (nd t x).child1 ∧ (nd (t.map f) x).child2 = (nd t x).child2 := by
  unfold nd
  rw [List.getElem?_map]
  cases t[x]? with
  | none => exact ⟨rfl, rfl⟩
  | some n => exact hf n

theorem nd_set_children (t : Tree) (i : Nat) (m : Node) (h1 : m.child1 = (nd t i).child1)
    (h2 : m.child2 = (nd t i).child2) (x : Nat) :
    (nd (t.set i m) x).child1 = (nd t x).child1 ∧
      (nd (t.set i m) x).child2 = (nd t x).child2 := by
  by_cases hx : x = i
  · subst hx
    by_cases hl : x < t.length
    · rw [nd_set_eq _ hl]
      exact ⟨h1, h2⟩
    · rw [nd_default_of_le (by simpa using hl), nd_default_of_le (not_lt.mp hl)]
      exact ⟨rfl, rfl⟩
  · rw [nd_set_ne _ hx]
    exact ⟨rfl, rfl⟩

/-- `InitializeLMap` keeps the length of the gene slice and its child pointers. -/
theorem InitializeLMap_children {G S G1 : Tree} {gl sl : Nat}
    (h : InitializeLMap G S gl sl = Except.ok G1) :
    G1.length = G.length ∧
      ∀ x, (nd G1 x).child1 = (nd G x).child1 ∧ (nd G1 x).child2 = (nd G x).child2 := by
  unfold InitializeLMap at h
  have hstep : ∀ (i : Nat) (t : Tree) (j : Nat) (t1 : Tree),
      (t.length = G.length ∧
        ∀ x, (nd t x).child1 = (nd G x).child1 ∧ (nd t x).child2 = (nd G x).child2) →
      (match t[i]?, S[j]? with
        | some gi, some sj =>
          if gi.label = sj.label then Except.ok (t.set i { gi with L := gi.L ++ [j] })
          else Except.ok t
        | _, _ => Except.error Fault.indexOutOfRange) = Except.ok t1 →
      (t1.length = G.length ∧
        ∀ x, (nd t1 x).child1 = (nd G x).child1 ∧ (nd t1 x).child2 = (nd G x).child2) := by
    intro i t j t1 hP e
    split at e
    · rename_i gi sj hgi hsj
      split at e
      · simp only [Except.ok.injEq] at e
        subst e
        refine ⟨by simp [hP.1], ?_⟩
        intro x
        have hn := nd_of_getElem? hgi
        have := nd_set_children t i { gi with L := gi.L ++ [j] } (by rw [hn]) (by rw [hn]) x
        rw [this.1, this.2]
        exact hP.2 x
      · simp only [Except.ok.injEq] at e
        subst e
        exact hP
    · exact absurd e (by simp)
  refine loopM_inv
    (fun t => t.length = G.length ∧
      ∀ x, (nd t x).child1 = (nd G x).child1 ∧ (nd t x).child2 = (nd G x).child2)
    _ ?_ _ _ _ ?_ h
  · intro t i t1 hP e
    exact loopM_inv _ _ (fun t j t1 hP e => hstep i t j t1 hP e) _ _ _ hP e
  · refine ⟨by simp, ?_⟩
    intro x
    refine nd_map_children G _ ?_ x
    intro n
    exact ⟨rfl, rfl⟩

theorem leaf_keeps {fuel : Nat} {S : Tree} {ls : List Nat} {PL : Int} {l l1 : Node}
    (h : UMPR.leaf fuel S ls PL l = Except.ok l1) :
    l1.child1 = l.child1 ∧ l1.child2 = l.child2 ∧ l1.transfer = l.transfer := by
  unfold UMPR.leaf at h
  simp only [] at h
  split at h
  · exact absurd h (by simp)
  · rename_i anc _
    simp only [Except.ok.injEq] at h
    subst h
    have a := leafOut_shape S ls (UMPR.leafIn PL anc (UMPR.leafCost S ls l))
    have b := leafIn_shape PL anc (UMPR.leafCost S ls l)
    have c := leafCost_shape S ls l
    refine ⟨?_, ?_, ?_⟩
    · rw [← a.2.2.1, ← b.2.2.1, ← c.2.2.1]
    · rw [← a.2.2.2.1, ← b.2.2.2.1, ← c.2.2.2.1]
    · funext k
      have a1 := get_leafOut S ls (UMPR.leafIn PL anc (UMPR.leafCost S ls l)) Field.transfer k
      rw [if_neg (by simp)] at a1
      have b1 := get_leafIn_other PL anc (UMPR.leafCost S ls l) Field.transfer k
        (Or.inl ⟨by decide, by decide⟩)
      have c1 := get_leafCost S ls l Field.transfer k
      rw [if_neg (by simp)] at c1
      simp only [Node.get] at a1 b1 c1
      rw [a1, b1, c1]

/-- A run of `UMPR` that returns leaves every internal gene node of a well-formed gene
tree with an event other than "transfer". -/
theorem UMPR_ok_events {geneT S : Tree} (hw : WellFormed geneT) {fuel gN sN : Nat}
    {PL Pd Pt : Int} {v : Val} {t : Tree}
    (h : UMPR fuel geneT S gN sN PL Pd Pt = Except.ok (v, t)) :
    t.length = geneT.length ∧
      (∀ x, x < geneT.length → (nd t x).transfer (some (S.length - 1)) = ⊤) ∧
      ∀ x, (geneT.length + 1) / 2 ≤ x → x < geneT.length → EventOK (nd t x) := by
  unfold UMPR at h
  simp only [] at h
  split at h
  · exact absurd h (by simp)
  · rename_i Ga ka
    obtain ⟨la, ca⟩ := InitializeLMap_children ka
    split at h
    · rename_i lg ls kg ks
      split at h
      · exact absurd h (by simp)
      · rename_i Gc kc
        split at h
        · exact absurd h (by simp)
        · rename_i hne
          split at h
          · exact absurd h (by simp)
          · rename_i Gd kd
            split at h
            · exact absurd h (by simp)
            · rename_i cost _
              simp only [Except.ok.injEq, Prod.mk.injEq] at h
              obtain ⟨_, rfl⟩ := h
              have hS : 0 < S.length := by
                rcases Nat.eq_zero_or_pos S.length with e | e
                · exact absurd (Or.inr e) hne
                · exact e
              have hl0 : (InitializeTree geneT sN).length = geneT.length := by
                simp [InitializeTree]
              have hc0 : ∀ x, (nd (InitializeTree geneT sN) x).child1 = (nd geneT x).child1 ∧
                  (nd (InitializeTree geneT sN) x).child2 = (nd geneT x).child2 := by
                intro x
                unfold InitializeTree
                refine nd_map_children geneT _ ?_ x
                intro n
                exact ⟨rfl, rfl⟩
              -- the slice before the leaf loop
              have hRb : Ready S geneT
                  (Ga.map fun g => (List.range S.length).foldl InitializeCosts g) := by
                refine ⟨by simp [la, hl0], ?_, ?_⟩
                · intro x
                  have k := nd_map_children Ga
                    (fun g => (List.range S.length).foldl InitializeCosts g)
                    (fun n => by
                      have sh := foldl_shape InitializeCosts InitializeCosts_shape
                        (List.range S.length) n
                      exact ⟨sh.2.2.1.symm, sh.2.2.2.1.symm⟩) x
                  rw [k.1, k.2, (ca x).1, (ca x).2]
                  exact hc0 x
                · intro x hx
                  rw [nd_map _ (by simpa using hx)]
                  have k := get_foldl_InitializeCosts (List.range S.length) (nd Ga x)
                    Field.transfer (some (S.length - 1))
                  rw [if_pos ⟨S.length - 1, by simp; omega, rfl⟩] at k
                  exact k
              -- the leaf loop
              have hRc : Ready S geneT Gc := by
                refine loopM_inv (Ready S geneT) _ ?_ _ _ _ hRb kc
                intro u l u1 hP e
                unfold UMPR.leafStep at e
                split at e
                · exact absurd e (by simp)
                · rename_i ln kl
                  simp only [Except.ok.injEq] at e
                  subst e
                  obtain ⟨r1, r2, r3⟩ := leaf_keeps kl
                  obtain ⟨p1, p2, p3⟩ := hP
                  refine ⟨by simp [p1], ?_, ?_⟩
                  · intro x
                    have k := nd_set_children u l ln r1 r2 x
                    rw [k.1, k.2]
                    exact p2 x
                  · intro x hx
                    have hxu : x < u.length := by simpa using hx
                    by_cases hxl : x = l
                    · subst hxl
                      rw [nd_set_eq _ hxu, r3]
                      exact p3 x hxu
                    · rw [nd_set_ne _ hxl]
                      exact p3 x hxu
              have h3 := hw.1
              obtain ⟨⟨ld, _, td⟩, _, ev⟩ := PostOrderGeneT_events hw _ _ _ _ kd
                (by rw [hRc.1]; omega) hRc
              refine ⟨ld, fun x hx => td x (by omega), ?_⟩
              intro x hxk hx
              refine ev x ?_ hxk
              rw [hRc.1]
              exact Desc_root hw hx
    · exact absurd h (by simp)
    · exact absurd h (by simp)

set_option maxRecDepth 1000000 in
/-- C25 (the code departs from the claim): in the well-formed species tree ((A,B),C)
whose internal nodes carry no label, the node at position 3 is not the last element,
yet `NotRoot` returns false for it: it compares labels, and the label of that node is
the label of the root. -/
theorem NotRoot_label_clash :
    WellFormed speciesUnlabelled ∧ 3 < speciesUnlabelled.length ∧
    3 ≠ speciesUnlabelled.length - 1 ∧
    NotRoot (nd speciesUnlabelled 3) speciesUnlabelled = Except.ok false := by
  decide

/-- C27: whenever `UMPR` returns on a well-formed gene tree, whatever the species tree,
the leaf counts and the weights, every internal gene node ends with the event
"speciation" or "duplication", never "transfer", and its `transfer` entry for the last
species node, the species root, is still the +Inf of `InitializeCosts`. -/
theorem UMPR_event_never_transfer (geneT S : Tree) (gN sN : Nat) (PL Pd Pt : Int)
    (fuel : Nat) (es : List String) (hwG : WellFormed geneT)
    (h : eventsOf (UMPR fuel geneT S gN sN PL Pd Pt) = some es) :
    ∀ g, (geneT.length + 1) / 2 ≤ g → g < geneT.length →
      (es[g]? = some "speciation" ∨ es[g]? = some "duplication") ∧
      es[g]? ≠ some "transfer" ∧
      entryOf (UMPR fuel geneT S gN sN PL Pd Pt) g Field.transfer (some (S.length - 1)) =
        some ⊤ := by
  intro g hgk hg
  cases hr : UMPR fuel geneT S gN sN PL Pd Pt with
  | error e =>
    rw [hr] at h
    simp [eventsOf] at h
  | ok r =>
    obtain ⟨v, t⟩ := r
    rw [hr] at h
    simp only [eventsOf, Option.some.injEq] at h
    obtain ⟨hl, htr, hev⟩ := UMPR_ok_events hwG hr
    have hget : es[g]? = some (nd t g).event := by
      rw [← h, List.getElem?_map, getElem?_eq_nd (by omega)]
      rfl
    have hE := hev g hgk hg
    unfold EventOK at hE
    refine ⟨?_, ?_, ?_⟩
    · rw [hget]
      rcases hE with e | e
      · left; rw [e]
      · right; rw [e]
    · rw [hget]
      rcases hE with e | e <;> rw [e] <;> decide
    · simp only [entryOf, Node.get]
      rw [htr g hg]

set_option maxRecDepth 1000000 in
/-- A concrete instance of `UMPR_event_never_transfer`: the trees and weights of
`main`. -/
theorem UMPR_event_never_transfer_witness :
    WellFormed mainGeneTree ∧
    eventsOf (UMPR 7 mainGeneTree mainSpeciesTree 7 7 3 2 1) =
      some ["", "", "", "", "duplication", "duplication", "speciation"] ∧
    ∀ g, (mainGeneTree.length + 1) / 2 ≤ g → g < mainGeneTree.length →
      ((["", "", "", "", "duplication", "duplication", "speciation"] : List String)[g]? =
          some "speciation" ∨
        (["", "", "", "", "duplication", "duplication", "speciation"] : List String)[g]? =
          some "duplication") ∧
      (["", "", "", "", "duplication", "duplication", "speciation"] : List String)[g]? ≠
        some "transfer" ∧
      entryOf (UMPR 7 mainGeneTree mainSpeciesTree 7 7 3 2 1) g Field.transfer
        (some (mainSpeciesTree.length - 1)) = some ⊤ :=
  ⟨by decide, by decide,
    UMPR_event_never_transfer mainGeneTree mainSpeciesTree 7 7 3 2 1 7
      ["", "", "", "", "duplication", "duplication", "speciation"] (by decide) (by decide)⟩

namespace Parsimony

set_option maxRecDepth 1000000 in
/-- C26 (the code departs from the claim): on the comb tree (((v0,v1),v2),v3) with the
leaves GA, GT, GC, GC and the matrix `unitMatrix`, whatever number is drawn, the node
v4 = (v0,v1), whose parent is v5 and whose score map has the two minima A and T at
position 1, gets the symbol G at position 1, the symbol of its parent at position 0,
while its parent gets C at position 1: `AddIntNuc` labels the children before the node.
With the leaves A, T, C, C the same node has no earlier symbol to copy and the run stops
with a slice out of range. -/
theorem AddIntNuc_copies_previous_position :
    (∀ r : Fin 5,
      labelsOf (MinimumParsimony 7 (fun _ => r.val) ["GA", "GT", "GC", "GC"] unitMatrix
          combTree nucList) = some ["GA", "GT", "GC", "GC", "GG", "GC", "GC"] ∧
      scoreOf (MinimumParsimony 7 (fun _ => r.val) ["GA", "GT", "GC", "GC"] unitMatrix
          combTree nucList) 4 = some [1, 1, 2, 2, 2] ∧
      pointersOf (MinimumParsimony 7 (fun _ => r.val) ["GA", "GT", "GC", "GC"] unitMatrix
          combTree nucList) =
        some [(some 4, none, none), (some 4, none, none), (some 5, none, none),
          (some 6, none, none), (some 5, some 0, some 1), (some 6, some 4, some 2),
          (none, some 5, some 3)] ∧
      faultOf (MinimumParsimony 7 (fun _ => r.val) ["A", "T", "C", "C"] unitMatrix
          combTree nucList) = some Fault.sliceOutOfRange) := by
  decide

end Parsimony

end Recon
